import Mathlib

/-!
Verification development for the `edn.rs` repository: a generic EDN value
model (`src/value/mod.rs`), its container backends (`src/map.rs`,
`src/set.rs`, `src/vector.rs` in the default, ordered-tree configuration),
the conversions of `src/value/from.rs`, and the parsing/serialization
engine described by the specification (the crate modules `parser`, `ser`,
`number`, `read`, `error` are declared in `src/lib.rs` but their sources
are not available here; those parts are modelled from the specification,
as marked on each definition).

Machine integers do not occur on the verified paths: the value model keys
containers by structural ordering, and numeric literals are modelled with
unbounded integers and exact decimal rationals (the specification's
arbitrary-precision reading), so no word-size overflow arises.
-/

set_option maxHeartbeats 1000000
set_option linter.unnecessarySeqFocus false

namespace Edn

/-! ## Character classes used by the grammar -/

/-- Modelled from the spec: whitespace and commas are insignificant
separators (`parser` module is not in the available sources). -/
def wsChar (c : Char) : Bool :=
  c = ' ' || c = '\t' || c = '\n' || c = '\r' || c = ','

/-- Modelled from the spec: characters that may start a symbol or tag
identifier.  The spec leaves the exact lexical set open; we fix letters
plus a small punctuation set that cannot collide with other token starts. -/
def identStart (c : Char) : Bool :=
  c.isAlpha || c = '*' || c = '!' || c = '?'

/-- Modelled from the spec: characters that may continue a
symbol/keyword identifier (letters, digits, and punctuation including a
namespace separator). -/
def identCont (c : Char) : Bool :=
  identStart c || c.isDigit || c = '-' || c = '+' || c = '/' || c = '.' || c = '_'

/-- Closing delimiters of the grammar. -/
def closerChar (c : Char) : Bool :=
  c = ')' || c = ']' || c = '}'

/-! ## Decimal digits -/

/-- The decimal digit characters, by value. -/
def digitToChar : Nat → Char
  | 0 => '0' | 1 => '1' | 2 => '2' | 3 => '3' | 4 => '4'
  | 5 => '5' | 6 => '6' | 7 => '7' | 8 => '8' | _ => '9'

/-- Numeric value of a digit character. -/
def charToDigit (c : Char) : Nat := c.toNat - 48

/-- Value of a digit run, most significant first (Horner form, as a
recursive-descent number scanner accumulates it). -/
def digitsVal (cs : List Char) : Nat :=
  cs.foldl (fun a c => 10 * a + charToDigit c) 0

/-- Decimal digit characters of `n`, accumulator form; `fuel` bounds the
recursion and any `fuel ≥ n` is exact. -/
def natToCharsAux : Nat → Nat → List Char → List Char
  | 0, _, acc => acc
  | _ + 1, 0, acc => acc
  | f + 1, n, acc => natToCharsAux f (n / 10) (digitToChar (n % 10) :: acc)

/-- Decimal digit characters of `n` (most significant first). -/
def natToChars (n : Nat) : List Char :=
  if n = 0 then ['0'] else natToCharsAux n n []

/-- Decimal text of an integer, with a leading minus sign when negative. -/
def intToChars (i : Int) : List Char :=
  if i < 0 then '-' :: natToChars i.natAbs else natToChars i.toNat

/-! ## Numbers

Modelled from the spec (`number` module not in the available sources):
a Number is either an integer or an IEEE double; doubles are modelled
abstractly as either one of the three non-finite classes or an exact
(decimal) rational value, which is all the ordering, conversion and
round-trip contracts observe.  The float total order is the ordered
wrapper order required by the spec: -Inf < finite < +Inf < NaN, and
NaN compares equal to NaN. -/

/-- Abstract model of an `f64` for ordering/formatting purposes:
non-finite classes are explicit, finite values are their exact rational. -/
inductive F64 where
  | negInf : F64
  | finite (q : Rat) : F64
  | posInf : F64
  | nan : F64
deriving DecidableEq

/-- Finiteness classification of the abstract float. -/
def F64.isFinite : F64 → Bool
  | .finite _ => true
  | _ => false

/-- Modelled from the spec: unified numeric representation (integer or
double). -/
inductive Number where
  | int (i : Int) : Number
  | float (f : F64) : Number
deriving DecidableEq

/-- Three-way comparison on `Nat` written out explicitly. -/
def natCmp (a b : Nat) : Ordering :=
  if a < b then .lt else if b < a then .gt else .eq

/-- Three-way comparison on `Int`. -/
def intCmp (a b : Int) : Ordering :=
  if a < b then .lt else if b < a then .gt else .eq

/-- Three-way comparison on `Rat`. -/
def ratCmp (a b : Rat) : Ordering :=
  if a < b then .lt else if b < a then .gt else .eq

/-- Three-way comparison on `Bool` (`false < true`, as in Rust). -/
def boolCmp (a b : Bool) : Ordering :=
  match a, b with
  | false, true => .lt
  | true, false => .gt
  | _, _ => .eq

/-- Lexicographic comparison of character lists by code point, matching
Rust's `Ord` on `String`/`char`. -/
def charsCmp : List Char → List Char → Ordering
  | [], [] => .eq
  | [], _ :: _ => .lt
  | _ :: _, [] => .gt
  | c :: cs, d :: ds => (natCmp c.toNat d.toNat).then (charsCmp cs ds)

/-- Variant index of the abstract float in its total order. -/
def F64.idx : F64 → Nat
  | .negInf => 0
  | .finite _ => 1
  | .posInf => 2
  | .nan => 3

/-- Modelled from the spec: total order on doubles usable as map/set
keys; NaN is a value comparable to (and equal to) itself. -/
def F64.cmp (a b : F64) : Ordering :=
  match a, b with
  | .finite q, .finite r => ratCmp q r
  | _, _ => natCmp a.idx b.idx

/-- Modelled from the spec: total order on Numbers; integer and float
kinds are distinct, floats order by `F64.cmp`. -/
def Number.cmp (a b : Number) : Ordering :=
  match a, b with
  | .int i, .int j => intCmp i j
  | .float x, .float y => F64.cmp x y
  | .int _, .float _ => .lt
  | .float _, .int _ => .gt

/-! ## The Value model

From `src/src/value/mod.rs`: a closed tagged union.  The default
container backend (`immutable` feature off) is `Vec` for sequences,
`BTreeMap`/`BTreeSet` for maps and sets; the tree containers are modelled
by their iteration order: strictly sorted entry lists.  Sequences and
entry lists are mutually inductive spines so that every recursion below
stays structural. -/

mutual

/-- The `Value` enum of `src/src/value/mod.rs`, variants in source order. -/
inductive Value where
  | nil : Value
  | boolean (b : Bool) : Value
  | string (s : String) : Value
  | char (c : Char) : Value
  | symbol (s : String) : Value
  | keyword (s : String) : Value
  | number (n : Number) : Value
  | list (xs : ValueVec) : Value
  | vector (xs : ValueVec) : Value
  | map (m : ValueMap) : Value
  | set (xs : ValueVec) : Value
  | tagged (t : String) (v : Value) : Value

/-- An ordered sequence of Values (`Vec<Value>`; also the sorted
iteration sequence of a `BTreeSet<Value>`). -/
inductive ValueVec where
  | nil : ValueVec
  | cons (v : Value) (rest : ValueVec) : ValueVec

/-- The key-sorted entry sequence of a `BTreeMap<Value, Value>`. -/
inductive ValueMap where
  | nil : ValueMap
  | cons (k v : Value) (rest : ValueMap) : ValueMap

end

/-- Variant index of a `Value`, in source declaration order (the order
the derived `Ord` compares variants in). -/
def Value.ctorIdx : Value → Nat
  | .nil => 0
  | .boolean _ => 1
  | .string _ => 2
  | .char _ => 3
  | .symbol _ => 4
  | .keyword _ => 5
  | .number _ => 6
  | .list _ => 7
  | .vector _ => 8
  | .map _ => 9
  | .set _ => 10
  | .tagged _ _ => 11

mutual

/-- The total order on `Value` (the derived `Ord` of the enum): variant
index in declaration order first, then payloads lexicographically. -/
def valueCmp : Value → Value → Ordering
  | .nil, .nil => .eq
  | .boolean a, .boolean b => boolCmp a b
  | .string a, .string b => charsCmp a.data b.data
  | .char a, .char b => natCmp a.toNat b.toNat
  | .symbol a, .symbol b => charsCmp a.data b.data
  | .keyword a, .keyword b => charsCmp a.data b.data
  | .number a, .number b => Number.cmp a b
  | .list a, .list b => seqCmp a b
  | .vector a, .vector b => seqCmp a b
  | .map a, .map b => entriesCmp a b
  | .set a, .set b => seqCmp a b
  | .tagged s a, .tagged t b => (charsCmp s.data t.data).then (valueCmp a b)
  | a, b => natCmp a.ctorIdx b.ctorIdx

/-- Lexicographic comparison of Value sequences (derived `Ord` on
`Vec`/`BTreeSet`). -/
def seqCmp : ValueVec → ValueVec → Ordering
  | .nil, .nil => .eq
  | .nil, .cons _ _ => .lt
  | .cons _ _, .nil => .gt
  | .cons x xs, .cons y ys => (valueCmp x y).then (seqCmp xs ys)

/-- Lexicographic comparison of map entry sequences (derived `Ord` on
`BTreeMap` iterates entries in key order). -/
def entriesCmp : ValueMap → ValueMap → Ordering
  | .nil, .nil => .eq
  | .nil, .cons _ _ _ => .lt
  | .cons _ _ _, .nil => .gt
  | .cons k v r, .cons k' v' r' =>
      ((valueCmp k k').then (valueCmp v v')).then (entriesCmp r r')

end

/-! ## Container operations

The default backend (`src/src/map.rs`, `src/src/set.rs` without the
`immutable` feature) is `BTreeMap`/`BTreeSet` over the `Value` order;
modelled by their sorted entry sequences.  `insert` on an equal key keeps
the existing key and replaces the associated value, as `BTreeMap::insert`
does. -/

/-- `BTreeMap::insert` on the sorted entry sequence. -/
def mapInsert : ValueMap → Value → Value → ValueMap
  | .nil, k, v => .cons k v .nil
  | .cons k' v' rest, k, v =>
    match valueCmp k k' with
    | .lt => .cons k v (.cons k' v' rest)
    | .eq => .cons k' v rest
    | .gt => .cons k' v' (mapInsert rest k v)

/-- `BTreeMap::get` on the entry sequence. -/
def mapLookup : ValueMap → Value → Option Value
  | .nil, _ => none
  | .cons k' v' rest, k =>
    match valueCmp k k' with
    | .eq => some v'
    | _ => mapLookup rest k

/-- `BTreeSet::insert` on the sorted element sequence (an equal element
is a duplicate: the set is unchanged). -/
def setInsert : ValueVec → Value → ValueVec
  | .nil, x => .cons x .nil
  | .cons y rest, x =>
    match valueCmp x y with
    | .lt => .cons x (.cons y rest)
    | .eq => .cons y rest
    | .gt => .cons y (setInsert rest x)

/-- Build a map by inserting entries in encounter order (last write
wins on duplicate keys), starting from accumulator `acc`. -/
def mapFromAux : ValueMap → ValueMap → ValueMap
  | acc, .nil => acc
  | acc, .cons k v rest => mapFromAux (mapInsert acc k v) rest

/-- Build a set by inserting elements in encounter order. -/
def setFromAux : ValueVec → ValueVec → ValueVec
  | acc, .nil => acc
  | acc, .cons x rest => setFromAux (setInsert acc x) rest

/-- `x` is strictly below every element of the sequence. -/
def seqLtAll (x : Value) : ValueVec → Bool
  | .nil => true
  | .cons y rest => decide (valueCmp x y = .lt) && seqLtAll x rest

/-- The sequence is strictly sorted (the `BTreeSet` iteration
invariant). -/
def seqSorted : ValueVec → Bool
  | .nil => true
  | .cons x rest => seqLtAll x rest && seqSorted rest

/-- `k` is strictly below every key of the entry sequence. -/
def mapKeyLtAll (k : Value) : ValueMap → Bool
  | .nil => true
  | .cons k' _ rest => decide (valueCmp k k' = .lt) && mapKeyLtAll k rest

/-- The entry sequence is strictly key-sorted (the `BTreeMap`
iteration invariant: keys unique and ordered). -/
def mapSorted : ValueMap → Bool
  | .nil => true
  | .cons k _ rest => mapKeyLtAll k rest && mapSorted rest

/-- Concatenation of Value sequences. -/
def seqAppend : ValueVec → ValueVec → ValueVec
  | .nil, ys => ys
  | .cons x xs, ys => .cons x (seqAppend xs ys)

/-- Concatenation of entry sequences. -/
def mapAppend : ValueMap → ValueMap → ValueMap
  | .nil, ys => ys
  | .cons k v xs, ys => .cons k v (mapAppend xs ys)

/-! ## Error model

Modelled from the spec (`error` module not in the available sources):
the error kinds the verified paths distinguish.  `eofError` is "input
ended mid-value", `syntaxError` is "input violates the grammar", and
`trailingError` is the whole-input entry point's "trailing characters"
failure (reported by `is_eof` as not-EOF, like a syntax failure). -/
inductive ErrKind where
  | eofError : ErrKind
  | syntaxError : ErrKind
  | trailingError : ErrKind
deriving DecidableEq

/-- The `Error::is_eof` classification used by the tests. -/
def ErrKind.isEof : ErrKind → Bool
  | .eofError => true
  | _ => false

/-! ## The Reader/Parser model

Modelled from the spec (`read`/`parser` modules not in the available
sources): the input is a character sequence; the parser is
recursive-descent with one-character dispatch, eagerly consuming
whitespace/comma separators and `;` line comments between tokens.
Recursion is fueled; `2 * length + 1` fuel is always sufficient and is
what the entry points supply. -/

/-- Consume insignificant separators: whitespace, commas, and `;` line
comments.  The flag is true while inside a comment. -/
def skipWsAux : Bool → List Char → List Char
  | _, [] => []
  | true, c :: rest =>
    if c = '\n' then skipWsAux false rest else skipWsAux true rest
  | false, c :: rest =>
    if wsChar c then skipWsAux false rest
    else if c = ';' then skipWsAux true rest
    else c :: rest

/-- Consume insignificant separators at the current position. -/
def skipWs (s : List Char) : List Char := skipWsAux false s

/-- Single-character string escapes recognized by the grammar. -/
def escChar? (e : Char) : Option Char :=
  if e = '"' then some '"'
  else if e = '\\' then some '\\'
  else if e = 'n' then some '\n'
  else if e = 't' then some '\t'
  else if e = 'r' then some '\r'
  else none

/-- Value of a hexadecimal digit character, if any. -/
def hexVal? (c : Char) : Option Nat :=
  if c.isDigit then some (c.toNat - 48)
  else if 'a' ≤ c && c ≤ 'f' then some (c.toNat - 87)
  else if 'A' ≤ c && c ≤ 'F' then some (c.toNat - 55)
  else none

/-- Prepend a scanned character to a string-scan result. -/
def strCons (c : Char) (res : Except ErrKind (List Char × List Char)) :
    Except ErrKind (List Char × List Char) :=
  match res with
  | .ok (cs, rr) => .ok (c :: cs, rr)
  | .error e => .error e

mutual

/-- String body scanner, after the opening quote: backslash escapes
(including `\uXXXX`), terminated by an unescaped quote; running out of
input mid-string is an EOF error, a bad escape is a syntax error. -/
def parseStr : List Char → Except ErrKind (List Char × List Char)
  | [] => .error .eofError
  | c :: r =>
    if c = '"' then .ok ([], r)
    else if c = '\\' then parseEsc r
    else strCons c (parseStr r)

/-- Escape sequence scanner, after the backslash inside a string. -/
def parseEsc : List Char → Except ErrKind (List Char × List Char)
  | [] => .error .eofError
  | e :: r2 =>
    if e = 'u' then
      match r2 with
      | h1 :: h2 :: h3 :: h4 :: r3 =>
        match hexVal? h1, hexVal? h2, hexVal? h3, hexVal? h4 with
        | some a, some b, some x, some d =>
          let code := ((a * 16 + b) * 16 + x) * 16 + d
          if Nat.isValidChar code then strCons (Char.ofNat code) (parseStr r3)
          else .error .syntaxError
        | _, _, _, _ => .error .syntaxError
      | _ => .error .eofError
    else
      match escChar? e with
      | some ec => strCons ec (parseStr r2)
      | none => .error .syntaxError

end

/-- The named character literals of the grammar. -/
def namedChar? (run : List Char) : Option Char :=
  if run = "newline".data then some '\n'
  else if run = "space".data then some ' '
  else if run = "tab".data then some '\t'
  else none

/-- Whether `run` could still grow into a named character literal. -/
def namedCandidate (run : List Char) : Bool :=
  run.isPrefixOf "newline".data || run.isPrefixOf "space".data ||
    run.isPrefixOf "tab".data

/-- Character literal scanner, after the backslash: one codepoint, or a
named character; a truncated named character at end of input is an EOF
error, an unknown name a syntax error. -/
def parseChar : List Char → Except ErrKind (Char × List Char)
  | [] => .error .eofError
  | c :: r =>
    if c.isAlpha then
      let run := c :: r.takeWhile (·.isAlpha)
      let rem := r.dropWhile (·.isAlpha)
      if run.length = 1 then .ok (c, rem)
      else
        match namedChar? run with
        | some ch => .ok (ch, rem)
        | none =>
          if rem.isEmpty && namedCandidate run then .error .eofError
          else .error .syntaxError
    else .ok (c, r)

/-- Whether `run` could still grow into one of the literal words
`nil`/`true`/`false`. -/
def literalCandidate (run : List Char) : Bool :=
  run.isPrefixOf "nil".data || run.isPrefixOf "true".data ||
    run.isPrefixOf "false".data

/-- Identifier token at a value position: the literal words denote
`nil` and booleans, a truncated literal word at end of input is an EOF
error (the word could still be completed by more input), anything else
is a symbol. -/
def identParse (s : List Char) : Except ErrKind (Value × List Char) :=
  let run := s.takeWhile identCont
  let rem := s.dropWhile identCont
  if run = "nil".data then .ok (.nil, rem)
  else if run = "true".data then .ok (.boolean true, rem)
  else if run = "false".data then .ok (.boolean false, rem)
  else if rem.isEmpty && literalCandidate run then .error .eofError
  else .ok (.symbol (String.mk run), rem)

/-- Keyword token, after the leading colon. -/
def keywordParse (s : List Char) : Except ErrKind (Value × List Char) :=
  let run := s.takeWhile identCont
  let rem := s.dropWhile identCont
  if run.isEmpty then
    if s.isEmpty then .error .eofError else .error .syntaxError
  else .ok (.keyword (String.mk run), rem)

/-- Scale an exact rational by a power of ten. -/
def scalePow10 (q : Rat) (e : Int) : Rat :=
  if 0 ≤ e then q * ((10 ^ e.toNat : Nat) : Rat)
  else q / ((10 ^ (-e).toNat : Nat) : Rat)

/-- The float value denoted by sign, integer digits, fraction digits and
exponent. -/
def floatOf (sgn : Int) (d1 d2 : List Char) (e : Int) : Number :=
  .float (.finite
    (scalePow10 (mkRat (sgn * (digitsVal (d1 ++ d2) : Int)) (10 ^ d2.length)) e))

/-- Optional leading sign of a numeric literal. -/
def signSplit (s : List Char) : Int × List Char :=
  match s with
  | [] => (1, s)
  | c :: r => if c = '-' then (-1, r) else if c = '+' then (1, r) else (1, s)

/-- Exponent part of a numeric literal, after `e`/`E`. -/
def parseExp (sgn : Int) (d1 d2 : List Char) (s : List Char) :
    Except ErrKind (Number × List Char) :=
  let p := signSplit s
  let d3 := p.2.takeWhile (·.isDigit)
  let r3 := p.2.dropWhile (·.isDigit)
  if d3.isEmpty then
    if r3.isEmpty then .error .eofError else .error .syntaxError
  else .ok (floatOf sgn d1 d2 (p.1 * (digitsVal d3 : Int)), r3)

/-- Continuation after the fraction digits of a float literal. -/
def fracTail (sgn : Int) (d1 d2 : List Char) : List Char → Except ErrKind (Number × List Char)
  | [] => .ok (floatOf sgn d1 d2 0, [])
  | c :: r4 =>
    if c = 'e' || c = 'E' then parseExp sgn d1 d2 r4
    else if c = 'N' || c = 'M' then .error .syntaxError
    else .ok (floatOf sgn d1 d2 0, c :: r4)

/-- Fraction part of a float literal, after the decimal point. -/
def fracPart (sgn : Int) (d1 : List Char) (r2 : List Char) :
    Except ErrKind (Number × List Char) :=
  let d2 := r2.takeWhile (·.isDigit)
  let r3 := r2.dropWhile (·.isDigit)
  if d2.isEmpty then
    if r3.isEmpty then .error .eofError else .error .syntaxError
  else fracTail sgn d1 d2 r3

/-- Continuation after the integer digits of a numeric literal. -/
def numTail (sgn : Int) (d1 : List Char) : List Char → Except ErrKind (Number × List Char)
  | [] => .ok (.int (sgn * (digitsVal d1 : Int)), [])
  | c :: r2 =>
    if c = '.' then fracPart sgn d1 r2
    else if c = 'e' || c = 'E' then parseExp sgn d1 [] r2
    else if c = 'N' || c = 'M' then .error .syntaxError
    else .ok (.int (sgn * (digitsVal d1 : Int)), c :: r2)

/-- Numeric literal scanner: optional sign, digit run, optional `.`
fraction, optional exponent; explicit big-number suffixes `N`/`M` are
recognized and rejected (arbitrary-precision mode is off); a literal
truncated by end of input is an EOF error. -/
def parseNum (s : List Char) : Except ErrKind (Number × List Char) :=
  let p := signSplit s
  let d1 := p.2.takeWhile (·.isDigit)
  let r1 := p.2.dropWhile (·.isDigit)
  if d1.isEmpty then
    if r1.isEmpty then .error .eofError else .error .syntaxError
  else numTail p.1 d1 r1

/-- Group a flat element sequence into map entries; fails on an odd
count. -/
def pairUp : ValueVec → Option ValueMap
  | .nil => some .nil
  | .cons _ .nil => none
  | .cons k (.cons v rest) => (pairUp rest).map (ValueMap.cons k v)

/-- Wrap a sequence scan as a List value. -/
def listRes : Except ErrKind (ValueVec × List Char) → Except ErrKind (Value × List Char)
  | .ok (xs, r) => .ok (.list xs, r)
  | .error e => .error e

/-- Wrap a sequence scan as a Vector value. -/
def vectorRes : Except ErrKind (ValueVec × List Char) → Except ErrKind (Value × List Char)
  | .ok (xs, r) => .ok (.vector xs, r)
  | .error e => .error e

/-- Wrap a sequence scan as a Set value, inserting elements in
encounter order. -/
def setRes : Except ErrKind (ValueVec × List Char) → Except ErrKind (Value × List Char)
  | .ok (xs, r) => .ok (.set (setFromAux .nil xs), r)
  | .error e => .error e

/-- Wrap a sequence scan as a Map value: group into entries (an odd
count is a syntax error) and insert in encounter order (last write
wins). -/
def mapRes : Except ErrKind (ValueVec × List Char) → Except ErrKind (Value × List Char)
  | .ok (xs, r) =>
    match pairUp xs with
    | some ps => .ok (.map (mapFromAux .nil ps), r)
    | none => .error .syntaxError
  | .error e => .error e

/-- Wrap a string-body scan as a String value. -/
def stringRes : Except ErrKind (List Char × List Char) → Except ErrKind (Value × List Char)
  | .ok (cs, r) => .ok (.string (String.mk cs), r)
  | .error e => .error e

/-- Wrap a character-literal scan as a Char value. -/
def charRes : Except ErrKind (Char × List Char) → Except ErrKind (Value × List Char)
  | .ok (ch, r) => .ok (.char ch, r)
  | .error e => .error e

/-- Wrap a numeric-literal scan as a Number value. -/
def numberRes : Except ErrKind (Number × List Char) → Except ErrKind (Value × List Char)
  | .ok (n, r) => .ok (.number n, r)
  | .error e => .error e

/-- Wrap a payload scan as a Tagged value. -/
def taggedRes (t : String) :
    Except ErrKind (Value × List Char) → Except ErrKind (Value × List Char)
  | .ok (v, r) => .ok (.tagged t v, r)
  | .error e => .error e

mutual

/-- One value at the current position (fueled).  Dispatch on the first
significant character; end of input at a value position is an EOF
error, a character matching no production a syntax error. -/
def parseValueF : Nat → List Char → Except ErrKind (Value × List Char)
  | 0, _ => .error .eofError
  | fuel + 1, s0 =>
    match skipWs s0 with
    | [] => .error .eofError
    | c :: s =>
      if c = '(' then listRes (parseSeqF fuel ')' s)
      else if c = '[' then vectorRes (parseSeqF fuel ']' s)
      else if c = '{' then mapRes (parseSeqF fuel '}' s)
      else if c = '"' then stringRes (parseStr s)
      else if c = '\\' then charRes (parseChar s)
      else if c = ':' then keywordParse s
      else if c = '#' then
        match s with
        | [] => .error .eofError
        | '{' :: r => setRes (parseSeqF fuel '}' r)
        | '_' :: r =>
          match parseValueF fuel r with
          | .ok (_, r2) => parseValueF fuel r2
          | .error e => .error e
        | c2 :: r =>
          if identStart c2 then
            taggedRes (String.mk (c2 :: r.takeWhile identCont))
              (parseValueF fuel (r.dropWhile identCont))
          else .error .syntaxError
      else if c = '-' || c = '+' || c.isDigit then numberRes (parseNum (c :: s))
      else if identStart c then identParse (c :: s)
      else .error .syntaxError

/-- Elements of a collection up to the closing delimiter `close`
(fueled); end of input before the closer is an EOF error. -/
def parseSeqF : Nat → Char → List Char → Except ErrKind (ValueVec × List Char)
  | 0, _, _ => .error .eofError
  | fuel + 1, close, s =>
    match skipWs s with
    | [] => .error .eofError
    | c :: rest =>
      if c = close then .ok (.nil, rest)
      else
        match parseValueF fuel (c :: rest) with
        | .ok (v, r) =>
          match parseSeqF fuel close r with
          | .ok (vs, r2) => .ok (ValueVec.cons v vs, r2)
          | .error e => .error e
        | .error e => .error e

end

/-- Modelled from the spec: `Parser::read` — read one value and leave
the stream positioned exactly after its last consumed character. -/
def read_value (s : List Char) : Except ErrKind (Value × List Char) :=
  parseValueF (2 * s.length + 1) s

/-- Modelled from the spec: `parse_one`/`from_str` — read one value and
require only insignificant separators to remain. -/
def parse_one (s : List Char) : Except ErrKind Value :=
  match read_value s with
  | .ok (v, rest) =>
      if (skipWs rest).isEmpty then .ok v else .error .trailingError
  | .error e => .error e

/-- Modelled from the spec: the ignore/discard decode — fully consume
one value's tokens producing no output, leaving the stream after them. -/
def ignoreOne (s : List Char) : Except ErrKind (List Char) :=
  match read_value s with
  | .ok (_, rest) => .ok rest
  | .error e => .error e

/-! ## The Serializer model

Modelled from the spec (`ser` module not in the available sources):
compact mode separates siblings with single spaces; pretty mode emits a
newline plus two spaces of indentation per nesting level before each
collection member; map entries are `key value`, space-separated; both
modes share one code path parameterized by mode. -/

/-- String-body escaping: quote, backslash and the control characters
newline/tab/return are escaped; everything else is emitted raw. -/
def escSeq (c : Char) : List Char :=
  if c = '"' then ['\\', '"']
  else if c = '\\' then ['\\', '\\']
  else if c = '\n' then ['\\', 'n']
  else if c = '\t' then ['\\', 't']
  else if c = '\r' then ['\\', 'r']
  else [c]

/-- Escaped text of a string body. -/
def escBody : List Char → List Char
  | [] => []
  | c :: r => escSeq c ++ escBody r

/-- Body of a character literal (after the backslash): named where the
grammar requires it, the raw codepoint otherwise. -/
def charBody (c : Char) : List Char :=
  if c = '\n' then "newline".data
  else if c = ' ' then "space".data
  else if c = '\t' then "tab".data
  else [c]

/-- Text of a character literal. -/
def charText (c : Char) : List Char := '\\' :: charBody c

/-- All decimal digits of a finite float's magnitude, zero-padded to at
least `den + 1` digits. -/
def ratPadded (q : Rat) : List Char :=
  let k := q.den
  let t := 10 ^ k / k
  let m := q.num.natAbs * t
  let ds := natToChars m
  List.replicate (k + 1 - ds.length) '0' ++ ds

/-- Integer-part digits of a finite float's text. -/
def ratIp (q : Rat) : List Char :=
  (ratPadded q).take ((ratPadded q).length - q.den)

/-- Fraction-part digits of a finite float's text. -/
def ratFp (q : Rat) : List Char :=
  (ratPadded q).drop ((ratPadded q).length - q.den)

/-- Decimal text of a finite float: sign, integer digits, `.`, exactly
`den` fraction digits (an exact, re-parseable decimal form). -/
def ratChars (q : Rat) : List Char :=
  (if q.num < 0 then ['-'] else []) ++ ratIp q ++ '.' :: ratFp q

/-- Text of a Number.  Non-finite floats have no EDN literal; they are
emitted in the conventional `##`-form, which this grammar rejects on
re-parse (they are not grammar-constructible). -/
def numberChars : Number → List Char
  | .int i => intToChars i
  | .float (.finite q) => ratChars q
  | .float .nan => '#' :: '#' :: "NaN".data
  | .float .posInf => '#' :: '#' :: "Inf".data
  | .float .negInf => '#' :: '#' :: '-' :: "Inf".data

/-- Serializer output mode. -/
inductive Mode where
  | compact : Mode
  | pretty : Mode
deriving DecidableEq

/-- Separator emitted before a collection member: newline plus
indentation in pretty mode; in compact mode a single space between
siblings and nothing before the first member. -/
def sepChars (p : Bool) (d : Nat) (first : Bool) : List Char :=
  if p then '\n' :: List.replicate (2 * d) ' '
  else if first then [] else [' ']

mutual

/-- Serialize a Value (`p` selects pretty mode, `d` is the nesting
depth). -/
def renderF (p : Bool) (d : Nat) : Value → List Char
  | .nil => "nil".data
  | .boolean true => "true".data
  | .boolean false => "false".data
  | .string s => '"' :: (escBody s.data ++ ['"'])
  | .char c => charText c
  | .symbol s => s.data
  | .keyword s => ':' :: s.data
  | .number n => numberChars n
  | .list xs => '(' :: (renderSeqF p (d + 1) true xs ++ [')'])
  | .vector xs => '[' :: (renderSeqF p (d + 1) true xs ++ [']'])
  | .map m => '{' :: (renderEntriesF p (d + 1) true m ++ ['}'])
  | .set xs => '#' :: '{' :: (renderSeqF p (d + 1) true xs ++ ['}'])
  | .tagged t v => '#' :: (t.data ++ ' ' :: renderF p d v)

/-- Serialize collection members, separator before each. -/
def renderSeqF (p : Bool) (d : Nat) : Bool → ValueVec → List Char
  | _, .nil => []
  | first, .cons v rest =>
      sepChars p d first ++ renderF p d v ++ renderSeqF p d false rest

/-- Serialize map entries, separator before each entry, space between
key and value. -/
def renderEntriesF (p : Bool) (d : Nat) : Bool → ValueMap → List Char
  | _, .nil => []
  | first, .cons k v rest =>
      sepChars p d first ++ renderF p d k ++ ' ' :: renderF p d v ++
        renderEntriesF p d false rest

end

/-- Modelled from the spec: `ser::to_writer` — compact serialization. -/
def to_writer (v : Value) : List Char := renderF false 0 v

/-- Modelled from the spec: `ser::to_writer_pretty` — indented
serialization. -/
def to_writer_pretty (v : Value) : List Char := renderF true 0 v

/-- Modelled from the spec: `to_text(value, mode)`. -/
def to_text (v : Value) (m : Mode) : List Char :=
  match m with
  | .compact => to_writer v
  | .pretty => to_writer_pretty v

/-- The `fmt::Display` impl of `src/src/value/mod.rs`: the plain form
delegates to `ser::to_writer`, the alternate (`{:#}`) form to
`ser::to_writer_pretty`. -/
def Value.display (v : Value) (alternate : Bool) : List Char :=
  if alternate then to_writer_pretty v else to_writer v

/-! ## Grammar-constructible Values

The Values producible by the grammar (and whose canonical text
re-parses): identifier payloads lexically valid and not colliding with
the literal words, floats finite with an exact decimal value, map/set
contents strictly sorted (the tree backend invariant). -/

/-- Lexically valid identifier (symbol or tag) text. -/
def validIdent (s : String) : Bool :=
  match s.data with
  | [] => false
  | c :: r => identStart c && r.all identCont

/-- Valid symbol text: a valid identifier that is not a prefix of (nor
equal to) one of the literal words. -/
def validSym (s : String) : Bool :=
  validIdent s && !(s.data.isPrefixOf "nil".data) &&
    !(s.data.isPrefixOf "true".data) && !(s.data.isPrefixOf "false".data)

/-- Valid keyword body text. -/
def validKw (s : String) : Bool :=
  !s.data.isEmpty && s.data.all identCont

/-- The rational is an exact decimal (denominator divides a power of
ten), i.e. the value of some float literal. -/
def decimalRat (q : Rat) : Bool := decide (q.den ∣ 10 ^ q.den)

/-- Grammar-constructible Numbers. -/
def constructibleNum : Number → Bool
  | .int _ => true
  | .float (.finite q) => decimalRat q
  | .float _ => false

mutual

/-- Grammar-constructible Values. -/
def constructible : Value → Bool
  | .nil => true
  | .boolean _ => true
  | .string _ => true
  | .char _ => true
  | .symbol s => validSym s
  | .keyword s => validKw s
  | .number n => constructibleNum n
  | .list xs => constructibleSeq xs
  | .vector xs => constructibleSeq xs
  | .map m => mapSorted m && constructibleEntries m
  | .set xs => seqSorted xs && constructibleSeq xs
  | .tagged t v => validIdent t && constructible v

/-- All elements grammar-constructible. -/
def constructibleSeq : ValueVec → Bool
  | .nil => true
  | .cons v rest => constructible v && constructibleSeq rest

/-- All keys and values grammar-constructible. -/
def constructibleEntries : ValueMap → Bool
  | .nil => true
  | .cons k v rest => constructible k && constructible v && constructibleEntries rest

end

/-! ## Ordering infrastructure lemmas -/

theorem then_eq_lt {x y : Ordering} : x.then y = .lt ↔ x = .lt ∨ (x = .eq ∧ y = .lt) := by
  cases x <;> simp [Ordering.then]

theorem then_eq_eq {x y : Ordering} : x.then y = .eq ↔ x = .eq ∧ y = .eq := by
  cases x <;> simp [Ordering.then]

theorem swap_then (x y : Ordering) : (x.then y).swap = x.swap.then y.swap := by
  cases x <;> rfl

theorem natCmp_eq_iff {a b : Nat} : natCmp a b = .eq ↔ a = b := by
  unfold natCmp; split_ifs <;> simp <;> omega

theorem natCmp_lt_iff {a b : Nat} : natCmp a b = .lt ↔ a < b := by
  unfold natCmp; split_ifs <;> simp <;> omega

theorem natCmp_swap (a b : Nat) : (natCmp a b).swap = natCmp b a := by
  unfold natCmp; split_ifs <;> first | rfl | omega

theorem natCmp_lt_trans {a b c : Nat} (h1 : natCmp a b = .lt) (h2 : natCmp b c = .lt) :
    natCmp a c = .lt := by
  rw [natCmp_lt_iff] at *; omega

theorem intCmp_eq_iff {a b : Int} : intCmp a b = .eq ↔ a = b := by
  unfold intCmp; split_ifs <;> simp <;> omega

theorem intCmp_lt_iff {a b : Int} : intCmp a b = .lt ↔ a < b := by
  unfold intCmp; split_ifs <;> simp <;> omega

theorem intCmp_swap (a b : Int) : (intCmp a b).swap = intCmp b a := by
  unfold intCmp; split_ifs <;> first | rfl | omega

theorem intCmp_lt_trans {a b c : Int} (h1 : intCmp a b = .lt) (h2 : intCmp b c = .lt) :
    intCmp a c = .lt := by
  rw [intCmp_lt_iff] at *; omega

theorem ratCmp_eq_iff {a b : Rat} : ratCmp a b = .eq ↔ a = b := by
  unfold ratCmp
  rcases lt_trichotomy a b with h | h | h
  · simp [h, h.ne]
  · simp [h, lt_irrefl]
  · simp [h.asymm, h, h.ne']

theorem ratCmp_lt_iff {a b : Rat} : ratCmp a b = .lt ↔ a < b := by
  unfold ratCmp
  rcases lt_trichotomy a b with h | h | h
  · simp [h]
  · simp [h, lt_irrefl]
  · simp [h.asymm, h]

theorem ratCmp_swap (a b : Rat) : (ratCmp a b).swap = ratCmp b a := by
  unfold ratCmp
  rcases lt_trichotomy a b with h | h | h
  · simp [h, h.asymm, Ordering.swap]
  · simp [h, lt_irrefl, Ordering.swap]
  · simp [h.asymm, h, Ordering.swap]

theorem ratCmp_lt_trans {a b c : Rat} (h1 : ratCmp a b = .lt) (h2 : ratCmp b c = .lt) :
    ratCmp a c = .lt := by
  rw [ratCmp_lt_iff] at *; exact h1.trans h2

theorem boolCmp_eq_iff {a b : Bool} : boolCmp a b = .eq ↔ a = b := by
  cases a <;> cases b <;> simp [boolCmp]

theorem boolCmp_swap (a b : Bool) : (boolCmp a b).swap = boolCmp b a := by
  cases a <;> cases b <;> rfl

theorem boolCmp_lt_trans {a b c : Bool} (h1 : boolCmp a b = .lt) (h2 : boolCmp b c = .lt) :
    boolCmp a c = .lt := by
  cases a <;> cases b <;> cases c <;> simp_all [boolCmp]

theorem char_toNat_inj {a b : Char} (h : a.toNat = b.toNat) : a = b := by
  have := Char.ofNat_toNat a
  rw [h, Char.ofNat_toNat] at this
  exact this.symm

theorem charsCmp_eq_iff : ∀ {a b : List Char}, charsCmp a b = .eq ↔ a = b
  | [], [] => by simp [charsCmp]
  | [], _ :: _ => by simp [charsCmp]
  | _ :: _, [] => by simp [charsCmp]
  | c :: cs, d :: ds => by
    simp only [charsCmp, then_eq_eq, natCmp_eq_iff, List.cons.injEq]
    constructor
    · rintro ⟨h1, h2⟩
      exact ⟨char_toNat_inj h1, charsCmp_eq_iff.mp h2⟩
    · rintro ⟨rfl, rfl⟩
      exact ⟨rfl, charsCmp_eq_iff.mpr rfl⟩

theorem charsCmp_swap : ∀ (a b : List Char), (charsCmp a b).swap = charsCmp b a
  | [], [] => rfl
  | [], _ :: _ => rfl
  | _ :: _, [] => rfl
  | c :: cs, d :: ds => by
    simp only [charsCmp, swap_then, natCmp_swap, charsCmp_swap cs ds]

theorem charsCmp_lt_trans : ∀ {a b c : List Char},
    charsCmp a b = .lt → charsCmp b c = .lt → charsCmp a c = .lt
  | [], _ :: _, _ :: _, _, _ => rfl
  | [], [], _, h1, _ => by cases h1
  | _ :: _, [], _, h1, _ => by cases h1
  | _ :: _, _ :: _, [], _, h2 => by cases h2
  | a :: as, b :: bs, c :: cs, h1, h2 => by
    simp only [charsCmp, then_eq_lt, natCmp_eq_iff, natCmp_lt_iff] at *
    rcases h1 with h1 | ⟨h1e, h1t⟩ <;> rcases h2 with h2 | ⟨h2e, h2t⟩
    · exact Or.inl (h1.trans h2)
    · exact Or.inl (h2e ▸ h1)
    · exact Or.inl (h1e ▸ h2)
    · exact Or.inr ⟨h1e.trans h2e, charsCmp_lt_trans h1t h2t⟩

theorem f64Cmp_eq_iff {a b : F64} : F64.cmp a b = .eq ↔ a = b := by
  cases a <;> cases b <;>
    simp [F64.cmp, F64.idx, natCmp, ratCmp_eq_iff]

theorem f64Cmp_swap (a b : F64) : (F64.cmp a b).swap = F64.cmp b a := by
  cases a <;> cases b <;>
    first
    | exact ratCmp_swap _ _
    | simp [F64.cmp, F64.idx, natCmp_swap]

theorem f64Cmp_lt_trans {a b c : F64} (h1 : F64.cmp a b = .lt) (h2 : F64.cmp b c = .lt) :
    F64.cmp a c = .lt := by
  cases a <;> cases b <;> cases c <;>
    simp_all [F64.cmp, F64.idx, natCmp] <;>
    exact ratCmp_lt_trans h1 h2

theorem numberCmp_eq_iff {a b : Number} : Number.cmp a b = .eq ↔ a = b := by
  cases a <;> cases b <;> simp [Number.cmp, intCmp_eq_iff, f64Cmp_eq_iff]

theorem numberCmp_swap (a b : Number) : (Number.cmp a b).swap = Number.cmp b a := by
  cases a <;> cases b <;>
    first
    | exact intCmp_swap _ _
    | exact f64Cmp_swap _ _
    | rfl

theorem numberCmp_lt_trans {a b c : Number} (h1 : Number.cmp a b = .lt)
    (h2 : Number.cmp b c = .lt) : Number.cmp a c = .lt := by
  cases a <;> cases b <;> cases c <;> simp_all [Number.cmp] <;>
    first
    | exact intCmp_lt_trans h1 h2
    | exact f64Cmp_lt_trans h1 h2

theorem strData_inj {s t : String} : s.data = t.data ↔ s = t := by
  constructor
  · intro h; cases s; cases t; exact congrArg String.mk h
  · intro h; rw [h]

mutual

theorem valueCmp_swap : ∀ (a b : Value), (valueCmp a b).swap = valueCmp b a
  | a, b => by
    cases a <;> cases b <;>
      first
      | rfl
      | exact boolCmp_swap ..
      | exact charsCmp_swap ..
      | exact numberCmp_swap ..
      | exact natCmp_swap ..
      | exact seqCmp_swap ..
      | exact entriesCmp_swap ..
      | (show ((charsCmp _ _).then (valueCmp _ _)).swap = _
         rw [swap_then, charsCmp_swap]
         exact congrArg _ (valueCmp_swap ..))
  termination_by a b => sizeOf a + sizeOf b

theorem seqCmp_swap : ∀ (a b : ValueVec), (seqCmp a b).swap = seqCmp b a
  | .nil, .nil => rfl
  | .nil, .cons _ _ => rfl
  | .cons _ _, .nil => rfl
  | .cons x xs, .cons y ys => by
    show ((valueCmp x y).then (seqCmp xs ys)).swap = _
    rw [swap_then, valueCmp_swap x y, seqCmp_swap xs ys]; rfl
  termination_by a b => sizeOf a + sizeOf b

theorem entriesCmp_swap : ∀ (a b : ValueMap), (entriesCmp a b).swap = entriesCmp b a
  | .nil, .nil => rfl
  | .nil, .cons _ _ _ => rfl
  | .cons _ _ _, .nil => rfl
  | .cons k v r, .cons k' v' r' => by
    show (((valueCmp k k').then (valueCmp v v')).then (entriesCmp r r')).swap = _
    rw [swap_then, swap_then, valueCmp_swap k k', valueCmp_swap v v',
      entriesCmp_swap r r']; rfl
  termination_by a b => sizeOf a + sizeOf b

end

mutual

theorem valueCmp_eq_iff : ∀ (a b : Value), valueCmp a b = .eq ↔ a = b
  | a, b => by
    cases a <;> cases b <;>
      first
      | (simp [valueCmp, Value.ctorIdx, natCmp]; done)
      | (show boolCmp _ _ = .eq ↔ _; rw [boolCmp_eq_iff]; simp)
      | (show charsCmp _ _ = .eq ↔ _; rw [charsCmp_eq_iff, strData_inj]; simp)
      | (show natCmp _ _ = .eq ↔ _
         rw [natCmp_eq_iff]
         constructor
         · intro h; rw [char_toNat_inj h]
         · intro h; cases h; rfl)
      | (show Number.cmp _ _ = .eq ↔ _; rw [numberCmp_eq_iff]; simp)
      | (show seqCmp _ _ = .eq ↔ _; rw [seqCmp_eq_iff ..]; simp)
      | (show entriesCmp _ _ = .eq ↔ _; rw [entriesCmp_eq_iff ..]; simp)
      | (show (charsCmp _ _).then (valueCmp _ _) = .eq ↔ _
         rw [then_eq_eq, charsCmp_eq_iff, strData_inj, valueCmp_eq_iff ..]
         simp)
  termination_by a b => sizeOf a + sizeOf b

theorem seqCmp_eq_iff : ∀ (a b : ValueVec), seqCmp a b = .eq ↔ a = b
  | .nil, .nil => by simp [seqCmp]
  | .nil, .cons _ _ => by simp [seqCmp]
  | .cons _ _, .nil => by simp [seqCmp]
  | .cons x xs, .cons y ys => by
    show (valueCmp x y).then (seqCmp xs ys) = .eq ↔ _
    rw [then_eq_eq, valueCmp_eq_iff x y, seqCmp_eq_iff xs ys]
    simp
  termination_by a b => sizeOf a + sizeOf b

theorem entriesCmp_eq_iff : ∀ (a b : ValueMap), entriesCmp a b = .eq ↔ a = b
  | .nil, .nil => by simp [entriesCmp]
  | .nil, .cons _ _ _ => by simp [entriesCmp]
  | .cons _ _ _, .nil => by simp [entriesCmp]
  | .cons k v r, .cons k' v' r' => by
    show ((valueCmp k k').then (valueCmp v v')).then (entriesCmp r r') = .eq ↔ _
    rw [then_eq_eq, then_eq_eq, valueCmp_eq_iff k k', valueCmp_eq_iff v v',
      entriesCmp_eq_iff r r']
    simp [and_assoc]
  termination_by a b => sizeOf a + sizeOf b

end

theorem valueCmp_self (a : Value) : valueCmp a a = .eq :=
  (valueCmp_eq_iff a a).mpr rfl

theorem valueCmp_lt_of_idx_lt : ∀ (a b : Value), a.ctorIdx < b.ctorIdx → valueCmp a b = .lt := by
  intro a b h
  cases a <;> cases b <;>
    first
    | rfl
    | exact absurd h (by simp [Value.ctorIdx])

theorem valueCmp_lt_le_idx : ∀ (a b : Value), valueCmp a b = .lt → a.ctorIdx ≤ b.ctorIdx := by
  intro a b h
  cases a <;> cases b <;>
    first
    | (simp [Value.ctorIdx]; done)
    | exact absurd h (by simp [valueCmp, Value.ctorIdx, natCmp])

mutual

theorem valueCmp_lt_trans : ∀ (a b c : Value),
    valueCmp a b = .lt → valueCmp b c = .lt → valueCmp a c = .lt
  | a, b, c => fun h1 h2 => by
    have i1 := valueCmp_lt_le_idx _ _ h1
    have i2 := valueCmp_lt_le_idx _ _ h2
    by_cases hac : a.ctorIdx < c.ctorIdx
    · exact valueCmp_lt_of_idx_lt _ _ hac
    · have hab : a.ctorIdx = b.ctorIdx := by omega
      have hbc : b.ctorIdx = c.ctorIdx := by omega
      clear i1 i2 hac
      cases a <;> cases b <;>
          (try (exfalso; simp only [Value.ctorIdx] at hab; omega)) <;>
        cases c <;>
          (try (exfalso; simp only [Value.ctorIdx] at hbc; omega)) <;>
        first
        | exact absurd h1 (by decide)
        | exact boolCmp_lt_trans h1 h2
        | exact charsCmp_lt_trans h1 h2
        | exact natCmp_lt_trans h1 h2
        | exact numberCmp_lt_trans h1 h2
        | exact seqCmp_lt_trans _ _ _ h1 h2
        | exact entriesCmp_lt_trans _ _ _ h1 h2
        | (revert h1 h2
           show (charsCmp _ _).then (valueCmp _ _) = .lt →
             (charsCmp _ _).then (valueCmp _ _) = .lt →
             (charsCmp _ _).then (valueCmp _ _) = .lt
           intro h1 h2
           rw [then_eq_lt] at h1 h2 ⊢
           rcases h1 with h1 | ⟨h1e, h1t⟩ <;> rcases h2 with h2 | ⟨h2e, h2t⟩
           · exact Or.inl (charsCmp_lt_trans h1 h2)
           · rw [charsCmp_eq_iff] at h2e
             exact Or.inl (h2e ▸ h1)
           · rw [charsCmp_eq_iff] at h1e
             exact Or.inl (h1e ▸ h2)
           · rw [charsCmp_eq_iff] at h1e h2e
             exact Or.inr ⟨charsCmp_eq_iff.mpr (h1e.trans h2e),
               valueCmp_lt_trans _ _ _ h1t h2t⟩)
  termination_by a b c => sizeOf a + sizeOf b + sizeOf c

theorem seqCmp_lt_trans : ∀ (a b c : ValueVec),
    seqCmp a b = .lt → seqCmp b c = .lt → seqCmp a c = .lt
  | .nil, .cons _ _, .cons _ _, _, _ => rfl
  | .nil, .nil, _, h1, _ => by cases h1
  | .cons _ _, .nil, _, h1, _ => by cases h1
  | .cons _ _, .cons _ _, .nil, _, h2 => by cases h2
  | .cons x xs, .cons y ys, .cons z zs, h1, h2 => by
    rw [show seqCmp (.cons x xs) (.cons y ys) = (valueCmp x y).then (seqCmp xs ys) from rfl,
      then_eq_lt] at h1
    rw [show seqCmp (.cons y ys) (.cons z zs) = (valueCmp y z).then (seqCmp ys zs) from rfl,
      then_eq_lt] at h2
    rw [show seqCmp (.cons x xs) (.cons z zs) = (valueCmp x z).then (seqCmp xs zs) from rfl,
      then_eq_lt]
    rcases h1 with h1 | ⟨h1e, h1t⟩ <;> rcases h2 with h2 | ⟨h2e, h2t⟩
    · exact Or.inl (valueCmp_lt_trans _ _ _ h1 h2)
    · rw [valueCmp_eq_iff] at h2e
      exact Or.inl (h2e ▸ h1)
    · rw [valueCmp_eq_iff] at h1e
      exact Or.inl (h1e ▸ h2)
    · rw [valueCmp_eq_iff] at h1e h2e
      exact Or.inr ⟨by rw [h1e, h2e, valueCmp_self], seqCmp_lt_trans _ _ _ h1t h2t⟩
  termination_by a b c => sizeOf a + sizeOf b + sizeOf c

theorem entriesCmp_lt_trans : ∀ (a b c : ValueMap),
    entriesCmp a b = .lt → entriesCmp b c = .lt → entriesCmp a c = .lt
  | .nil, .cons _ _ _, .cons _ _ _, _, _ => rfl
  | .nil, .nil, _, h1, _ => by cases h1
  | .cons _ _ _, .nil, _, h1, _ => by cases h1
  | .cons _ _ _, .cons _ _ _, .nil, _, h2 => by cases h2
  | .cons k v r, .cons k' v' r', .cons k'' v'' r'', h1, h2 => by
    rw [show entriesCmp (.cons k v r) (.cons k' v' r') =
        ((valueCmp k k').then (valueCmp v v')).then (entriesCmp r r') from rfl,
      then_eq_lt, then_eq_lt, then_eq_eq] at h1
    rw [show entriesCmp (.cons k' v' r') (.cons k'' v'' r'') =
        ((valueCmp k' k'').then (valueCmp v' v'')).then (entriesCmp r' r'') from rfl,
      then_eq_lt, then_eq_lt, then_eq_eq] at h2
    rw [show entriesCmp (.cons k v r) (.cons k'' v'' r'') =
        ((valueCmp k k'').then (valueCmp v v'')).then (entriesCmp r r'') from rfl,
      then_eq_lt, then_eq_lt, then_eq_eq]
    rcases h1 with (h1 | ⟨h1e, h1t⟩) | ⟨⟨h1k, h1v⟩, h1t⟩ <;>
      rcases h2 with (h2 | ⟨h2e, h2t⟩) | ⟨⟨h2k, h2v⟩, h2t⟩
    · exact Or.inl (Or.inl (valueCmp_lt_trans _ _ _ h1 h2))
    · rw [valueCmp_eq_iff] at h2e
      subst h2e
      exact Or.inl (Or.inl h1)
    · rw [valueCmp_eq_iff] at h2k
      subst h2k
      exact Or.inl (Or.inl h1)
    · rw [valueCmp_eq_iff] at h1e
      subst h1e
      exact Or.inl (Or.inl h2)
    · rw [valueCmp_eq_iff] at h1e h2e
      subst h1e; subst h2e
      exact Or.inl (Or.inr ⟨valueCmp_self _, valueCmp_lt_trans _ _ _ h1t h2t⟩)
    · rw [valueCmp_eq_iff] at h1e h2k h2v
      subst h1e; subst h2k; subst h2v
      exact Or.inl (Or.inr ⟨valueCmp_self _, h1t⟩)
    · rw [valueCmp_eq_iff] at h1k
      subst h1k
      exact Or.inl (Or.inl h2)
    · rw [valueCmp_eq_iff] at h1k h1v h2e
      subst h1k; subst h1v; subst h2e
      exact Or.inl (Or.inr ⟨valueCmp_self _, h2t⟩)
    · rw [valueCmp_eq_iff] at h1k h1v h2k h2v
      subst h1k; subst h1v; subst h2k; subst h2v
      exact Or.inr ⟨⟨valueCmp_self _, valueCmp_self _⟩,
        entriesCmp_lt_trans _ _ _ h1t h2t⟩
  termination_by a b c => sizeOf a + sizeOf b + sizeOf c

end

theorem valueCmp_gt_iff_lt {a b : Value} : valueCmp a b = .gt ↔ valueCmp b a = .lt := by
  rw [← valueCmp_swap b a]
  cases valueCmp b a <;> simp [Ordering.swap]

/-! ## Sorted-container lemmas -/

/-- Every element of the sequence is strictly below `x`. -/
def seqAllBelow : ValueVec → Value → Bool
  | .nil, _ => true
  | .cons y rest, x => decide (valueCmp y x = .lt) && seqAllBelow rest x

/-- Every key of the entry sequence is strictly below `k`. -/
def mapAllBelow : ValueMap → Value → Bool
  | .nil, _ => true
  | .cons k' _ rest, k => decide (valueCmp k' k = .lt) && mapAllBelow rest k

theorem seqAppend_nil : ∀ (xs : ValueVec), seqAppend xs .nil = xs
  | .nil => rfl
  | .cons x xs => by rw [seqAppend, seqAppend_nil xs]

theorem seqAppend_assoc : ∀ (u v w : ValueVec),
    seqAppend (seqAppend u v) w = seqAppend u (seqAppend v w)
  | .nil, _, _ => rfl
  | .cons x u, v, w => by rw [seqAppend, seqAppend, seqAppend, seqAppend_assoc u v w]

theorem mapAppend_nil : ∀ (m : ValueMap), mapAppend m .nil = m
  | .nil => rfl
  | .cons k v m => by rw [mapAppend, mapAppend_nil m]

theorem mapAppend_assoc : ∀ (u v w : ValueMap),
    mapAppend (mapAppend u v) w = mapAppend u (mapAppend v w)
  | .nil, _, _ => rfl
  | .cons k x u, v, w => by rw [mapAppend, mapAppend, mapAppend, mapAppend_assoc u v w]

theorem seqLtAll_trans {y z : Value} : ∀ (rest : ValueVec),
    valueCmp y z = .lt → seqLtAll z rest = true → seqLtAll y rest = true
  | .nil, _, _ => rfl
  | .cons w rest, hyz, h => by
    simp only [seqLtAll, Bool.and_eq_true, decide_eq_true_eq] at h ⊢
    exact ⟨valueCmp_lt_trans _ _ _ hyz h.1, seqLtAll_trans rest hyz h.2⟩

theorem seqLtAll_setInsert {z y : Value} : ∀ (rest : ValueVec),
    valueCmp z y = .lt → seqLtAll z rest = true → seqLtAll z (setInsert rest y) = true
  | .nil, hzy, _ => by simp [setInsert, seqLtAll, hzy]
  | .cons w rest, hzy, h => by
    simp only [seqLtAll, Bool.and_eq_true, decide_eq_true_eq] at h
    simp only [setInsert]
    split
    · simp only [seqLtAll, Bool.and_eq_true, decide_eq_true_eq]
      exact ⟨hzy, h.1, h.2⟩
    · simp only [seqLtAll, Bool.and_eq_true, decide_eq_true_eq]
      exact ⟨h.1, h.2⟩
    · simp only [seqLtAll, Bool.and_eq_true, decide_eq_true_eq]
      exact ⟨h.1, seqLtAll_setInsert rest hzy h.2⟩

theorem seqSorted_setInsert {y : Value} : ∀ (xs : ValueVec),
    seqSorted xs = true → seqSorted (setInsert xs y) = true
  | .nil, _ => by simp [setInsert, seqSorted, seqLtAll]
  | .cons z rest, h => by
    simp only [seqSorted, Bool.and_eq_true] at h
    simp only [setInsert]
    split <;> rename_i hc
    · simp only [seqSorted, seqLtAll, Bool.and_eq_true, decide_eq_true_eq]
      exact ⟨⟨hc, seqLtAll_trans rest hc h.1⟩, h.1, h.2⟩
    · simp only [seqSorted, Bool.and_eq_true]
      exact h
    · simp only [seqSorted, Bool.and_eq_true]
      rw [valueCmp_gt_iff_lt] at hc
      exact ⟨seqLtAll_setInsert rest hc h.1, seqSorted_setInsert rest h.2⟩

theorem seqLtAll_append {x : Value} : ∀ (u w : ValueVec),
    seqLtAll x (seqAppend u w) = (seqLtAll x u && seqLtAll x w)
  | .nil, w => by simp [seqAppend, seqLtAll]
  | .cons y u, w => by
    simp [seqAppend, seqLtAll, seqLtAll_append u w, Bool.and_assoc]

theorem setInsert_snoc {y : Value} : ∀ (xs : ValueVec),
    seqAllBelow xs y = true → setInsert xs y = seqAppend xs (.cons y .nil)
  | .nil, _ => rfl
  | .cons z rest, h => by
    simp only [seqAllBelow, Bool.and_eq_true, decide_eq_true_eq] at h
    simp only [setInsert]
    rw [show valueCmp y z = .gt from valueCmp_gt_iff_lt.mpr h.1]
    show ValueVec.cons z (setInsert rest y) = ValueVec.cons z (seqAppend rest (.cons y .nil))
    exact congrArg _ (setInsert_snoc rest h.2)

theorem seqSorted_app_cons : ∀ (acc : ValueVec) {y : Value} {rest : ValueVec},
    seqSorted (seqAppend acc (.cons y rest)) = true →
    seqAllBelow acc y = true ∧
      seqSorted (seqAppend (seqAppend acc (.cons y .nil)) rest) = true
  | .nil, y, rest, h => ⟨rfl, h⟩
  | .cons a acc, y, rest, h => by
    simp only [seqAppend, seqSorted, Bool.and_eq_true] at h
    obtain ⟨hlt, hs⟩ := h
    obtain ⟨hb, hrec⟩ := seqSorted_app_cons acc hs
    rw [seqLtAll_append] at hlt
    simp only [Bool.and_eq_true] at hlt
    have hy : valueCmp a y = .lt ∧ seqLtAll a rest = true := by
      have := hlt.2
      simp only [seqLtAll, Bool.and_eq_true, decide_eq_true_eq] at this
      exact this
    constructor
    · simp only [seqAllBelow, Bool.and_eq_true, decide_eq_true_eq]
      exact ⟨hy.1, hb⟩
    · simp only [seqAppend, seqSorted, Bool.and_eq_true]
      refine ⟨?_, hrec⟩
      rw [seqLtAll_append, seqLtAll_append]
      simp only [Bool.and_eq_true]
      exact ⟨⟨hlt.1, by simp [seqLtAll, hy.1]⟩, hy.2⟩

theorem setFromAux_sorted : ∀ (rest acc : ValueVec),
    seqSorted (seqAppend acc rest) = true → setFromAux acc rest = seqAppend acc rest
  | .nil, acc, _ => by rw [setFromAux, seqAppend_nil]
  | .cons y rest, acc, h => by
    obtain ⟨hb, hrec⟩ := seqSorted_app_cons acc h
    rw [setFromAux, setInsert_snoc acc hb, setFromAux_sorted rest _ hrec, seqAppend_assoc]
    rfl

/-- A strictly sorted element sequence is rebuilt unchanged by
re-inserting its elements in order. -/
theorem setFromAux_id {xs : ValueVec} (h : seqSorted xs = true) :
    setFromAux .nil xs = xs :=
  setFromAux_sorted xs .nil h

theorem mapKeyLtAll_trans {y z : Value} : ∀ (rest : ValueMap),
    valueCmp y z = .lt → mapKeyLtAll z rest = true → mapKeyLtAll y rest = true
  | .nil, _, _ => rfl
  | .cons k' v' rest, hyz, h => by
    simp only [mapKeyLtAll, Bool.and_eq_true, decide_eq_true_eq] at h ⊢
    exact ⟨valueCmp_lt_trans _ _ _ hyz h.1, mapKeyLtAll_trans rest hyz h.2⟩

theorem mapKeyLtAll_mapInsert {z y v : Value} : ∀ (rest : ValueMap),
    valueCmp z y = .lt → mapKeyLtAll z rest = true →
    mapKeyLtAll z (mapInsert rest y v) = true
  | .nil, hzy, _ => by simp [mapInsert, mapKeyLtAll, hzy]
  | .cons k' v' rest, hzy, h => by
    simp only [mapKeyLtAll, Bool.and_eq_true, decide_eq_true_eq] at h
    simp only [mapInsert]
    split
    · simp only [mapKeyLtAll, Bool.and_eq_true, decide_eq_true_eq]
      exact ⟨hzy, h.1, h.2⟩
    · simp only [mapKeyLtAll, Bool.and_eq_true, decide_eq_true_eq]
      exact ⟨h.1, h.2⟩
    · simp only [mapKeyLtAll, Bool.and_eq_true, decide_eq_true_eq]
      exact ⟨h.1, mapKeyLtAll_mapInsert rest hzy h.2⟩

/-- `BTreeMap::insert` preserves the strictly-sorted-keys invariant
(key uniqueness and order). -/
theorem mapSorted_mapInsert {y v : Value} : ∀ (m : ValueMap),
    mapSorted m = true → mapSorted (mapInsert m y v) = true
  | .nil, _ => by simp [mapInsert, mapSorted, mapKeyLtAll]
  | .cons k' v' rest, h => by
    simp only [mapSorted, Bool.and_eq_true] at h
    simp only [mapInsert]
    split <;> rename_i hc
    · simp only [mapSorted, mapKeyLtAll, Bool.and_eq_true, decide_eq_true_eq]
      exact ⟨⟨hc, mapKeyLtAll_trans rest hc h.1⟩, h.1, h.2⟩
    · simp only [mapSorted, Bool.and_eq_true]
      exact h
    · simp only [mapSorted, Bool.and_eq_true]
      rw [valueCmp_gt_iff_lt] at hc
      exact ⟨mapKeyLtAll_mapInsert rest hc h.1, mapSorted_mapInsert rest h.2⟩

/-- Looking up the just-inserted key yields the just-inserted value
(insertion on an equal key replaces the associated value). -/
theorem mapLookup_mapInsert : ∀ (m : ValueMap) (k v : Value),
    mapLookup (mapInsert m k v) k = some v
  | .nil, k, v => by simp [mapInsert, mapLookup, valueCmp_self]
  | .cons k' v' rest, k, v => by
    simp only [mapInsert]
    split <;> rename_i hc
    · simp [mapLookup, valueCmp_self]
    · simp [mapLookup, hc]
    · simp only [mapLookup]
      rw [hc]
      exact mapLookup_mapInsert rest k v

theorem mapKeyLtAll_append {x : Value} : ∀ (u w : ValueMap),
    mapKeyLtAll x (mapAppend u w) = (mapKeyLtAll x u && mapKeyLtAll x w)
  | .nil, w => by simp [mapAppend, mapKeyLtAll]
  | .cons k v u, w => by
    simp [mapAppend, mapKeyLtAll, mapKeyLtAll_append u w, Bool.and_assoc]

theorem mapInsert_snoc {k v : Value} : ∀ (m : ValueMap),
    mapAllBelow m k = true → mapInsert m k v = mapAppend m (.cons k v .nil)
  | .nil, _ => rfl
  | .cons k' v' rest, h => by
    simp only [mapAllBelow, Bool.and_eq_true, decide_eq_true_eq] at h
    simp only [mapInsert]
    rw [show valueCmp k k' = .gt from valueCmp_gt_iff_lt.mpr h.1]
    show ValueMap.cons k' v' (mapInsert rest k v) =
      ValueMap.cons k' v' (mapAppend rest (.cons k v .nil))
    exact congrArg _ (mapInsert_snoc rest h.2)

theorem mapSorted_app_cons : ∀ (acc : ValueMap) {k v : Value} {rest : ValueMap},
    mapSorted (mapAppend acc (.cons k v rest)) = true →
    mapAllBelow acc k = true ∧
      mapSorted (mapAppend (mapAppend acc (.cons k v .nil)) rest) = true
  | .nil, k, v, rest, h => ⟨rfl, h⟩
  | .cons a av acc, k, v, rest, h => by
    simp only [mapAppend, mapSorted, Bool.and_eq_true] at h
    obtain ⟨hlt, hs⟩ := h
    obtain ⟨hb, hrec⟩ := mapSorted_app_cons acc hs
    rw [mapKeyLtAll_append] at hlt
    simp only [Bool.and_eq_true] at hlt
    have hy : valueCmp a k = .lt ∧ mapKeyLtAll a rest = true := by
      have := hlt.2
      simp only [mapKeyLtAll, Bool.and_eq_true, decide_eq_true_eq] at this
      exact this
    constructor
    · simp only [mapAllBelow, Bool.and_eq_true, decide_eq_true_eq]
      exact ⟨hy.1, hb⟩
    · simp only [mapAppend, mapSorted, Bool.and_eq_true]
      refine ⟨?_, hrec⟩
      rw [mapKeyLtAll_append, mapKeyLtAll_append]
      simp only [Bool.and_eq_true]
      exact ⟨⟨hlt.1, by simp [mapKeyLtAll, hy.1]⟩, hy.2⟩

theorem mapFromAux_sorted : ∀ (rest acc : ValueMap),
    mapSorted (mapAppend acc rest) = true → mapFromAux acc rest = mapAppend acc rest
  | .nil, acc, _ => by rw [mapFromAux, mapAppend_nil]
  | .cons k v rest, acc, h => by
    obtain ⟨hb, hrec⟩ := mapSorted_app_cons acc h
    rw [mapFromAux, mapInsert_snoc acc hb, mapFromAux_sorted rest _ hrec, mapAppend_assoc]
    rfl

/-- A strictly key-sorted entry sequence is rebuilt unchanged by
re-inserting its entries in order. -/
theorem mapFromAux_id {ps : ValueMap} (h : mapSorted ps = true) :
    mapFromAux .nil ps = ps :=
  mapFromAux_sorted ps .nil h

/-! ## Character-class facts -/

theorem isAlpha_bounds {c : Char} (h : c.isAlpha = true) :
    (65 ≤ c.toNat ∧ c.toNat ≤ 90) ∨ (97 ≤ c.toNat ∧ c.toNat ≤ 122) := by
  simp only [Char.isAlpha, Char.isUpper, Char.isLower, Bool.or_eq_true, Bool.and_eq_true,
    decide_eq_true_eq] at h
  rcases h with ⟨h1, h2⟩ | ⟨h1, h2⟩
  · exact Or.inl ⟨h1, h2⟩
  · exact Or.inr ⟨h1, h2⟩

theorem isDigit_bounds {c : Char} (h : c.isDigit = true) :
    48 ≤ c.toNat ∧ c.toNat ≤ 57 := by
  simp only [Char.isDigit, Bool.and_eq_true, decide_eq_true_eq] at h
  exact h

theorem toNat_ne {c d : Char} (h : c.toNat ≠ d.toNat) : c ≠ d :=
  fun he => absurd (he ▸ rfl) h

theorem isAlpha_false_of {c : Char}
    (h : ¬((65 ≤ c.toNat ∧ c.toNat ≤ 90) ∨ (97 ≤ c.toNat ∧ c.toNat ≤ 122))) :
    c.isAlpha = false := by
  cases hb : c.isAlpha
  · rfl
  · exact absurd (isAlpha_bounds hb) h

theorem isDigit_false_of {c : Char} (h : ¬(48 ≤ c.toNat ∧ c.toNat ≤ 57)) :
    c.isDigit = false := by
  cases hb : c.isDigit
  · rfl
  · exact absurd (isDigit_bounds hb) h

theorem isAlpha_not_digit {c : Char} (h : c.isAlpha = true) : c.isDigit = false := by
  cases hd : c.isDigit
  · rfl
  · have h1 := isAlpha_bounds h
    have h2 := isDigit_bounds hd
    omega

theorem identStart_bounds {c : Char} (h : identStart c = true) :
    (65 ≤ c.toNat ∧ c.toNat ≤ 90) ∨ (97 ≤ c.toNat ∧ c.toNat ≤ 122) ∨
      c.toNat = 42 ∨ c.toNat = 33 ∨ c.toNat = 63 := by
  simp only [identStart, Bool.or_eq_true, decide_eq_true_eq] at h
  rcases h with ((h | h) | h) | h
  · rcases isAlpha_bounds h with hb | hb
    · exact Or.inl hb
    · exact Or.inr (Or.inl hb)
  all_goals subst h
  · exact Or.inr (Or.inr (Or.inl rfl))
  · exact Or.inr (Or.inr (Or.inr (Or.inl rfl)))
  · exact Or.inr (Or.inr (Or.inr (Or.inr rfl)))

theorem identCont_bounds {c : Char} (h : identCont c = true) :
    (65 ≤ c.toNat ∧ c.toNat ≤ 90) ∨ (97 ≤ c.toNat ∧ c.toNat ≤ 122) ∨
      (48 ≤ c.toNat ∧ c.toNat ≤ 57) ∨ c.toNat = 42 ∨ c.toNat = 33 ∨ c.toNat = 63 ∨
      c.toNat = 45 ∨ c.toNat = 43 ∨ c.toNat = 47 ∨ c.toNat = 46 ∨ c.toNat = 95 := by
  simp only [identCont, Bool.or_eq_true, decide_eq_true_eq] at h
  rcases h with (((((h | h) | h) | h) | h) | h) | h
  · rcases identStart_bounds h with hb | hb | hb | hb | hb <;> omega
  · have := isDigit_bounds h; omega
  all_goals subst h
  all_goals decide

theorem wsChar_toNat {c : Char} (h : wsChar c = true) :
    c.toNat = 32 ∨ c.toNat = 9 ∨ c.toNat = 10 ∨ c.toNat = 13 ∨ c.toNat = 44 := by
  simp only [wsChar, Bool.or_eq_true, decide_eq_true_eq] at h
  rcases h with (((h | h) | h) | h) | h <;> subst h <;> decide

theorem closerChar_toNat {c : Char} (h : closerChar c = true) :
    c.toNat = 41 ∨ c.toNat = 93 ∨ c.toNat = 125 := by
  simp only [closerChar, Bool.or_eq_true, decide_eq_true_eq] at h
  rcases h with (h | h) | h <;> subst h <;> decide

theorem identCont_false {c : Char}
    (ha : c.isAlpha = false) (hd : c.isDigit = false)
    (h1 : c ≠ '*') (h2 : c ≠ '!') (h3 : c ≠ '?') (h4 : c ≠ '-') (h5 : c ≠ '+')
    (h6 : c ≠ '/') (h7 : c ≠ '.') (h8 : c ≠ '_') : identCont c = false := by
  simp [identCont, identStart, ha, hd, h1, h2, h3, h4, h5, h6, h7, h8]

theorem wsChar_false_of {c : Char}
    (h : c.toNat ≠ 32 ∧ c.toNat ≠ 9 ∧ c.toNat ≠ 10 ∧ c.toNat ≠ 13 ∧ c.toNat ≠ 44) :
    wsChar c = false := by
  cases hb : wsChar c
  · rfl
  · have := wsChar_toNat hb; omega

theorem closerChar_false_of {c : Char}
    (h : c.toNat ≠ 41 ∧ c.toNat ≠ 93 ∧ c.toNat ≠ 125) : closerChar c = false := by
  cases hb : closerChar c
  · rfl
  · have := closerChar_toNat hb; omega

/-- Dispatch facts for an identifier-start character: it collides with
no other production's first character and is no separator. -/
theorem identStart_facts {c : Char} (h : identStart c = true) :
    c ≠ '(' ∧ c ≠ '[' ∧ c ≠ '{' ∧ c ≠ '"' ∧ c ≠ '\\' ∧ c ≠ ':' ∧ c ≠ '#' ∧
      c ≠ '-' ∧ c ≠ '+' ∧ c.isDigit = false ∧ wsChar c = false ∧ c ≠ ';' ∧
      closerChar c = false ∧ c ≠ '_' := by
  have hb := identStart_bounds h
  exact ⟨toNat_ne (show c.toNat ≠ 40 by omega), toNat_ne (show c.toNat ≠ 91 by omega),
    toNat_ne (show c.toNat ≠ 123 by omega), toNat_ne (show c.toNat ≠ 34 by omega),
    toNat_ne (show c.toNat ≠ 92 by omega), toNat_ne (show c.toNat ≠ 58 by omega),
    toNat_ne (show c.toNat ≠ 35 by omega), toNat_ne (show c.toNat ≠ 45 by omega),
    toNat_ne (show c.toNat ≠ 43 by omega), isDigit_false_of (by omega),
    wsChar_false_of (by omega), toNat_ne (show c.toNat ≠ 59 by omega),
    closerChar_false_of (by omega), toNat_ne (show c.toNat ≠ 95 by omega)⟩

theorem isDigit_facts {c : Char} (h : c.isDigit = true) :
    c ≠ '(' ∧ c ≠ '[' ∧ c ≠ '{' ∧ c ≠ '"' ∧ c ≠ '\\' ∧ c ≠ ':' ∧ c ≠ '#' ∧
      wsChar c = false ∧ c ≠ ';' ∧ closerChar c = false := by
  have hb := isDigit_bounds h
  exact ⟨toNat_ne (show c.toNat ≠ 40 by omega), toNat_ne (show c.toNat ≠ 91 by omega),
    toNat_ne (show c.toNat ≠ 123 by omega), toNat_ne (show c.toNat ≠ 34 by omega),
    toNat_ne (show c.toNat ≠ 92 by omega), toNat_ne (show c.toNat ≠ 58 by omega),
    toNat_ne (show c.toNat ≠ 35 by omega), wsChar_false_of (by omega),
    toNat_ne (show c.toNat ≠ 59 by omega), closerChar_false_of (by omega)⟩

/-- A whitespace/comma separator is not an identifier character, not a
digit, and not any token-significant character. -/
theorem wsChar_facts {c : Char} (h : wsChar c = true) :
    identCont c = false ∧ c.isDigit = false ∧ c.isAlpha = false ∧
      c ≠ '.' ∧ c ≠ 'e' ∧ c ≠ 'E' ∧ c ≠ 'N' ∧ c ≠ 'M' ∧ c ≠ '"' ∧ c ≠ ';' := by
  have hb := wsChar_toNat h
  have ha : c.isAlpha = false := isAlpha_false_of (by omega)
  have hd : c.isDigit = false := isDigit_false_of (by omega)
  exact ⟨identCont_false ha hd (toNat_ne (show c.toNat ≠ 42 by omega))
      (toNat_ne (show c.toNat ≠ 33 by omega)) (toNat_ne (show c.toNat ≠ 63 by omega))
      (toNat_ne (show c.toNat ≠ 45 by omega)) (toNat_ne (show c.toNat ≠ 43 by omega))
      (toNat_ne (show c.toNat ≠ 47 by omega)) (toNat_ne (show c.toNat ≠ 46 by omega))
      (toNat_ne (show c.toNat ≠ 95 by omega)),
    hd, ha, toNat_ne (show c.toNat ≠ 46 by omega), toNat_ne (show c.toNat ≠ 101 by omega),
    toNat_ne (show c.toNat ≠ 69 by omega), toNat_ne (show c.toNat ≠ 78 by omega),
    toNat_ne (show c.toNat ≠ 77 by omega), toNat_ne (show c.toNat ≠ 34 by omega),
    toNat_ne (show c.toNat ≠ 59 by omega)⟩

/-- A closing delimiter is not an identifier character, not a digit, and
not any token-significant character. -/
theorem closerChar_facts {c : Char} (h : closerChar c = true) :
    identCont c = false ∧ c.isDigit = false ∧ c.isAlpha = false ∧
      c ≠ '.' ∧ c ≠ 'e' ∧ c ≠ 'E' ∧ c ≠ 'N' ∧ c ≠ 'M' ∧ c ≠ '"' ∧ c ≠ ';' ∧
      wsChar c = false := by
  have hb := closerChar_toNat h
  have ha : c.isAlpha = false := isAlpha_false_of (by omega)
  have hd : c.isDigit = false := isDigit_false_of (by omega)
  exact ⟨identCont_false ha hd (toNat_ne (show c.toNat ≠ 42 by omega))
      (toNat_ne (show c.toNat ≠ 33 by omega)) (toNat_ne (show c.toNat ≠ 63 by omega))
      (toNat_ne (show c.toNat ≠ 45 by omega)) (toNat_ne (show c.toNat ≠ 43 by omega))
      (toNat_ne (show c.toNat ≠ 47 by omega)) (toNat_ne (show c.toNat ≠ 46 by omega))
      (toNat_ne (show c.toNat ≠ 95 by omega)),
    hd, ha, toNat_ne (show c.toNat ≠ 46 by omega), toNat_ne (show c.toNat ≠ 101 by omega),
    toNat_ne (show c.toNat ≠ 69 by omega), toNat_ne (show c.toNat ≠ 78 by omega),
    toNat_ne (show c.toNat ≠ 77 by omega), toNat_ne (show c.toNat ≠ 34 by omega),
    toNat_ne (show c.toNat ≠ 59 by omega), wsChar_false_of (by omega)⟩

/-! ## Digit-run lemmas -/

theorem digitToChar_isDigit (d : Nat) : (digitToChar d).isDigit = true := by
  unfold digitToChar
  split <;> rfl

theorem charToDigit_digitToChar {d : Nat} (h : d < 10) :
    charToDigit (digitToChar d) = d := by
  interval_cases d <;> rfl

theorem digitsValFrom : ∀ (cs : List Char) (a : Nat),
    cs.foldl (fun a c => 10 * a + charToDigit c) a = a * 10 ^ cs.length + digitsVal cs
  | [], a => by simp [digitsVal]
  | c :: cs, a => by
    show (cs.foldl _ (10 * a + charToDigit c)) = _
    rw [digitsValFrom cs (10 * a + charToDigit c),
      show digitsVal (c :: cs) = cs.foldl (fun a c => 10 * a + charToDigit c)
        (10 * 0 + charToDigit c) from rfl,
      digitsValFrom cs (10 * 0 + charToDigit c)]
    simp [List.length_cons, pow_succ]
    ring

theorem digitsVal_append (xs ys : List Char) :
    digitsVal (xs ++ ys) = digitsVal xs * 10 ^ ys.length + digitsVal ys := by
  unfold digitsVal
  rw [List.foldl_append, digitsValFrom]
  rfl

theorem digitsVal_zeros : ∀ (z : Nat) (cs : List Char),
    digitsVal (List.replicate z '0' ++ cs) = digitsVal cs
  | 0, cs => rfl
  | z + 1, cs => by
    show digitsVal (('0' :: List.replicate z '0') ++ cs) = _
    rw [List.cons_append]
    show List.foldl _ (10 * 0 + charToDigit '0') _ = _
    rw [show (10 * 0 + charToDigit '0') = 0 from rfl]
    exact digitsVal_zeros z cs

theorem natToCharsAux_acc : ∀ (f n : Nat) (acc : List Char),
    natToCharsAux f n acc = natToCharsAux f n [] ++ acc
  | 0, _, _ => rfl
  | _ + 1, 0, _ => rfl
  | f + 1, n + 1, acc => by
    show natToCharsAux f ((n + 1) / 10) (digitToChar ((n + 1) % 10) :: acc) =
      natToCharsAux (f + 1) (n + 1) [] ++ acc
    rw [show natToCharsAux (f + 1) (n + 1) [] =
        natToCharsAux f ((n + 1) / 10) [digitToChar ((n + 1) % 10)] from rfl,
      natToCharsAux_acc f ((n + 1) / 10) (digitToChar ((n + 1) % 10) :: acc),
      natToCharsAux_acc f ((n + 1) / 10) [digitToChar ((n + 1) % 10)],
      List.append_assoc]
    rfl

theorem digitsVal_natToCharsAux : ∀ (f n : Nat), n ≤ f →
    digitsVal (natToCharsAux f n []) = n
  | 0, n, h => by
    interval_cases n
    rfl
  | f + 1, 0, _ => rfl
  | f + 1, n + 1, h => by
    have h1 : natToCharsAux (f + 1) (n + 1) [] =
        natToCharsAux f ((n + 1) / 10) [] ++ [digitToChar ((n + 1) % 10)] := by
      rw [show natToCharsAux (f + 1) (n + 1) [] =
          natToCharsAux f ((n + 1) / 10) [digitToChar ((n + 1) % 10)] from rfl]
      exact natToCharsAux_acc f _ _
    rw [h1, digitsVal_append]
    have hdiv : (n + 1) / 10 ≤ f := by omega
    rw [digitsVal_natToCharsAux f ((n + 1) / 10) hdiv]
    have hlast : digitsVal [digitToChar ((n + 1) % 10)] = (n + 1) % 10 := by
      show 10 * 0 + charToDigit (digitToChar ((n + 1) % 10)) = (n + 1) % 10
      rw [charToDigit_digitToChar (Nat.mod_lt _ (by omega))]
      omega
    rw [hlast]
    show (n + 1) / 10 * 10 ^ 1 + (n + 1) % 10 = n + 1
    omega

theorem digitsVal_natToChars (n : Nat) : digitsVal (natToChars n) = n := by
  unfold natToChars
  split
  · rename_i hz
    subst hz
    rfl
  · exact digitsVal_natToCharsAux n n le_rfl

theorem natToCharsAux_digits : ∀ (f n : Nat) (acc : List Char),
    (∀ c ∈ acc, c.isDigit = true) → ∀ c ∈ natToCharsAux f n acc, c.isDigit = true
  | 0, _, _, hacc => hacc
  | _ + 1, 0, _, hacc => hacc
  | f + 1, n + 1, acc, hacc => by
    refine natToCharsAux_digits f ((n + 1) / 10) (digitToChar ((n + 1) % 10) :: acc) ?_
    intro c hc
    rcases List.mem_cons.mp hc with rfl | hc
    · exact digitToChar_isDigit _
    · exact hacc c hc

theorem natToChars_digits (n : Nat) : ∀ c ∈ natToChars n, c.isDigit = true := by
  unfold natToChars
  split
  · intro c hc
    rcases List.mem_singleton.mp hc with rfl
    rfl
  · exact natToCharsAux_digits n n [] (by intro c hc; cases hc)

theorem natToChars_ne_nil (n : Nat) : natToChars n ≠ [] := by
  unfold natToChars
  split
  · simp
  · rename_i hn
    match n, hn with
    | n + 1, _ =>
      intro hcontra
      rw [show natToCharsAux (n + 1) (n + 1) [] =
          natToCharsAux n ((n + 1) / 10) [digitToChar ((n + 1) % 10)] from rfl,
        natToCharsAux_acc] at hcontra
      simp at hcontra

/-! ## Run-scanning and separator-skipping lemmas -/

theorem takeWhile_append_all {p : Char → Bool} : ∀ (l r : List Char),
    (∀ c ∈ l, p c = true) → (l ++ r).takeWhile p = l ++ r.takeWhile p
  | [], _, _ => rfl
  | c :: l, r, h => by
    have hc : p c = true := h c (List.mem_cons_self ..)
    simp only [List.cons_append, List.takeWhile_cons, hc, if_true]
    rw [takeWhile_append_all l r (fun d hd => h d (List.mem_cons_of_mem _ hd))]

theorem dropWhile_append_all {p : Char → Bool} : ∀ (l r : List Char),
    (∀ c ∈ l, p c = true) → (l ++ r).dropWhile p = r.dropWhile p
  | [], _, _ => rfl
  | c :: l, r, h => by
    have hc : p c = true := h c (List.mem_cons_self ..)
    simp only [List.cons_append, List.dropWhile_cons, hc, if_true]
    exact dropWhile_append_all l r (fun d hd => h d (List.mem_cons_of_mem _ hd))

theorem takeWhile_cons_false {p : Char → Bool} {c : Char} (h : p c = false)
    (s : List Char) : (c :: s).takeWhile p = [] := by
  simp [List.takeWhile_cons, h]

theorem dropWhile_cons_false {p : Char → Bool} {c : Char} (h : p c = false)
    (s : List Char) : (c :: s).dropWhile p = c :: s := by
  simp [List.dropWhile_cons, h]

theorem skipWs_cons_ws {c : Char} (h : wsChar c = true) (s : List Char) :
    skipWs (c :: s) = skipWs s := by
  show skipWsAux false (c :: s) = skipWsAux false s
  simp [skipWsAux, h]

theorem skipWs_not_ws {c : Char} (h1 : wsChar c = false) (h2 : c ≠ ';') (s : List Char) :
    skipWs (c :: s) = c :: s := by
  show skipWsAux false (c :: s) = c :: s
  simp [skipWsAux, h1, h2]

theorem skipWs_ws_append : ∀ (w : List Char), (∀ c ∈ w, wsChar c = true) →
    ∀ (s : List Char), skipWs (w ++ s) = skipWs s
  | [], _, _ => rfl
  | c :: w, h, s => by
    rw [List.cons_append, skipWs_cons_ws (h c (List.mem_cons_self ..)),
      skipWs_ws_append w (fun d hd => h d (List.mem_cons_of_mem _ hd)) s]

theorem skipWsAux_comment_eq (c : Char) (s : List Char) :
    skipWsAux true (c :: s) =
      if c = '\n' then skipWsAux false s else skipWsAux true s := rfl

theorem skipWsAux_plain_eq (c : Char) (s : List Char) :
    skipWsAux false (c :: s) =
      if wsChar c then skipWsAux false s
      else if c = ';' then skipWsAux true s else c :: s := rfl

theorem skipWsAux_shape : ∀ (b : Bool) (s : List Char),
    skipWsAux b s = [] ∨
      ∃ c t, skipWsAux b s = c :: t ∧ wsChar c = false ∧ c ≠ ';'
  | true, [] => Or.inl rfl
  | false, [] => Or.inl rfl
  | true, c :: s => by
    rw [skipWsAux_comment_eq]
    by_cases hc : c = '\n'
    · rw [if_pos hc]
      exact skipWsAux_shape false s
    · rw [if_neg hc]
      exact skipWsAux_shape true s
  | false, c :: s => by
    rw [skipWsAux_plain_eq]
    cases h1 : wsChar c
    · rw [if_neg (by simp)]
      by_cases h2 : c = ';'
      · rw [if_pos h2]
        exact skipWsAux_shape true s
      · rw [if_neg h2]
        exact Or.inr ⟨c, s, rfl, h1, h2⟩
    · rw [if_pos rfl]
      exact skipWsAux_shape false s

theorem skipWs_shape (s : List Char) :
    skipWs s = [] ∨ ∃ c t, skipWs s = c :: t ∧ wsChar c = false ∧ c ≠ ';' :=
  skipWsAux_shape false s

theorem skipWs_idem (s : List Char) : skipWs (skipWs s) = skipWs s := by
  rcases skipWs_shape s with h | ⟨c, t, h, h1, h2⟩
  · rw [h]
    rfl
  · rw [h]
    exact skipWs_not_ws h1 h2 t

theorem skipWsAux_length : ∀ (b : Bool) (s : List Char),
    (skipWsAux b s).length ≤ s.length
  | true, [] => le_rfl
  | false, [] => le_rfl
  | true, c :: s => by
    rw [skipWsAux_comment_eq]
    by_cases hc : c = '\n'
    · rw [if_pos hc]
      exact le_trans (skipWsAux_length false s) (by simp)
    · rw [if_neg hc]
      exact le_trans (skipWsAux_length true s) (by simp)
  | false, c :: s => by
    rw [skipWsAux_plain_eq]
    cases h1 : wsChar c
    · rw [if_neg (by simp)]
      by_cases h2 : c = ';'
      · rw [if_pos h2]
        exact le_trans (skipWsAux_length true s) (by simp)
      · rw [if_neg h2]
    · rw [if_pos rfl]
      exact le_trans (skipWsAux_length false s) (by simp)

theorem skipWs_length (s : List Char) : (skipWs s).length ≤ s.length :=
  skipWsAux_length false s

/-! ## Token round-trip lemmas -/

/-- The rest of the input may legally follow a completed token: it is
empty or starts with a separator or closing delimiter. -/
def boundaryB : List Char → Bool
  | [] => true
  | c :: _ => wsChar c || closerChar c

theorem boundaryB_facts {r : List Char} (h : boundaryB r = true) :
    r.takeWhile identCont = [] ∧ r.dropWhile identCont = r ∧
      r.takeWhile (·.isDigit) = [] ∧ r.dropWhile (·.isDigit) = r ∧
      r.takeWhile (·.isAlpha) = [] ∧ r.dropWhile (·.isAlpha) = r := by
  cases r with
  | nil => exact ⟨rfl, rfl, rfl, rfl, rfl, rfl⟩
  | cons c t =>
    simp only [boundaryB, Bool.or_eq_true] at h
    have hic : identCont c = false ∧ c.isDigit = false ∧ c.isAlpha = false := by
      rcases h with h | h
      · have := wsChar_facts h
        exact ⟨this.1, this.2.1, this.2.2.1⟩
      · have := closerChar_facts h
        exact ⟨this.1, this.2.1, this.2.2.1⟩
    exact ⟨takeWhile_cons_false hic.1 t, dropWhile_cons_false hic.1 t,
      takeWhile_cons_false hic.2.1 t, dropWhile_cons_false hic.2.1 t,
      takeWhile_cons_false hic.2.2 t, dropWhile_cons_false hic.2.2 t⟩

theorem boundaryB_head_facts {c : Char} {t : List Char} (h : boundaryB (c :: t) = true) :
    c ≠ '.' ∧ c ≠ 'e' ∧ c ≠ 'E' ∧ c ≠ 'N' ∧ c ≠ 'M' ∧ c ≠ '"' := by
  simp only [boundaryB, Bool.or_eq_true] at h
  rcases h with h | h
  · have := wsChar_facts h
    exact ⟨this.2.2.2.1, this.2.2.2.2.1, this.2.2.2.2.2.1, this.2.2.2.2.2.2.1,
      this.2.2.2.2.2.2.2.1, this.2.2.2.2.2.2.2.2.1⟩
  · have := closerChar_facts h
    exact ⟨this.2.2.2.1, this.2.2.2.2.1, this.2.2.2.2.2.1, this.2.2.2.2.2.2.1,
      this.2.2.2.2.2.2.2.1, this.2.2.2.2.2.2.2.2.1⟩

theorem strMk_data (s : String) : String.mk s.data = s := by cases s; rfl

theorem identStart_identCont {c : Char} (h : identStart c = true) : identCont c = true := by
  simp [identCont, h]

theorem validIdent_parts {s : String} (h : validIdent s = true) :
    s.data ≠ [] ∧ ∀ c ∈ s.data, identCont c = true := by
  have h' : (match s.data with
      | [] => false
      | c :: r => identStart c && r.all identCont) = true := h
  cases hs : s.data with
  | nil => rw [hs] at h'; cases h'
  | cons c r =>
    rw [hs] at h'
    simp only [Bool.and_eq_true, List.all_eq_true] at h'
    refine ⟨by simp, ?_⟩
    intro d hd
    rcases List.mem_cons.mp hd with rfl | hd
    · exact identStart_identCont h'.1
    · exact h'.2 d hd

theorem ident_run {l rest : List Char} (hall : ∀ c ∈ l, identCont c = true)
    (hb : boundaryB rest = true) :
    (l ++ rest).takeWhile identCont = l ∧ (l ++ rest).dropWhile identCont = rest := by
  constructor
  · rw [takeWhile_append_all l rest hall, (boundaryB_facts hb).1, List.append_nil]
  · rw [dropWhile_append_all l rest hall, (boundaryB_facts hb).2.1]

theorem isPrefixOf_self (l : List Char) : l.isPrefixOf l = true := by
  induction l with
  | nil => rfl
  | cons c t ih => simp [List.isPrefixOf, ih]

theorem validSym_parts {s : String} (h : validSym s = true) :
    validIdent s = true ∧ s.data ≠ "nil".data ∧ s.data ≠ "true".data ∧
      s.data ≠ "false".data ∧ literalCandidate s.data = false := by
  simp only [validSym, Bool.and_eq_true, Bool.not_eq_true'] at h
  obtain ⟨⟨⟨hv, h1⟩, h2⟩, h3⟩ := h
  have ne1 : s.data ≠ "nil".data := fun he => by
    rw [he, isPrefixOf_self] at h1; cases h1
  have ne2 : s.data ≠ "true".data := fun he => by
    rw [he, isPrefixOf_self] at h2; cases h2
  have ne3 : s.data ≠ "false".data := fun he => by
    rw [he, isPrefixOf_self] at h3; cases h3
  exact ⟨hv, ne1, ne2, ne3, by simp [literalCandidate, h1, h2, h3]⟩

theorem identParse_symbol {s : String} (h : validSym s = true) (rest : List Char)
    (hb : boundaryB rest = true) :
    identParse (s.data ++ rest) = .ok (.symbol s, rest) := by
  obtain ⟨hv, hn1, hn2, hn3, hlc⟩ := validSym_parts h
  obtain ⟨hne, hall⟩ := validIdent_parts hv
  obtain ⟨ht, hd⟩ := ident_run hall hb
  simp only [identParse, ht, hd]
  rw [if_neg hn1, if_neg hn2, if_neg hn3, hlc]
  simp [strMk_data]

theorem identParse_lit_nil (rest : List Char) (hb : boundaryB rest = true) :
    identParse ("nil".data ++ rest) = .ok (.nil, rest) := by
  obtain ⟨ht, hd⟩ := ident_run (show ∀ c ∈ "nil".data, identCont c = true by decide) hb
  simp only [identParse]
  rw [ht, hd]
  simp

theorem identParse_lit_true (rest : List Char) (hb : boundaryB rest = true) :
    identParse ("true".data ++ rest) = .ok (.boolean true, rest) := by
  obtain ⟨ht, hd⟩ := ident_run (show ∀ c ∈ "true".data, identCont c = true by decide) hb
  simp only [identParse]
  rw [ht, hd]
  simp

theorem identParse_lit_false (rest : List Char) (hb : boundaryB rest = true) :
    identParse ("false".data ++ rest) = .ok (.boolean false, rest) := by
  obtain ⟨ht, hd⟩ := ident_run (show ∀ c ∈ "false".data, identCont c = true by decide) hb
  simp only [identParse]
  rw [ht, hd]
  simp

theorem keywordParse_ok {s : String} (h : validKw s = true) (rest : List Char)
    (hb : boundaryB rest = true) :
    keywordParse (s.data ++ rest) = .ok (.keyword s, rest) := by
  simp only [validKw, Bool.and_eq_true, Bool.not_eq_true', List.all_eq_true] at h
  obtain ⟨hne, hall⟩ := h
  obtain ⟨ht, hd⟩ := ident_run hall hb
  simp only [keywordParse]
  rw [ht, hd]
  simp [hne, strMk_data]

theorem parseStr_escBody : ∀ (cs rest : List Char),
    parseStr (escBody cs ++ '"' :: rest) = .ok (cs, rest)
  | [], rest => by
    show parseStr ('"' :: rest) = .ok ([], rest)
    simp [parseStr]
  | c :: cs, rest => by
    rw [show escBody (c :: cs) = escSeq c ++ escBody cs from rfl, List.append_assoc]
    unfold escSeq
    by_cases h1 : c = '"'
    · subst h1
      rw [if_pos rfl]
      show parseEsc ('"' :: (escBody cs ++ '"' :: rest)) = _
      simp [parseEsc, escChar?, parseStr_escBody cs rest, strCons]
    · rw [if_neg h1]
      by_cases h2 : c = '\\'
      · subst h2
        rw [if_pos rfl]
        show parseEsc ('\\' :: (escBody cs ++ '"' :: rest)) = _
        simp [parseEsc, escChar?, parseStr_escBody cs rest, strCons]
      · rw [if_neg h2]
        by_cases h3 : c = '\n'
        · subst h3
          rw [if_pos rfl]
          show parseEsc ('n' :: (escBody cs ++ '"' :: rest)) = _
          simp [parseEsc, escChar?, parseStr_escBody cs rest, strCons]
        · rw [if_neg h3]
          by_cases h4 : c = '\t'
          · subst h4
            rw [if_pos rfl]
            show parseEsc ('t' :: (escBody cs ++ '"' :: rest)) = _
            simp [parseEsc, escChar?, parseStr_escBody cs rest, strCons]
          · rw [if_neg h4]
            by_cases h5 : c = '\r'
            · subst h5
              rw [if_pos rfl]
              show parseEsc ('r' :: (escBody cs ++ '"' :: rest)) = _
              simp [parseEsc, escChar?, parseStr_escBody cs rest, strCons]
            · rw [if_neg h5]
              show parseStr (c :: (escBody cs ++ '"' :: rest)) = _
              simp [parseStr, h1, h2, parseStr_escBody cs rest, strCons]

theorem parseChar_charBody (c : Char) (rest : List Char) (hb : boundaryB rest = true) :
    parseChar (charBody c ++ rest) = .ok (c, rest) := by
  have htw := (boundaryB_facts hb).2.2.2.2.1
  have hdw := (boundaryB_facts hb).2.2.2.2.2
  unfold charBody
  by_cases h1 : c = '\n'
  · subst h1
    rw [if_pos rfl]
    show parseChar ('n' :: ("ewline".data ++ rest)) = _
    have ht : ("ewline".data ++ rest).takeWhile (·.isAlpha) = "ewline".data := by
      rw [takeWhile_append_all _ _ (by decide), htw, List.append_nil]
    have hd : ("ewline".data ++ rest).dropWhile (·.isAlpha) = rest := by
      rw [dropWhile_append_all _ _ (by decide), hdw]
    simp only [parseChar]
    rw [ht, hd]
    rfl
  · rw [if_neg h1]
    by_cases h2 : c = ' '
    · subst h2
      rw [if_pos rfl]
      show parseChar ('s' :: ("pace".data ++ rest)) = _
      have ht : ("pace".data ++ rest).takeWhile (·.isAlpha) = "pace".data := by
        rw [takeWhile_append_all _ _ (by decide), htw, List.append_nil]
      have hd : ("pace".data ++ rest).dropWhile (·.isAlpha) = rest := by
        rw [dropWhile_append_all _ _ (by decide), hdw]
      simp only [parseChar]
      rw [ht, hd]
      rfl
    · rw [if_neg h2]
      by_cases h3 : c = '\t'
      · subst h3
        rw [if_pos rfl]
        show parseChar ('t' :: ("ab".data ++ rest)) = _
        have ht : ("ab".data ++ rest).takeWhile (·.isAlpha) = "ab".data := by
          rw [takeWhile_append_all _ _ (by decide), htw, List.append_nil]
        have hd : ("ab".data ++ rest).dropWhile (·.isAlpha) = rest := by
          rw [dropWhile_append_all _ _ (by decide), hdw]
        simp only [parseChar]
        rw [ht, hd]
        rfl
      · rw [if_neg h3]
        show parseChar (c :: rest) = _
        cases hca : c.isAlpha
        · simp [parseChar, hca]
        · simp only [parseChar, hca]
          rw [htw, hdw]
          simp

/-! ## Numeric-literal round-trip lemmas -/

theorem signSplit_minus (r : List Char) : signSplit ('-' :: r) = (-1, r) := by
  simp [signSplit]

theorem signSplit_other {c : Char} (h1 : c ≠ '-') (h2 : c ≠ '+') (r : List Char) :
    signSplit (c :: r) = (1, c :: r) := by
  simp [signSplit, h1, h2]

theorem numTail_boundary (sgn : Int) (d1 : List Char) {rest : List Char}
    (hb : boundaryB rest = true) :
    numTail sgn d1 rest = .ok (.int (sgn * (digitsVal d1 : Int)), rest) := by
  cases rest with
  | nil => rfl
  | cons c t =>
    have hf := boundaryB_head_facts hb
    simp [numTail, hf.1, hf.2.1, hf.2.2.1, hf.2.2.2.1, hf.2.2.2.2.1]

theorem fracTail_boundary (sgn : Int) (d1 d2 : List Char) {rest : List Char}
    (hb : boundaryB rest = true) :
    fracTail sgn d1 d2 rest = .ok (floatOf sgn d1 d2 0, rest) := by
  cases rest with
  | nil => rfl
  | cons c t =>
    have hf := boundaryB_head_facts hb
    simp [fracTail, hf.2.1, hf.2.2.1, hf.2.2.2.1, hf.2.2.2.2.1]

theorem digit_ne_sign {c : Char} (h : c.isDigit = true) : c ≠ '-' ∧ c ≠ '+' := by
  have := isDigit_bounds h
  exact ⟨toNat_ne (show c.toNat ≠ 45 by omega), toNat_ne (show c.toNat ≠ 43 by omega)⟩

theorem digitRun_take {l rest : List Char} (hall : ∀ c ∈ l, c.isDigit = true)
    (hb : boundaryB rest = true) :
    (l ++ rest).takeWhile (·.isDigit) = l ∧ (l ++ rest).dropWhile (·.isDigit) = rest := by
  constructor
  · rw [takeWhile_append_all l rest hall, (boundaryB_facts hb).2.2.1, List.append_nil]
  · rw [dropWhile_append_all l rest hall, (boundaryB_facts hb).2.2.2.1]

theorem digitRun_stop {l : List Char} (hall : ∀ c ∈ l, c.isDigit = true) {c : Char}
    (hc : c.isDigit = false) (t : List Char) :
    (l ++ c :: t).takeWhile (·.isDigit) = l ∧ (l ++ c :: t).dropWhile (·.isDigit) = c :: t := by
  constructor
  · rw [takeWhile_append_all l _ hall, takeWhile_cons_false hc, List.append_nil]
  · rw [dropWhile_append_all l _ hall, dropWhile_cons_false hc]

theorem isEmpty_false_of_ne_nil {l : List Char} (h : l ≠ []) : l.isEmpty = false := by
  cases l
  · exact absurd rfl h
  · rfl

theorem parseNum_intToChars (i : Int) {rest : List Char} (hb : boundaryB rest = true) :
    parseNum (intToChars i ++ rest) = .ok (.int i, rest) := by
  unfold intToChars
  by_cases hi : i < 0
  · rw [if_pos hi, List.cons_append]
    obtain ⟨ht, hd⟩ := digitRun_take (natToChars_digits i.natAbs) hb
    simp only [parseNum, signSplit_minus]
    rw [ht, hd, if_neg (by simp [isEmpty_false_of_ne_nil (natToChars_ne_nil _)]),
      numTail_boundary _ _ hb, digitsVal_natToChars]
    have hv : (-1 : Int) * (i.natAbs : Int) = i := by omega
    rw [hv]
  · rw [if_neg hi]
    obtain ⟨ht, hd⟩ := digitRun_take (natToChars_digits i.toNat) hb
    have hne : natToChars i.toNat ≠ [] := natToChars_ne_nil _
    have hcons : ∃ c0 t0, natToChars i.toNat = c0 :: t0 := by
      rcases hx : natToChars i.toNat with _ | ⟨c0, t0⟩
      · exact absurd hx hne
      · exact ⟨c0, t0, rfl⟩
    obtain ⟨c0, t0, hnat⟩ := hcons
    have hc0 : c0.isDigit = true := by
      have hD := natToChars_digits i.toNat
      rw [hnat] at hD
      exact hD c0 (List.mem_cons_self ..)
    obtain ⟨hs1, hs2⟩ := digit_ne_sign hc0
    rw [hnat, List.cons_append]
    simp only [parseNum, signSplit_other hs1 hs2]
    rw [← List.cons_append, ← hnat, ht, hd,
      if_neg (by simp [isEmpty_false_of_ne_nil hne]),
      numTail_boundary _ _ hb, digitsVal_natToChars]
    have hv : (1 : Int) * (i.toNat : Int) = i := by omega
    rw [hv]

theorem scalePow10_zero (x : Rat) : scalePow10 x 0 = x := by
  simp [scalePow10]

theorem numTail_dot (sgn : Int) (d1 r2 : List Char) :
    numTail sgn d1 ('.' :: r2) = fracPart sgn d1 r2 := by
  simp [numTail]

theorem ratPadded_digits (q : Rat) : ∀ c ∈ ratPadded q, c.isDigit = true := by
  intro c hc
  simp only [ratPadded] at hc
  rcases List.mem_append.mp hc with hc | hc
  · rw [List.eq_of_mem_replicate hc]; rfl
  · exact natToChars_digits _ c hc

theorem ratPadded_len (q : Rat) : q.den + 1 ≤ (ratPadded q).length := by
  simp only [ratPadded, List.length_append, List.length_replicate]
  omega

theorem ratPadded_val (q : Rat) :
    digitsVal (ratPadded q) = q.num.natAbs * (10 ^ q.den / q.den) := by
  simp only [ratPadded]
  rw [digitsVal_zeros, digitsVal_natToChars]

theorem ratIp_append_ratFp (q : Rat) : ratIp q ++ ratFp q = ratPadded q :=
  List.take_append_drop _ _

theorem ratFp_len (q : Rat) : (ratFp q).length = q.den := by
  have := ratPadded_len q
  simp only [ratFp, List.length_drop]
  omega

theorem ratIp_len (q : Rat) : (ratIp q).length = (ratPadded q).length - q.den := by
  have := ratPadded_len q
  simp only [ratIp, List.length_take]
  omega

theorem ratIp_ne_nil (q : Rat) : ratIp q ≠ [] := by
  intro h0
  have h1 := ratIp_len q
  have h2 := ratPadded_len q
  rw [h0] at h1
  simp at h1
  omega

theorem ratFp_ne_nil (q : Rat) : ratFp q ≠ [] := by
  intro h0
  have h1 := ratFp_len q
  have h2 := q.pos
  rw [h0] at h1
  simp at h1
  omega

theorem ratIp_digits (q : Rat) : ∀ c ∈ ratIp q, c.isDigit = true := fun c hc =>
  ratPadded_digits q c (by
    rw [← ratIp_append_ratFp]
    exact List.mem_append.mpr (Or.inl hc))

theorem ratFp_digits (q : Rat) : ∀ c ∈ ratFp q, c.isDigit = true := fun c hc =>
  ratPadded_digits q c (by
    rw [← ratIp_append_ratFp]
    exact List.mem_append.mpr (Or.inr hc))

theorem ratChars_parse {q : Rat} (hdec : decimalRat q = true) {rest : List Char}
    (hb : boundaryB rest = true) :
    parseNum (ratChars q ++ rest) = .ok (.float (.finite q), rest) := by
  have hdvd : q.den ∣ 10 ^ q.den := by
    simpa [decimalRat] using hdec
  have hkpos : 0 < q.den := q.pos
  have htk : 10 ^ q.den / q.den * q.den = 10 ^ q.den := Nat.div_mul_cancel hdvd
  have htpos : 0 < 10 ^ q.den / q.den := by
    rcases Nat.eq_zero_or_pos (10 ^ q.den / q.den) with h0 | h
    · rw [h0, zero_mul] at htk
      have hp : (0 : Nat) < 10 ^ q.den := pow_pos (by norm_num) q.den
      omega
    · exact h
  have hval : digitsVal (ratIp q ++ ratFp q) = q.num.natAbs * (10 ^ q.den / q.den) := by
    rw [ratIp_append_ratFp, ratPadded_val]
  have hmk : ∀ sgn : Int, (sgn = 1 ∧ 0 ≤ q.num) ∨ (sgn = -1 ∧ q.num < 0) →
      floatOf sgn (ratIp q) (ratFp q) 0 = .float (.finite q) := by
    intro sgn hsgn
    have hznum : (sgn * ((q.num.natAbs * (10 ^ q.den / q.den) : Nat) : Int) : Int) =
        q.num * ((10 ^ q.den / q.den : Nat) : Int) := by
      rcases hsgn with ⟨rfl, hpos⟩ | ⟨rfl, hneg⟩
      · have habs : (q.num.natAbs : Int) = q.num := by omega
        push_cast [habs]
        ring
      · have habs : (q.num.natAbs : Int) = -q.num := by omega
        push_cast [habs]
        ring
    have ht0 : ((10 ^ q.den / q.den : Nat) : ℚ) ≠ 0 := by
      simp only [ne_eq, Nat.cast_eq_zero]
      omega
    have h10 : ((10 ^ q.den : Nat) : ℚ) =
        ((10 ^ q.den / q.den : Nat) : ℚ) * ((q.den : Nat) : ℚ) := by
      rw [← Nat.cast_mul, htk]
    have hmkq : mkRat (sgn * ((q.num.natAbs * (10 ^ q.den / q.den) : Nat) : Int))
        (10 ^ q.den) = q := by
      rw [Rat.mkRat_eq_div, hznum]
      rw [show ((q.num * ((10 ^ q.den / q.den : Nat) : Int) : Int) : ℚ) =
          (q.num : ℚ) * (((10 ^ q.den / q.den : Nat) : Nat) : ℚ) by
        rw [Int.cast_mul, Int.cast_natCast]]
      rw [h10, mul_comm ((10 ^ q.den / q.den : Nat) : ℚ) ((q.den : Nat) : ℚ),
        mul_div_mul_right _ _ ht0]
      exact Rat.num_div_den q
    unfold floatOf
    rw [hval, ratFp_len, scalePow10_zero, hmkq]
  have hrc : ratChars q ++ rest =
      (if q.num < 0 then ['-'] else []) ++ (ratIp q ++ ('.' :: (ratFp q ++ rest))) := by
    simp [ratChars]
  rw [hrc]
  by_cases hneg : q.num < 0
  · rw [if_pos hneg]
    simp only [List.cons_append, List.nil_append]
    obtain ⟨ht1, hd1⟩ := digitRun_stop (ratIp_digits q)
      (show ('.' : Char).isDigit = false by decide) (ratFp q ++ rest)
    simp only [parseNum, signSplit_minus]
    rw [ht1, hd1, if_neg (by simp [isEmpty_false_of_ne_nil (ratIp_ne_nil q)]), numTail_dot]
    obtain ⟨ht2, hd2⟩ := digitRun_take (ratFp_digits q) hb
    simp only [fracPart]
    rw [ht2, hd2, if_neg (by simp [isEmpty_false_of_ne_nil (ratFp_ne_nil q)]),
      fracTail_boundary _ _ _ hb, hmk (-1) (Or.inr ⟨rfl, hneg⟩)]
  · rw [if_neg hneg, List.nil_append]
    have hcons : ∃ c0 t0, ratIp q = c0 :: t0 := by
      rcases hx : ratIp q with _ | ⟨c0, t0⟩
      · exact absurd hx (ratIp_ne_nil q)
      · exact ⟨c0, t0, rfl⟩
    obtain ⟨c0, t0, hipc⟩ := hcons
    have hc0 : c0.isDigit = true := by
      have hD := ratIp_digits q
      rw [hipc] at hD
      exact hD c0 (List.mem_cons_self ..)
    obtain ⟨hs1, hs2⟩ := digit_ne_sign hc0
    rw [hipc, List.cons_append]
    simp only [parseNum, signSplit_other hs1 hs2]
    rw [← List.cons_append, ← hipc]
    obtain ⟨ht1, hd1⟩ := digitRun_stop (ratIp_digits q)
      (show ('.' : Char).isDigit = false by decide) (ratFp q ++ rest)
    rw [ht1, hd1, if_neg (by simp [isEmpty_false_of_ne_nil (ratIp_ne_nil q)]), numTail_dot]
    obtain ⟨ht2, hd2⟩ := digitRun_take (ratFp_digits q) hb
    simp only [fracPart]
    rw [ht2, hd2, if_neg (by simp [isEmpty_false_of_ne_nil (ratFp_ne_nil q)]),
      fracTail_boundary _ _ _ hb, hmk 1 (Or.inl ⟨rfl, by omega⟩)]

/-- Round trip of a grammar-constructible Number's text. -/
theorem parseNum_numberChars {n : Number} (h : constructibleNum n = true)
    {rest : List Char} (hb : boundaryB rest = true) :
    parseNum (numberChars n ++ rest) = .ok (n, rest) := by
  cases n with
  | int i => exact parseNum_intToChars i hb
  | float f =>
    cases f with
    | finite q =>
      have hd : decimalRat q = true := h
      exact ratChars_parse hd hb
    | negInf => cases h
    | posInf => cases h
    | nan => cases h

/-! ## Parser dispatch lemmas -/

theorem parseValueF_identStart (fuel : Nat) {c : Char} (hc : identStart c = true)
    (s : List Char) : parseValueF (fuel + 1) (c :: s) = identParse (c :: s) := by
  obtain ⟨f1, f2, f3, f4, f5, f6, f7, f8, f9, f10, f11, f12, f13, f14⟩ := identStart_facts hc
  simp only [parseValueF]
  rw [skipWs_not_ws f11 f12]
  simp only [f1, f2, f3, f4, f5, f6, f7, f8, f9, f10, hc, if_true, if_false]
  simp

theorem parseValueF_digit (fuel : Nat) {c : Char} (hc : c.isDigit = true)
    (s : List Char) : parseValueF (fuel + 1) (c :: s) = numberRes (parseNum (c :: s)) := by
  obtain ⟨f1, f2, f3, f4, f5, f6, f7, f8, f9, f10⟩ := isDigit_facts hc
  simp only [parseValueF]
  rw [skipWs_not_ws f8 f9]
  simp only [f1, f2, f3, f4, f5, f6, f7, hc, if_true, if_false]
  simp

theorem parseValueF_hash_ident (fuel : Nat) {c2 : Char} (hc2 : identStart c2 = true)
    (r : List Char) :
    parseValueF (fuel + 1) ('#' :: c2 :: r) =
      taggedRes (String.mk (c2 :: r.takeWhile identCont))
        (parseValueF fuel (r.dropWhile identCont)) := by
  obtain ⟨f1, f2, f3, f4, f5, f6, f7, f8, f9, f10, f11, f12, f13, f14⟩ := identStart_facts hc2
  simp only [parseValueF]
  rw [skipWs_not_ws (by decide) (by decide)]
  split
  · rename_i heq
    exact absurd heq (by simp)
  rename_i c' s' heq
  obtain ⟨rfl, rfl⟩ : '#' = c' ∧ c2 :: r = s' := ⟨(List.cons.inj heq).1, (List.cons.inj heq).2⟩
  rw [if_neg (by decide), if_neg (by decide), if_neg (by decide), if_neg (by decide),
    if_neg (by decide), if_neg (by decide), if_pos rfl]
  split
  · rename_i heq
    exact absurd heq (by simp)
  · rename_i r' heq
    exact absurd (List.cons.inj heq).1 f3
  · rename_i r' heq
    exact absurd (List.cons.inj heq).1 f14
  · rename_i a t hbr hus heq
    obtain ⟨rfl, rfl⟩ : c2 = a ∧ r = t := ⟨(List.cons.inj heq).1, (List.cons.inj heq).2⟩
    rw [if_pos hc2]

/-- A whitespace run before a value position is skipped. -/
theorem parseValueF_ws (fuel : Nat) {w : List Char} (hw : ∀ c ∈ w, wsChar c = true)
    (X : List Char) : parseValueF (fuel + 1) (w ++ X) = parseValueF (fuel + 1) X := by
  simp only [parseValueF]
  rw [skipWs_ws_append w hw X]

/-- Member separators are whitespace in both modes. -/
theorem sepChars_ws (p : Bool) (d : Nat) (first : Bool) :
    ∀ c ∈ sepChars p d first, wsChar c = true := by
  intro c hc
  unfold sepChars at hc
  split at hc
  · rcases List.mem_cons.mp hc with rfl | hc
    · decide
    · rw [List.eq_of_mem_replicate hc]; decide
  · split at hc
    · cases hc
    · rcases List.mem_cons.mp hc with rfl | hc
      · decide
      · cases hc

/-- Before a non-first member the separator is nonempty whitespace. -/
theorem sepChars_false_cons (p : Bool) (d : Nat) :
    ∃ c t, sepChars p d false = c :: t ∧ wsChar c = true := by
  cases p
  · exact ⟨' ', [], rfl, by decide⟩
  · exact ⟨'\n', List.replicate (2 * d) ' ', rfl, by decide⟩

theorem boundaryB_ws_head {c : Char} (h : wsChar c = true) (t : List Char) :
    boundaryB (c :: t) = true := by simp [boundaryB, h]

theorem boundaryB_closer_head {c : Char} (h : closerChar c = true) (t : List Char) :
    boundaryB (c :: t) = true := by simp [boundaryB, h]

/-- After any member of a sequence body, the remaining text is a legal
token boundary. -/
theorem boundaryB_seq (p : Bool) (d : Nat) (vs : ValueVec) {close : Char}
    (hclose : closerChar close = true) (rest : List Char) :
    boundaryB (renderSeqF p d false vs ++ close :: rest) = true := by
  cases vs with
  | nil => exact boundaryB_closer_head hclose rest
  | cons v vs =>
    obtain ⟨c, t, hct, hw⟩ := sepChars_false_cons p d
    rw [show renderSeqF p d false (ValueVec.cons v vs) =
      sepChars p d false ++ renderF p d v ++ renderSeqF p d false vs from rfl, hct]
    simp only [List.cons_append]
    exact boundaryB_ws_head hw _

/-- After any entry of a map body, the remaining text is a legal token
boundary. -/
theorem boundaryB_entries (p : Bool) (d : Nat) (m : ValueMap) {close : Char}
    (hclose : closerChar close = true) (rest : List Char) :
    boundaryB (renderEntriesF p d false m ++ close :: rest) = true := by
  cases m with
  | nil => exact boundaryB_closer_head hclose rest
  | cons k v m =>
    obtain ⟨c, t, hct, hw⟩ := sepChars_false_cons p d
    rw [show renderEntriesF p d false (ValueMap.cons k v m) =
      sepChars p d false ++ renderF p d k ++ ' ' :: renderF p d v ++
        renderEntriesF p d false m from rfl, hct]
    simp only [List.cons_append]
    exact boundaryB_ws_head hw _

/-- A constructible Number's text is nonempty and starts with a minus
sign or a digit. -/
theorem numberChars_cons {n : Number} (h : constructibleNum n = true) :
    ∃ c0 t0, numberChars n = c0 :: t0 ∧ (c0 = '-' ∨ c0.isDigit = true) := by
  cases n with
  | int i =>
    show ∃ c0 t0, intToChars i = c0 :: t0 ∧ _
    unfold intToChars
    split
    · exact ⟨'-', natToChars i.natAbs, rfl, Or.inl rfl⟩
    · obtain ⟨c0, t0, he⟩ : ∃ c0 t0, natToChars i.toNat = c0 :: t0 := by
        cases hn : natToChars i.toNat with
        | nil => exact absurd hn (natToChars_ne_nil _)
        | cons a b => exact ⟨a, b, rfl⟩
      exact ⟨c0, t0, he,
        Or.inr (natToChars_digits _ c0 (he ▸ List.mem_cons_self c0 t0))⟩
  | float f =>
    cases f with
    | finite q =>
      show ∃ c0 t0, ratChars q = c0 :: t0 ∧ _
      unfold ratChars
      split
      · exact ⟨'-', ratIp q ++ '.' :: ratFp q, rfl, Or.inl rfl⟩
      · obtain ⟨c0, t0, he⟩ : ∃ c0 t0, ratIp q = c0 :: t0 := by
          cases hn : ratIp q with
          | nil => exact absurd hn (ratIp_ne_nil q)
          | cons a b => exact ⟨a, b, rfl⟩
        refine ⟨c0, t0 ++ '.' :: ratFp q, ?_,
          Or.inr (ratIp_digits q c0 (he ▸ List.mem_cons_self c0 t0))⟩
        rw [List.nil_append, he, List.cons_append]
    | negInf => cases h
    | posInf => cases h
    | nan => cases h

/-- A constructible Value's text is nonempty and starts with a
significant, non-closing character. -/
theorem renderF_head (p : Bool) (d : Nat) {v : Value} (hv : constructible v = true) :
    ∃ c0 t0, renderF p d v = c0 :: t0 ∧ wsChar c0 = false ∧ c0 ≠ ';' ∧
      closerChar c0 = false := by
  cases v with
  | nil => exact ⟨'n', "il".data, rfl, by decide, by decide, by decide⟩
  | boolean b =>
    cases b with
    | true => exact ⟨'t', "rue".data, rfl, by decide, by decide, by decide⟩
    | false => exact ⟨'f', "alse".data, rfl, by decide, by decide, by decide⟩
  | string s => exact ⟨'"', escBody s.data ++ ['"'], rfl, by decide, by decide, by decide⟩
  | char c => exact ⟨'\\', charBody c, rfl, by decide, by decide, by decide⟩
  | symbol s =>
    have hvi : validIdent s = true := (validSym_parts hv).1
    have h' : (match s.data with
        | [] => false
        | c :: r => identStart c && r.all identCont) = true := hvi
    cases hs : s.data with
    | nil => rw [hs] at h'; cases h'
    | cons c r =>
      rw [hs] at h'
      have hstart : identStart c = true := by
        simp only [Bool.and_eq_true] at h'
        exact h'.1
      obtain ⟨_, _, _, _, _, _, _, _, _, _, f11, f12, f13, _⟩ := identStart_facts hstart
      exact ⟨c, r, by show s.data = c :: r; rw [hs], f11, f12, f13⟩
  | keyword s => exact ⟨':', s.data, rfl, by decide, by decide, by decide⟩
  | number n =>
    obtain ⟨c0, t0, he, hc0⟩ := numberChars_cons hv
    rcases hc0 with rfl | hd
    · exact ⟨'-', t0, he, by decide, by decide, by decide⟩
    · obtain ⟨_, _, _, _, _, _, _, f8, f9, f10⟩ := isDigit_facts hd
      exact ⟨c0, t0, he, f8, f9, f10⟩
  | list xs =>
    exact ⟨'(', renderSeqF p (d + 1) true xs ++ [')'], rfl, by decide, by decide, by decide⟩
  | vector xs =>
    exact ⟨'[', renderSeqF p (d + 1) true xs ++ [']'], rfl, by decide, by decide, by decide⟩
  | map m =>
    exact ⟨'{', renderEntriesF p (d + 1) true m ++ ['}'], rfl, by decide, by decide, by decide⟩
  | set xs =>
    exact ⟨'#', '{' :: (renderSeqF p (d + 1) true xs ++ ['}']), rfl,
      by decide, by decide, by decide⟩
  | tagged t v =>
    exact ⟨'#', t.data ++ ' ' :: renderF p d v, rfl, by decide, by decide, by decide⟩

/-- Interleave a map's keys and values as a flat element sequence, the
shape the sequence scanner produces for a map body. -/
def flatSeq : ValueMap → ValueVec
  | .nil => .nil
  | .cons k v rest => .cons k (.cons v (flatSeq rest))

theorem pairUp_flatSeq : ∀ m : ValueMap, pairUp (flatSeq m) = some m
  | .nil => rfl
  | .cons k v rest => by simp [flatSeq, pairUp, pairUp_flatSeq rest]


/-- Scanning the rendered members of a sequence up to the closing
delimiter recovers exactly the members (`IH` supplies the round trip of
each element, bounded by size). -/
theorem parseSeqF_render (B : Nat)
    (IH : ∀ x : Value, sizeOf x < B → constructible x = true →
      ∀ (p : Bool) (d : Nat) (rest : List Char), boundaryB rest = true →
      ∀ fuel : Nat, 2 * (renderF p d x ++ rest).length + 1 ≤ fuel →
      parseValueF fuel (renderF p d x ++ rest) = .ok (x, rest))
    (p : Bool) (d : Nat) (close : Char) (hclose : closerChar close = true) :
    ∀ xs : ValueVec, sizeOf xs < B → constructibleSeq xs = true →
    ∀ (first : Bool) (rest : List Char) (fuel : Nat),
      2 * (renderSeqF p d first xs ++ close :: rest).length + 2 ≤ fuel →
      parseSeqF fuel close (renderSeqF p d first xs ++ close :: rest) = .ok (xs, rest)
  | .nil, _, _, first, rest, fuel, hf => by
    obtain ⟨_, _, _, _, _, _, _, _, _, h10, h11⟩ := closerChar_facts hclose
    rcases fuel with _ | g
    · exact absurd hf (by omega)
    · show parseSeqF (g + 1) close (close :: rest) = .ok (.nil, rest)
      simp only [parseSeqF]
      rw [skipWs_not_ws h11 h10]
      split
      · rename_i heq
        exact absurd heq (by simp)
      · rename_i c' rest' heq
        obtain ⟨rfl, rfl⟩ : close = c' ∧ rest = rest' :=
          ⟨(List.cons.inj heq).1, (List.cons.inj heq).2⟩
        rw [if_pos rfl]
  | .cons v vs, hsz, hcs, first, rest, fuel, hf => by
    have hsv : sizeOf v < B := by
      have h1 : sizeOf (ValueVec.cons v vs) = 1 + sizeOf v + sizeOf vs := by simp
      omega
    have hsvs : sizeOf vs < B := by
      have h1 : sizeOf (ValueVec.cons v vs) = 1 + sizeOf v + sizeOf vs := by simp
      omega
    have hcs' : (constructible v && constructibleSeq vs) = true := hcs
    have hcv : constructible v = true := (Bool.and_eq_true _ _ |>.mp hcs').1
    have hcvs : constructibleSeq vs = true := (Bool.and_eq_true _ _ |>.mp hcs').2
    have hbody : renderSeqF p d first (ValueVec.cons v vs) =
        sepChars p d first ++ renderF p d v ++ renderSeqF p d false vs := rfl
    rw [hbody] at hf ⊢
    rw [List.append_assoc, List.append_assoc]
    obtain ⟨c0, t0, hR, hw0, hs0, hc0⟩ := renderF_head p d hcv
    have hRlen : (renderF p d v).length = t0.length + 1 := by rw [hR]; rfl
    simp only [List.length_append, List.length_cons] at hf
    rcases fuel with _ | g
    · exact absurd hf (by omega)
    · simp only [parseSeqF]
      rw [skipWs_ws_append _ (sepChars_ws p d first) _, hR, List.cons_append,
        skipWs_not_ws hw0 hs0]
      have hne : c0 ≠ close := by
        intro h
        rw [h, hclose] at hc0
        exact absurd hc0 (by decide)
      split
      · rename_i heq
        exact absurd heq (by simp)
      · rename_i c' rest' heq
        obtain ⟨rfl, rfl⟩ : c0 = c' ∧ t0 ++ (renderSeqF p d false vs ++ close :: rest) = rest' :=
          ⟨(List.cons.inj heq).1, (List.cons.inj heq).2⟩
        rw [if_neg hne]
        have hbT : boundaryB (renderSeqF p d false vs ++ close :: rest) = true :=
          boundaryB_seq p d vs hclose rest
        have hv1 : parseValueF g
            (c0 :: (t0 ++ (renderSeqF p d false vs ++ close :: rest))) =
            .ok (v, renderSeqF p d false vs ++ close :: rest) := by
          rw [← List.cons_append, ← hR]
          refine IH v hsv hcv p d _ hbT g ?_
          simp only [List.length_append, List.length_cons]
          omega
        rw [hv1]
        have hv2 : parseSeqF g close (renderSeqF p d false vs ++ close :: rest) =
            .ok (vs, rest) := by
          refine parseSeqF_render B IH p d close hclose vs hsvs hcvs false rest g ?_
          simp only [List.length_append, List.length_cons]
          omega
        show (match parseSeqF g close (renderSeqF p d false vs ++ close :: rest) with
          | .ok (ys, r2) => (.ok (.cons v ys, r2) : Except ErrKind (ValueVec × List Char))
          | .error e => .error e) = .ok (.cons v vs, rest)
        rw [hv2]


/-- Scanning the rendered entries of a map body up to the closing
delimiter yields the keys and values interleaved, in order. -/
theorem parseSeqF_renderEntries (B : Nat)
    (IH : ∀ x : Value, sizeOf x < B → constructible x = true →
      ∀ (p : Bool) (d : Nat) (rest : List Char), boundaryB rest = true →
      ∀ fuel : Nat, 2 * (renderF p d x ++ rest).length + 1 ≤ fuel →
      parseValueF fuel (renderF p d x ++ rest) = .ok (x, rest))
    (p : Bool) (d : Nat) (close : Char) (hclose : closerChar close = true) :
    ∀ m : ValueMap, sizeOf m < B → constructibleEntries m = true →
    ∀ (first : Bool) (rest : List Char) (fuel : Nat),
      2 * (renderEntriesF p d first m ++ close :: rest).length + 2 ≤ fuel →
      parseSeqF fuel close (renderEntriesF p d first m ++ close :: rest) =
        .ok (flatSeq m, rest)
  | .nil, _, _, first, rest, fuel, hf => by
    obtain ⟨_, _, _, _, _, _, _, _, _, h10, h11⟩ := closerChar_facts hclose
    rcases fuel with _ | g
    · exact absurd hf (by omega)
    · show parseSeqF (g + 1) close (close :: rest) = .ok (.nil, rest)
      simp only [parseSeqF]
      rw [skipWs_not_ws h11 h10]
      split
      · rename_i heq
        exact absurd heq (by simp)
      · rename_i c' rest' heq
        obtain ⟨rfl, rfl⟩ : close = c' ∧ rest = rest' :=
          ⟨(List.cons.inj heq).1, (List.cons.inj heq).2⟩
        rw [if_pos rfl]
  | .cons k v m, hsz, hcs, first, rest, fuel, hf => by
    have hsize : sizeOf (ValueMap.cons k v m) = 1 + sizeOf k + sizeOf v + sizeOf m := by
      simp
    have hsk : sizeOf k < B := by omega
    have hsv : sizeOf v < B := by omega
    have hsm : sizeOf m < B := by omega
    have hcs' : ((constructible k && constructible v) && constructibleEntries m) = true := hcs
    simp only [Bool.and_eq_true] at hcs'
    obtain ⟨⟨hck, hcv⟩, hcm⟩ := hcs'
    have hbody : renderEntriesF p d first (ValueMap.cons k v m) =
        sepChars p d first ++ renderF p d k ++ ' ' :: renderF p d v ++
          renderEntriesF p d false m := rfl
    rw [hbody] at hf ⊢
    rw [List.append_assoc, List.append_assoc, List.append_assoc, List.cons_append]
    obtain ⟨c0, t0, hK, hw0, hs0, hc0⟩ := renderF_head p d hck
    obtain ⟨c1, t1, hV, hw1, hs1, hc1⟩ := renderF_head p d hcv
    have hKlen : (renderF p d k).length = t0.length + 1 := by rw [hK]; rfl
    have hVlen : (renderF p d v).length = t1.length + 1 := by rw [hV]; rfl
    simp only [List.length_append, List.length_cons] at hf
    rcases fuel with _ | g
    · exact absurd hf (by omega)
    · have hbZ : boundaryB (renderEntriesF p d false m ++ close :: rest) = true :=
        boundaryB_entries p d m hclose rest
      have hv2 : parseSeqF g close
          (' ' :: (renderF p d v ++ (renderEntriesF p d false m ++ close :: rest))) =
          .ok (.cons v (flatSeq m), rest) := by
        rcases g with _ | g'
        · exact absurd hf (by omega)
        · simp only [parseSeqF]
          rw [skipWs_cons_ws (by decide), hV, List.cons_append, skipWs_not_ws hw1 hs1]
          have hne1 : c1 ≠ close := by
            intro h
            rw [h, hclose] at hc1
            exact absurd hc1 (by decide)
          split
          · rename_i heq
            exact absurd heq (by simp)
          · rename_i c' rest' heq
            obtain ⟨rfl, rfl⟩ : c1 = c' ∧
                t1 ++ (renderEntriesF p d false m ++ close :: rest) = rest' :=
              ⟨(List.cons.inj heq).1, (List.cons.inj heq).2⟩
            rw [if_neg hne1]
            have hva : parseValueF g'
                (c1 :: (t1 ++ (renderEntriesF p d false m ++ close :: rest))) =
                .ok (v, renderEntriesF p d false m ++ close :: rest) := by
              rw [← List.cons_append, ← hV]
              refine IH v hsv hcv p d _ hbZ g' ?_
              simp only [List.length_append, List.length_cons]
              omega
            rw [hva]
            have hvb : parseSeqF g' close
                (renderEntriesF p d false m ++ close :: rest) =
                .ok (flatSeq m, rest) := by
              refine parseSeqF_renderEntries B IH p d close hclose m hsm hcm false rest g' ?_
              simp only [List.length_append, List.length_cons]
              omega
            show (match parseSeqF g' close
                (renderEntriesF p d false m ++ close :: rest) with
              | .ok (ys, r2) => (.ok (.cons v ys, r2) : Except ErrKind (ValueVec × List Char))
              | .error e => .error e) = .ok (.cons v (flatSeq m), rest)
            rw [hvb]
      simp only [parseSeqF]
      rw [skipWs_ws_append _ (sepChars_ws p d first) _, hK, List.cons_append,
        skipWs_not_ws hw0 hs0]
      have hne0 : c0 ≠ close := by
        intro h
        rw [h, hclose] at hc0
        exact absurd hc0 (by decide)
      split
      · rename_i heq
        exact absurd heq (by simp)
      · rename_i c' rest' heq
        obtain ⟨rfl, rfl⟩ : c0 = c' ∧
            t0 ++ (' ' :: (renderF p d v ++ (renderEntriesF p d false m ++ close :: rest))) =
              rest' :=
          ⟨(List.cons.inj heq).1, (List.cons.inj heq).2⟩
        rw [if_neg hne0]
        have hv1 : parseValueF g
            (c0 :: (t0 ++ (' ' :: (renderF p d v ++
              (renderEntriesF p d false m ++ close :: rest))))) =
            .ok (k, ' ' :: (renderF p d v ++
              (renderEntriesF p d false m ++ close :: rest))) := by
          rw [← List.cons_append, ← hK]
          refine IH k hsk hck p d _ (boundaryB_ws_head (by decide) _) g ?_
          simp only [List.length_append, List.length_cons]
          omega
        rw [hv1]
        show (match parseSeqF g close
            (' ' :: (renderF p d v ++ (renderEntriesF p d false m ++ close :: rest))) with
          | .ok (ys, r2) => (.ok (.cons k ys, r2) : Except ErrKind (ValueVec × List Char))
          | .error e => .error e) = .ok (flatSeq (ValueMap.cons k v m), rest)
        rw [hv2]
        rfl


/-- Round trip: parsing the rendered text of any grammar-constructible
Value, followed by boundary text, yields the Value back and leaves
exactly the boundary text, in either mode, at any depth, given enough
fuel. -/
theorem parse_render : ∀ v : Value, constructible v = true →
    ∀ (p : Bool) (d : Nat) (rest : List Char), boundaryB rest = true →
    ∀ fuel : Nat, 2 * (renderF p d v ++ rest).length + 1 ≤ fuel →
    parseValueF fuel (renderF p d v ++ rest) = .ok (v, rest)
  | .nil, _, p, d, rest, hb, fuel, hf => by
    rcases fuel with _ | g
    · exact absurd hf (by omega)
    · exact identParse_lit_nil rest hb
  | .boolean true, _, p, d, rest, hb, fuel, hf => by
    rcases fuel with _ | g
    · exact absurd hf (by omega)
    · exact identParse_lit_true rest hb
  | .boolean false, _, p, d, rest, hb, fuel, hf => by
    rcases fuel with _ | g
    · exact absurd hf (by omega)
    · exact identParse_lit_false rest hb
  | .string s, _, p, d, rest, hb, fuel, hf => by
    rcases fuel with _ | g
    · exact absurd hf (by omega)
    · rw [show renderF p d (.string s) ++ rest =
        '"' :: ((escBody s.data ++ ['"']) ++ rest) from rfl, List.append_assoc]
      show stringRes (parseStr (escBody s.data ++ '"' :: rest)) = .ok (.string s, rest)
      rw [parseStr_escBody s.data rest]
      show Except.ok (Value.string (String.mk s.data), rest) =
        Except.ok (Value.string s, rest)
      rw [strMk_data]
  | .char c, _, p, d, rest, hb, fuel, hf => by
    rcases fuel with _ | g
    · exact absurd hf (by omega)
    · show charRes (parseChar (charBody c ++ rest)) = .ok (.char c, rest)
      rw [parseChar_charBody c rest hb]
      rfl
  | .symbol s, hv, p, d, rest, hb, fuel, hf => by
    rcases fuel with _ | g
    · exact absurd hf (by omega)
    · have hvi := (validSym_parts hv).1
      have h' : (match s.data with
          | [] => false
          | c :: r => identStart c && r.all identCont) = true := hvi
      cases hs : s.data with
      | nil => rw [hs] at h'; cases h'
      | cons c r =>
        rw [hs] at h'
        have hstart : identStart c = true := by
          simp only [Bool.and_eq_true] at h'
          exact h'.1
        rw [show renderF p d (.symbol s) ++ rest = s.data ++ rest from rfl, hs,
          List.cons_append, parseValueF_identStart g hstart]
        rw [← List.cons_append, ← hs]
        exact identParse_symbol hv rest hb
  | .keyword s, hv, p, d, rest, hb, fuel, hf => by
    rcases fuel with _ | g
    · exact absurd hf (by omega)
    · show keywordParse (s.data ++ rest) = .ok (.keyword s, rest)
      exact keywordParse_ok hv rest hb
  | .number n, hv, p, d, rest, hb, fuel, hf => by
    rcases fuel with _ | g
    · exact absurd hf (by omega)
    · obtain ⟨c0, t0, he, hc0⟩ := numberChars_cons hv
      rw [show renderF p d (.number n) ++ rest = numberChars n ++ rest from rfl, he,
        List.cons_append]
      have key : parseValueF (g + 1) (c0 :: (t0 ++ rest)) =
          numberRes (parseNum (c0 :: (t0 ++ rest))) := by
        rcases hc0 with rfl | hd
        · rfl
        · exact parseValueF_digit g hd _
      rw [key, ← List.cons_append, ← he, parseNum_numberChars hv hb]
      rfl
  | .list xs, hv, p, d, rest, hb, fuel, hf => by
    rcases fuel with _ | g
    · exact absurd hf (by omega)
    · have hszlt : sizeOf xs < sizeOf (Value.list xs) := by
        have h1 : sizeOf (Value.list xs) = 1 + sizeOf xs := by simp
        omega
      have hlen : (renderF p d (Value.list xs) ++ rest).length =
          (renderSeqF p (d + 1) true xs).length + 2 + rest.length := by
        rw [show renderF p d (Value.list xs) =
          '(' :: (renderSeqF p (d + 1) true xs ++ [')']) from rfl]
        simp
        omega
      rw [hlen] at hf
      have hseq := parseSeqF_render (sizeOf (Value.list xs))
        (fun x hx hcx p' d' r' hb' f' hf' => parse_render x hcx p' d' r' hb' f' hf')
        p (d + 1) ')' (by decide) xs hszlt hv true rest g
        (by simp only [List.length_append, List.length_cons]; omega)
      rw [show renderF p d (Value.list xs) ++ rest =
        '(' :: ((renderSeqF p (d + 1) true xs ++ [')']) ++ rest) from rfl, List.append_assoc]
      show listRes (parseSeqF g ')' (renderSeqF p (d + 1) true xs ++ ')' :: rest)) =
        .ok (.list xs, rest)
      rw [hseq]
      rfl
  | .vector xs, hv, p, d, rest, hb, fuel, hf => by
    rcases fuel with _ | g
    · exact absurd hf (by omega)
    · have hszlt : sizeOf xs < sizeOf (Value.vector xs) := by
        have h1 : sizeOf (Value.vector xs) = 1 + sizeOf xs := by simp
        omega
      have hlen : (renderF p d (Value.vector xs) ++ rest).length =
          (renderSeqF p (d + 1) true xs).length + 2 + rest.length := by
        rw [show renderF p d (Value.vector xs) =
          '[' :: (renderSeqF p (d + 1) true xs ++ [']']) from rfl]
        simp
        omega
      rw [hlen] at hf
      have hseq := parseSeqF_render (sizeOf (Value.vector xs))
        (fun x hx hcx p' d' r' hb' f' hf' => parse_render x hcx p' d' r' hb' f' hf')
        p (d + 1) ']' (by decide) xs hszlt hv true rest g
        (by simp only [List.length_append, List.length_cons]; omega)
      rw [show renderF p d (Value.vector xs) ++ rest =
        '[' :: ((renderSeqF p (d + 1) true xs ++ [']']) ++ rest) from rfl, List.append_assoc]
      show vectorRes (parseSeqF g ']' (renderSeqF p (d + 1) true xs ++ ']' :: rest)) =
        .ok (.vector xs, rest)
      rw [hseq]
      rfl
  | .set xs, hv, p, d, rest, hb, fuel, hf => by
    rcases fuel with _ | g
    · exact absurd hf (by omega)
    · have hv' : (seqSorted xs && constructibleSeq xs) = true := hv
      simp only [Bool.and_eq_true] at hv'
      obtain ⟨hsort, hcseq⟩ := hv'
      have hszlt : sizeOf xs < sizeOf (Value.set xs) := by
        have h1 : sizeOf (Value.set xs) = 1 + sizeOf xs := by simp
        omega
      have hlen : (renderF p d (Value.set xs) ++ rest).length =
          (renderSeqF p (d + 1) true xs).length + 3 + rest.length := by
        rw [show renderF p d (Value.set xs) =
          '#' :: '{' :: (renderSeqF p (d + 1) true xs ++ ['}']) from rfl]
        simp
        omega
      rw [hlen] at hf
      have hseq := parseSeqF_render (sizeOf (Value.set xs))
        (fun x hx hcx p' d' r' hb' f' hf' => parse_render x hcx p' d' r' hb' f' hf')
        p (d + 1) '}' (by decide) xs hszlt hcseq true rest g
        (by simp only [List.length_append, List.length_cons]; omega)
      rw [show renderF p d (Value.set xs) ++ rest =
        '#' :: '{' :: ((renderSeqF p (d + 1) true xs ++ ['}']) ++ rest) from rfl,
        List.append_assoc]
      show setRes (parseSeqF g '}' (renderSeqF p (d + 1) true xs ++ '}' :: rest)) =
        .ok (.set xs, rest)
      rw [hseq]
      show Except.ok (Value.set (setFromAux ValueVec.nil xs), rest) =
        Except.ok (Value.set xs, rest)
      rw [setFromAux_id hsort]
  | .map m, hv, p, d, rest, hb, fuel, hf => by
    rcases fuel with _ | g
    · exact absurd hf (by omega)
    · have hv' : (mapSorted m && constructibleEntries m) = true := hv
      simp only [Bool.and_eq_true] at hv'
      obtain ⟨hsort, hcent⟩ := hv'
      have hszlt : sizeOf m < sizeOf (Value.map m) := by
        have h1 : sizeOf (Value.map m) = 1 + sizeOf m := by simp
        omega
      have hlen : (renderF p d (Value.map m) ++ rest).length =
          (renderEntriesF p (d + 1) true m).length + 2 + rest.length := by
        rw [show renderF p d (Value.map m) =
          '{' :: (renderEntriesF p (d + 1) true m ++ ['}']) from rfl]
        simp
        omega
      rw [hlen] at hf
      have hent := parseSeqF_renderEntries (sizeOf (Value.map m))
        (fun x hx hcx p' d' r' hb' f' hf' => parse_render x hcx p' d' r' hb' f' hf')
        p (d + 1) '}' (by decide) m hszlt hcent true rest g
        (by simp only [List.length_append, List.length_cons]; omega)
      rw [show renderF p d (Value.map m) ++ rest =
        '{' :: ((renderEntriesF p (d + 1) true m ++ ['}']) ++ rest) from rfl,
        List.append_assoc]
      show mapRes (parseSeqF g '}' (renderEntriesF p (d + 1) true m ++ '}' :: rest)) =
        .ok (.map m, rest)
      rw [hent]
      show (match pairUp (flatSeq m) with
        | some ps => (.ok (.map (mapFromAux .nil ps), rest) : Except ErrKind (Value × List Char))
        | none => .error .syntaxError) = .ok (.map m, rest)
      rw [pairUp_flatSeq m]
      show Except.ok (Value.map (mapFromAux ValueMap.nil m), rest) =
        Except.ok (Value.map m, rest)
      rw [mapFromAux_id hsort]
  | .tagged t v, hv, p, d, rest, hb, fuel, hf => by
    have hv' : (validIdent t && constructible v) = true := hv
    simp only [Bool.and_eq_true] at hv'
    obtain ⟨hvt, hcv⟩ := hv'
    rcases fuel with _ | g
    · exact absurd hf (by omega)
    · have h' : (match t.data with
          | [] => false
          | c :: r => identStart c && r.all identCont) = true := hvt
      cases hs : t.data with
      | nil => rw [hs] at h'; cases h'
      | cons c2 t2 =>
        rw [hs] at h'
        simp only [Bool.and_eq_true, List.all_eq_true] at h'
        obtain ⟨hstart, hall2⟩ := h'
        have hlen : (renderF p d (Value.tagged t v) ++ rest).length =
            t.data.length + (renderF p d v).length + 2 + rest.length := by
          rw [show renderF p d (Value.tagged t v) =
            '#' :: (t.data ++ ' ' :: renderF p d v) from rfl]
          simp
          omega
        rw [hlen] at hf
        rw [show renderF p d (Value.tagged t v) ++ rest =
          '#' :: ((t.data ++ ' ' :: renderF p d v) ++ rest) from rfl, List.append_assoc,
          List.cons_append, hs, List.cons_append, parseValueF_hash_ident g hstart]
        have hmid : boundaryB (' ' :: (renderF p d v ++ rest)) = true :=
          boundaryB_ws_head (by decide) _
        obtain ⟨htw, hdw⟩ := ident_run (fun c hc => hall2 c hc) hmid
        rw [htw, hdw]
        rcases g with _ | g'
        · exact absurd hf (by omega)
        · rw [show (' ' :: (renderF p d v ++ rest)) = [' '] ++ (renderF p d v ++ rest)
            from rfl, parseValueF_ws g' (by decide) _]
          have hrec := parse_render v hcv p d rest hb (g' + 1)
            (by
              have : t.data.length = t2.length + 1 := by rw [hs]; rfl
              simp only [List.length_append]
              omega)
          rw [hrec, ← hs, strMk_data]
          rfl
  termination_by v => sizeOf v
  decreasing_by
    all_goals first
      | assumption
      | (simp only [Value.tagged.sizeOf_spec]; omega)


/-- C1: for every Value constructible by the grammar, parsing the
compact serialization yields exactly the Value back, and likewise for
the pretty serialization. -/
theorem C1_grammar_roundtrip (v : Value) (hv : constructible v = true) :
    parse_one (to_text v Mode.compact) = .ok v ∧
      parse_one (to_text v Mode.pretty) = .ok v := by
  have key : ∀ p : Bool, parse_one (renderF p 0 v) = .ok v := by
    intro p
    have hrv : read_value (renderF p 0 v) = .ok (v, []) := by
      show parseValueF (2 * (renderF p 0 v).length + 1) (renderF p 0 v) = .ok (v, [])
      rw [show renderF p 0 v = renderF p 0 v ++ [] from (List.append_nil _).symm]
      exact parse_render v hv p 0 [] (by decide) _ (le_refl _)
    simp only [parse_one, hrv]
    rfl
  exact ⟨key false, key true⟩

def valA : Value :=
  Value.map (ValueMap.cons (Value.keyword (String.mk ['a'])) (Value.number (Number.int 1))
    (ValueMap.cons (Value.keyword (String.mk ['b']))
      (Value.vector (ValueVec.cons (Value.number (Number.int (-3)))
        (ValueVec.cons (Value.number (Number.float (F64.finite (Rat.mk' 5 2))))
          (ValueVec.cons (Value.set (ValueVec.cons Value.nil
            (ValueVec.cons (Value.boolean true) ValueVec.nil)))
            ValueVec.nil))))
      (ValueMap.cons (Value.keyword (String.mk ['c']))
        (Value.tagged (String.mk ['t', 'g']) (Value.string (String.mk ['h', 'i'])))
        ValueMap.nil)))

theorem C1_grammar_roundtrip_witness :
    constructible valA = true ∧
      (parse_one (to_text valA Mode.compact) = .ok valA ∧
        parse_one (to_text valA Mode.pretty) = .ok valA) :=
  ⟨by decide, C1_grammar_roundtrip valA (by decide)⟩


/-! ## Conversions from native floats (src/src/value/from.rs) -/

/-- Modelled from the spec: `Number::from_f64` — a Number for finite
doubles, none for NaN and the infinities. -/
def Number.from_f64 (f : F64) : Option Number :=
  if f.isFinite then some (.float f) else none

/-- The `From<f64>` impl of `src/src/value/from.rs`:
`Number::from_f64(f).map_or(Value::Nil, Value::Number)`. -/
def Value.fromF64 (f : F64) : Value :=
  match Number.from_f64 f with
  | some n => .number n
  | none => .nil

/-- The `From<f32>` impl of `src/src/value/from.rs`: widen to f64 (exact,
the model shares one double type) and convert. -/
def Value.fromF32 (f : F64) : Value :=
  Value.fromF64 f

/-- Re-inserting an element already accepted into a set changes
nothing. -/
theorem setInsert_idem : ∀ (xs : ValueVec) (v : Value),
    setInsert (setInsert xs v) v = setInsert xs v
  | .nil, v => by simp [setInsert, valueCmp_self]
  | .cons y rest, v => by
    simp only [setInsert]
    cases h : valueCmp v y with
    | lt => simp [setInsert, valueCmp_self, h]
    | eq => simp [setInsert, h]
    | gt => simp [setInsert, h, setInsert_idem rest v]

/-- C3: equality and ordering on Value are structural and total — the
comparison decides equality exactly, any two Values are comparable
(equal, or one strictly precedes the other), and strict precedence is
transitive; this covers Values containing floats and NaN. -/
theorem C3_total_structural_order (x y : Value) :
    (valueCmp x y = .eq ↔ x = y) ∧
    (x = y ∨ valueCmp x y = .lt ∨ valueCmp y x = .lt) ∧
    (∀ z, valueCmp x y = .lt → valueCmp y z = .lt → valueCmp x z = .lt) := by
  refine ⟨valueCmp_eq_iff x y, ?_, fun z hxy hyz => valueCmp_lt_trans x y z hxy hyz⟩
  cases h : valueCmp x y with
  | lt => exact Or.inr (Or.inl rfl)
  | eq => exact Or.inl ((valueCmp_eq_iff x y).mp h)
  | gt => exact Or.inr (Or.inr (valueCmp_gt_iff_lt.mp h))

/-- C4: two float Numbers holding NaN compare equal under the ordering
used for map/set keys, and inserting a second NaN into any set that
already went through a NaN insertion changes nothing — the set keeps one
NaN member. -/
theorem C4_nan_compares_equal_and_dedups :
    Number.cmp (.float .nan) (.float .nan) = .eq ∧
    valueCmp (.number (.float .nan)) (.number (.float .nan)) = .eq ∧
    ∀ xs : ValueVec,
      setInsert (setInsert xs (.number (.float .nan))) (.number (.float .nan)) =
        setInsert xs (.number (.float .nan)) :=
  ⟨rfl, rfl, fun xs => setInsert_idem xs (.number (.float .nan))⟩

/-- C5: Value is a closed union — every Value is exactly one of the
twelve variants Nil, Boolean, String, Char, Symbol, Keyword, Number,
List, Vector, Map, Set, Tagged (with one boxed payload). -/
theorem C5_closed_union (v : Value) :
    v.ctorIdx < 12 ∧
    (v = .nil ∨ (∃ b, v = .boolean b) ∨ (∃ s, v = .string s) ∨ (∃ c, v = .char c) ∨
      (∃ s, v = .symbol s) ∨ (∃ s, v = .keyword s) ∨ (∃ n, v = .number n) ∨
      (∃ xs, v = .list xs) ∨ (∃ xs, v = .vector xs) ∨ (∃ m, v = .map m) ∨
      (∃ xs, v = .set xs) ∨ (∃ t w, v = .tagged t w)) := by
  cases v <;> exact ⟨by norm_num [Value.ctorIdx], by simp⟩

/-- C6: inserting a key equal to a present key replaces the associated
value (last write wins) while preserving the sorted-unique-keys backend
invariant, and a parsed map literal with a duplicate key keeps the last
value. -/
theorem C6_map_unique_keys_last_write_wins (m : ValueMap) (k v : Value)
    (h : mapSorted m = true) :
    mapSorted (mapInsert m k v) = true ∧
    mapLookup (mapInsert m k v) k = some v ∧
    parse_one ['{', ':', 'a', ' ', '1', ' ', ':', 'a', ' ', '2', '}'] =
      .ok (.map (ValueMap.cons (.keyword (String.mk ['a'])) (.number (.int 2)) .nil)) :=
  ⟨mapSorted_mapInsert m h, mapLookup_mapInsert m k v, rfl⟩

theorem C6_map_unique_keys_last_write_wins_witness :
    mapSorted ValueMap.nil = true ∧
      (mapSorted (mapInsert .nil (.keyword (String.mk ['k'])) (.number (.int 7))) = true ∧
        mapLookup (mapInsert .nil (.keyword (String.mk ['k'])) (.number (.int 7)))
          (.keyword (String.mk ['k'])) = some (.number (.int 7)) ∧
        parse_one ['{', ':', 'a', ' ', '1', ' ', ':', 'a', ' ', '2', '}'] =
          .ok (.map (ValueMap.cons (.keyword (String.mk ['a'])) (.number (.int 2)) .nil))) :=
  ⟨by decide, C6_map_unique_keys_last_write_wins .nil (.keyword (String.mk ['k']))
    (.number (.int 7)) (by decide)⟩

/-- C7: a List and a Vector are never the same Value, even with the same
element sequence, and they serialize with distinct delimiter pairs:
parentheses for List, square brackets for Vector. -/
theorem C7_list_vector_distinct (xs ys : ValueVec) (p : Bool) (d : Nat) :
    Value.list xs ≠ Value.vector ys ∧
    renderF p d (Value.list xs) = '(' :: (renderSeqF p (d + 1) true xs ++ [')']) ∧
    renderF p d (Value.vector xs) = '[' :: (renderSeqF p (d + 1) true xs ++ [']']) :=
  ⟨fun hcon => Value.noConfusion hcon, rfl, rfl⟩

/-- C8: reading one value consumes exactly its text — on two rendered
values separated by one space, the first read returns the first value
leaving precisely the separator and second text, a second read returns
the second value, and an ignore/discard pass over the first positions
the stream identically. -/
theorem C8_stream_positioning (v1 v2 : Value) (h1 : constructible v1 = true)
    (h2 : constructible v2 = true) :
    read_value (renderF false 0 v1 ++ ' ' :: renderF false 0 v2) =
      .ok (v1, ' ' :: renderF false 0 v2) ∧
    read_value (' ' :: renderF false 0 v2) = .ok (v2, []) ∧
    ignoreOne (renderF false 0 v1 ++ ' ' :: renderF false 0 v2) =
      .ok (' ' :: renderF false 0 v2) := by
  have hA : read_value (renderF false 0 v1 ++ ' ' :: renderF false 0 v2) =
      .ok (v1, ' ' :: renderF false 0 v2) := by
    show parseValueF (2 * (renderF false 0 v1 ++ ' ' :: renderF false 0 v2).length + 1)
      (renderF false 0 v1 ++ ' ' :: renderF false 0 v2) =
      .ok (v1, ' ' :: renderF false 0 v2)
    exact parse_render v1 h1 false 0 (' ' :: renderF false 0 v2)
      (boundaryB_ws_head (by decide) _) _ (le_refl _)
  have hB : read_value (' ' :: renderF false 0 v2) = .ok (v2, []) := by
    show parseValueF (2 * (' ' :: renderF false 0 v2).length + 1)
      (' ' :: renderF false 0 v2) = .ok (v2, [])
    have hlen : 2 * (' ' :: renderF false 0 v2).length + 1 =
        (2 * (renderF false 0 v2).length + 2) + 1 := by
      simp only [List.length_cons]
      omega
    rw [hlen, show (' ' :: renderF false 0 v2) = [' '] ++ renderF false 0 v2 from rfl,
      parseValueF_ws (2 * (renderF false 0 v2).length + 2) (by decide) _,
      show renderF false 0 v2 = renderF false 0 v2 ++ [] from (List.append_nil _).symm]
    refine parse_render v2 h2 false 0 [] (by decide) _ ?_
    simp only [List.append_nil]
    omega
  refine ⟨hA, hB, ?_⟩
  simp only [ignoreOne, hA]

theorem C8_stream_positioning_witness :
    constructible Value.nil = true ∧ constructible (Value.boolean true) = true ∧
      (read_value (renderF false 0 Value.nil ++ ' ' :: renderF false 0 (Value.boolean true)) =
        .ok (Value.nil, ' ' :: renderF false 0 (Value.boolean true)) ∧
      read_value (' ' :: renderF false 0 (Value.boolean true)) = .ok (Value.boolean true, []) ∧
      ignoreOne (renderF false 0 Value.nil ++ ' ' :: renderF false 0 (Value.boolean true)) =
        .ok (' ' :: renderF false 0 (Value.boolean true))) :=
  ⟨by decide, by decide, C8_stream_positioning Value.nil (Value.boolean true)
    (by decide) (by decide)⟩

/-- C9: converting a double to a Value yields Nil exactly when
`Number::from_f64` declines (non-finite input), a Number wrapping the
returned value when it accepts, and the f32 path coincides with the f64
path after widening. -/
theorem C9_from_f64_nil_on_nonfinite (f : F64) :
    (Number.from_f64 f = none → Value.fromF64 f = .nil) ∧
    (∀ n, Number.from_f64 f = some n → Value.fromF64 f = .number n) ∧
    (Number.from_f64 f = none ↔ f.isFinite = false) ∧
    Value.fromF32 f = Value.fromF64 f := by
  refine ⟨?_, ?_, ?_, rfl⟩ <;>
    cases f <;> simp [Number.from_f64, Value.fromF64, F64.isFinite]

/-- C10: the Display impl is the serializer — the plain form is exactly
the compact writer's output and the alternate form exactly the pretty
writer's output, on every Value. -/
theorem C10_display_is_serializer (v : Value) :
    Value.display v false = to_writer v ∧ Value.display v true = to_writer_pretty v ∧
    Value.display v false = to_text v Mode.compact ∧
    Value.display v true = to_text v Mode.pretty :=
  ⟨rfl, rfl, rfl, rfl⟩


/-! ## Prefix (truncated-input) lemmas -/

theorem parseValueF_nil_eof : ∀ fuel : Nat, parseValueF fuel [] = .error .eofError
  | 0 => rfl
  | _ + 1 => rfl

theorem parseSeqF_nil_eof : ∀ (fuel : Nat) (close : Char),
    parseSeqF fuel close [] = .error .eofError
  | 0, _ => rfl
  | _ + 1, _ => rfl

theorem skipWs_all_ws {w : List Char} (hw : ∀ c ∈ w, wsChar c = true) : skipWs w = [] := by
  have h := skipWs_ws_append w hw []
  rw [List.append_nil] at h
  exact h.trans rfl

theorem parseValueF_ws_eof {w : List Char} (hw : ∀ c ∈ w, wsChar c = true) :
    ∀ fuel : Nat, parseValueF fuel w = .error .eofError
  | 0 => rfl
  | fuel + 1 => by
    simp only [parseValueF]
    rw [skipWs_all_ws hw]

theorem parseSeqF_ws_eof {w : List Char} (hw : ∀ c ∈ w, wsChar c = true) :
    ∀ (fuel : Nat) (close : Char), parseSeqF fuel close w = .error .eofError
  | 0, _ => rfl
  | fuel + 1, close => by
    simp only [parseSeqF]
    rw [skipWs_all_ws hw]

/-- A digit run with nothing after it is scanned whole. -/
theorem digitRun_self {l : List Char} (hl : ∀ c ∈ l, c.isDigit = true) :
    l.takeWhile (fun c => c.isDigit) = l ∧ l.dropWhile (fun c => c.isDigit) = [] := by
  have h := digitRun_take hl (show boundaryB [] = true from rfl)
  rwa [List.append_nil] at h

/-- An identifier run with nothing after it parses to a value or an EOF
error, never a syntax error. -/
theorem identParse_all_identCont {l : List Char} (hl : ∀ c ∈ l, identCont c = true) :
    identParse l = .error .eofError ∨ ∃ w, identParse l = .ok (w, []) := by
  obtain ⟨ht, hd⟩ := ident_run hl (show boundaryB [] = true from rfl)
  rw [List.append_nil] at ht hd
  simp only [identParse]
  rw [ht, hd]
  split_ifs <;> first | exact Or.inl rfl | exact Or.inr ⟨_, rfl⟩

/-- A keyword body run with nothing after it parses or is an EOF error. -/
theorem keywordParse_all_identCont {l : List Char} (hl : ∀ c ∈ l, identCont c = true) :
    keywordParse l = .error .eofError ∨ ∃ w, keywordParse l = .ok (w, []) := by
  obtain ⟨ht, hd⟩ := ident_run hl (show boundaryB [] = true from rfl)
  rw [List.append_nil] at ht hd
  simp only [keywordParse]
  rw [ht, hd]
  cases l with
  | nil => exact Or.inl rfl
  | cons c t =>
    rw [if_neg (by simp)]
    exact Or.inr ⟨_, rfl⟩

/-- A truncated character-literal body parses (one raw character) or is
an EOF error, never a syntax error. -/
theorem parseChar_truncated (c : Char) {k : Nat} (hk : k < (charBody c).length) :
    parseChar ((charBody c).take k) = .error .eofError ∨
    ∃ ch, parseChar ((charBody c).take k) = .ok (ch, []) := by
  unfold charBody at hk ⊢
  by_cases h1 : c = '\n'
  · rw [if_pos h1] at hk ⊢
    have hk7 : k < 7 := by simpa using hk
    interval_cases k <;> first | exact Or.inl rfl | exact Or.inr ⟨_, rfl⟩
  · rw [if_neg h1] at hk ⊢
    by_cases h2 : c = ' '
    · rw [if_pos h2] at hk ⊢
      have hk5 : k < 5 := by simpa using hk
      interval_cases k <;> first | exact Or.inl rfl | exact Or.inr ⟨_, rfl⟩
    · rw [if_neg h2] at hk ⊢
      by_cases h3 : c = '\t'
      · rw [if_pos h3] at hk ⊢
        have hk3 : k < 3 := by simpa using hk
        interval_cases k <;> first | exact Or.inl rfl | exact Or.inr ⟨_, rfl⟩
      · rw [if_neg h3] at hk ⊢
        have hk1 : k < 1 := by simpa using hk
        have hk0 : k = 0 := by omega
        subst hk0
        exact Or.inl rfl

/-- A truncated string body (closing quote lost) is an EOF error. -/
theorem parseStr_truncated : ∀ (cs : List Char) (k : Nat), k ≤ (escBody cs).length →
    parseStr ((escBody cs).take k) = .error .eofError
  | [], k, hk => by
    have hk0 : k = 0 := by simpa [escBody] using hk
    subst hk0
    rfl
  | c :: cs, k, hk => by
    rw [show escBody (c :: cs) = escSeq c ++ escBody cs from rfl] at hk ⊢
    unfold escSeq at hk ⊢
    by_cases h1 : c = '"'
    · rw [if_pos h1] at hk ⊢
      rcases k with _ | _ | k2
      · rfl
      · rfl
      · have hk2 : k2 ≤ (escBody cs).length := by simpa using hk
        show strCons '"' (parseStr ((escBody cs).take k2)) = .error .eofError
        rw [parseStr_truncated cs k2 hk2]
        rfl
    · rw [if_neg h1] at hk ⊢
      by_cases h2 : c = '\\'
      · rw [if_pos h2] at hk ⊢
        rcases k with _ | _ | k2
        · rfl
        · rfl
        · have hk2 : k2 ≤ (escBody cs).length := by simpa using hk
          show strCons '\\' (parseStr ((escBody cs).take k2)) = .error .eofError
          rw [parseStr_truncated cs k2 hk2]
          rfl
      · rw [if_neg h2] at hk ⊢
        by_cases h3 : c = '\n'
        · rw [if_pos h3] at hk ⊢
          rcases k with _ | _ | k2
          · rfl
          · rfl
          · have hk2 : k2 ≤ (escBody cs).length := by simpa using hk
            show strCons '\n' (parseStr ((escBody cs).take k2)) = .error .eofError
            rw [parseStr_truncated cs k2 hk2]
            rfl
        · rw [if_neg h3] at hk ⊢
          by_cases h4 : c = '\t'
          · rw [if_pos h4] at hk ⊢
            rcases k with _ | _ | k2
            · rfl
            · rfl
            · have hk2 : k2 ≤ (escBody cs).length := by simpa using hk
              show strCons '\t' (parseStr ((escBody cs).take k2)) = .error .eofError
              rw [parseStr_truncated cs k2 hk2]
              rfl
          · rw [if_neg h4] at hk ⊢
            by_cases h5 : c = '\r'
            · rw [if_pos h5] at hk ⊢
              rcases k with _ | _ | k2
              · rfl
              · rfl
              · have hk2 : k2 ≤ (escBody cs).length := by simpa using hk
                show strCons '\r' (parseStr ((escBody cs).take k2)) = .error .eofError
                rw [parseStr_truncated cs k2 hk2]
                rfl
            · rw [if_neg h5] at hk ⊢
              rcases k with _ | k1
              · rfl
              · have hk1 : k1 ≤ (escBody cs).length := by simpa using hk
                show parseStr (c :: (escBody cs).take k1) = .error .eofError
                simp only [parseStr]
                rw [if_neg h1, if_neg h2, parseStr_truncated cs k1 hk1]
                rfl


/-- A numeric scan whose body after the sign is empty (end of input
right after an optional sign) is an EOF error. -/
theorem parseNum_empty_body_eof {s : List Char} {sgn : Int}
    (hsplit : signSplit s = (sgn, [])) : parseNum s = .error .eofError := by
  simp [parseNum, hsplit]

/-- A bare digit run after the sign parses as an integer consuming
everything. -/
theorem parseNum_run_ok {s body : List Char} {sgn : Int}
    (hsplit : signSplit s = (sgn, body)) (hne : body ≠ [])
    (hd : ∀ c ∈ body, c.isDigit = true) :
    ∃ m, parseNum s = .ok (m, []) := by
  obtain ⟨ht, hdw⟩ := digitRun_self hd
  refine ⟨.int (sgn * (digitsVal body : Int)), ?_⟩
  simp only [parseNum, hsplit]
  rw [ht, hdw, if_neg (by simpa [List.isEmpty_iff] using hne)]
  exact numTail_boundary sgn body rfl

/-- A digit run followed by a bare decimal point at end of input is an
EOF error. -/
theorem parseNum_run_dot_eof {s d : List Char} {sgn : Int}
    (hsplit : signSplit s = (sgn, d ++ ['.'])) (hne : d ≠ [])
    (hd : ∀ c ∈ d, c.isDigit = true) : parseNum s = .error .eofError := by
  obtain ⟨ht, hdw⟩ := digitRun_stop hd (show ('.' : Char).isDigit = false by decide) []
  simp only [parseNum, hsplit]
  rw [ht, hdw, if_neg (by simpa [List.isEmpty_iff] using hne), numTail_dot]
  rfl

/-- A digit run, decimal point and nonempty fraction-digit run at end of
input parse as a float consuming everything. -/
theorem parseNum_run_dot_run_ok {s d f : List Char} {sgn : Int}
    (hsplit : signSplit s = (sgn, d ++ '.' :: f)) (hned : d ≠ [])
    (hdd : ∀ c ∈ d, c.isDigit = true) (hnef : f ≠ [])
    (hdf : ∀ c ∈ f, c.isDigit = true) :
    ∃ m, parseNum s = .ok (m, []) := by
  obtain ⟨ht, hdw⟩ := digitRun_stop hdd (show ('.' : Char).isDigit = false by decide) f
  obtain ⟨ht2, hdw2⟩ := digitRun_self hdf
  refine ⟨floatOf sgn d f 0, ?_⟩
  simp only [parseNum, hsplit]
  rw [ht, hdw, if_neg (by simpa [List.isEmpty_iff] using hned), numTail_dot]
  simp only [fracPart]
  rw [ht2, hdw2, if_neg (by simpa [List.isEmpty_iff] using hnef)]
  exact fracTail_boundary sgn d f rfl

/-- A list whose sign-split leaves a nonempty all-digit body keeps its
head through `signSplit`. -/
theorem signSplit_digit_head {l : List Char} {c0 : Char} {t0 : List Char}
    (hct : l = c0 :: t0) (hc0 : c0.isDigit = true) : signSplit l = (1, l) := by
  subst hct
  have hb := isDigit_bounds hc0
  exact signSplit_other (toNat_ne (show c0.toNat ≠ 45 by omega))
    (toNat_ne (show c0.toNat ≠ 43 by omega)) t0

/-- Prefixes of the positive-float body `ip ++ . :: fp`: EOF at the bare
dot, a complete shorter number elsewhere. -/
theorem parseNum_truncated_body (ip fp : List Char) (hipne : ip ≠ [])
    (hipd : ∀ c ∈ ip, c.isDigit = true) (hfpne : fp ≠ [])
    (hfpd : ∀ c ∈ fp, c.isDigit = true) {j : Nat} (hsgn : Bool)
    (hj : j < (ip ++ '.' :: fp).length) :
    parseNum (((if hsgn then ['-'] else []) ++ (ip ++ '.' :: fp)).take
        (j + (if hsgn then 1 else 0))) = .error .eofError ∨
    ∃ m, parseNum (((if hsgn then ['-'] else []) ++ (ip ++ '.' :: fp)).take
        (j + (if hsgn then 1 else 0))) = .ok (m, []) := by
  simp only [List.length_append, List.length_cons] at hj
  -- reduce to the unsigned body prefix plus a sign-aware split
  have hsplit : ∀ l : List Char, l ≠ [] → (∀ c ∈ l, c.isDigit = true) →
      ∃ c0 t0, l = c0 :: t0 ∧ c0.isDigit = true := by
    intro l hne hd
    cases hl : l with
    | nil => exact absurd hl hne
    | cons a b => exact ⟨a, b, rfl, hd a (hl ▸ List.mem_cons_self a b)⟩
  rcases Nat.eq_zero_or_pos j with hj0 | hjpos
  · subst hj0
    cases hsgn with
    | false => exact Or.inl rfl
    | true =>
      show parseNum ((('-' :: (ip ++ '.' :: fp))).take 1) = _ ∨
        ∃ m, parseNum ((('-' :: (ip ++ '.' :: fp))).take 1) = _
      rw [List.take_succ_cons, List.take_zero]
      exact Or.inl rfl
  · have hbody : ∀ res : List Char → Prop,
        (∀ l, res l → res l) → True := fun _ _ => trivial
    -- expose the take over the optional sign
    have hmain : ∀ (P : List Char → Prop),
        P ((ip ++ '.' :: fp).take j) →
        P (((if hsgn then ['-'] else []) ++ (ip ++ '.' :: fp)).take
            (j + (if hsgn then 1 else 0))) → True := fun _ _ _ => trivial
    cases hsgn with
    | false =>
      show parseNum ((ip ++ '.' :: fp).take j) = .error .eofError ∨
        ∃ m, parseNum ((ip ++ '.' :: fp).take j) = .ok (m, [])
      rcases Nat.lt_or_ge j (ip.length + 1) with hlt | hge
      · rcases Nat.eq_or_lt_of_le (Nat.le_of_lt_succ hlt) with heq | hlt2
        ·
          right
          rw [List.take_append_of_le_length (by omega), heq, List.take_length]
          obtain ⟨c0, t0, hct, hc0⟩ := hsplit ip hipne hipd
          exact parseNum_run_ok (signSplit_digit_head hct hc0) hipne hipd
        ·
          right
          rw [List.take_append_of_le_length (by omega)]
          have hd : ∀ c ∈ ip.take j, c.isDigit = true := fun c hc =>
            hipd c (List.mem_of_mem_take hc)
          have hne : ip.take j ≠ [] := by
            rw [Ne, List.take_eq_nil_iff]
            push_neg
            exact ⟨by omega, hipne⟩
          obtain ⟨c0, t0, hct, hc0⟩ := hsplit _ hne hd
          exact parseNum_run_ok (signSplit_digit_head hct hc0) hne hd
      · rw [List.take_append_eq_append_take, List.take_of_length_le (by omega),
          show j - ip.length = (j - ip.length - 1) + 1 from by omega, List.take_succ_cons]
        rcases Nat.eq_zero_or_pos (j - ip.length - 1) with hz | hpos
        ·
          left
          rw [hz, List.take_zero]
          obtain ⟨c0, t0, hct, hc0⟩ := hsplit ip hipne hipd
          exact parseNum_run_dot_eof (signSplit_digit_head (by rw [hct]; rfl) hc0) hipne hipd
        ·
          right
          have hd : ∀ c ∈ fp.take (j - ip.length - 1), c.isDigit = true := fun c hc =>
            hfpd c (List.mem_of_mem_take hc)
          have hne : fp.take (j - ip.length - 1) ≠ [] := by
            rw [Ne, List.take_eq_nil_iff]
            push_neg
            exact ⟨by omega, hfpne⟩
          obtain ⟨c0, t0, hct, hc0⟩ := hsplit ip hipne hipd
          exact parseNum_run_dot_run_ok (signSplit_digit_head (by rw [hct]; rfl) hc0)
            hipne hipd hne hd
    | true =>
      show parseNum (('-' :: (ip ++ '.' :: fp)).take (j + 1)) = .error .eofError ∨
        ∃ m, parseNum (('-' :: (ip ++ '.' :: fp)).take (j + 1)) = .ok (m, [])
      rw [List.take_succ_cons]
      rcases Nat.lt_or_ge j (ip.length + 1) with hlt | hge
      · rcases Nat.eq_or_lt_of_le (Nat.le_of_lt_succ hlt) with heq | hlt2
        ·
          right
          rw [List.take_append_of_le_length (by omega), heq, List.take_length]
          exact parseNum_run_ok (signSplit_minus _) hipne hipd
        ·
          right
          rw [List.take_append_of_le_length (by omega)]
          have hd : ∀ c ∈ ip.take j, c.isDigit = true := fun c hc =>
            hipd c (List.mem_of_mem_take hc)
          have hne : ip.take j ≠ [] := by
            rw [Ne, List.take_eq_nil_iff]
            push_neg
            exact ⟨by omega, hipne⟩
          exact parseNum_run_ok (signSplit_minus _) hne hd
      · rw [List.take_append_eq_append_take, List.take_of_length_le (by omega),
          show j - ip.length = (j - ip.length - 1) + 1 from by omega, List.take_succ_cons]
        rcases Nat.eq_zero_or_pos (j - ip.length - 1) with hz | hpos
        ·
          left
          rw [hz, List.take_zero]
          exact parseNum_run_dot_eof (signSplit_minus _) hipne hipd
        ·
          right
          have hd : ∀ c ∈ fp.take (j - ip.length - 1), c.isDigit = true := fun c hc =>
            hfpd c (List.mem_of_mem_take hc)
          have hne : fp.take (j - ip.length - 1) ≠ [] := by
            rw [Ne, List.take_eq_nil_iff]
            push_neg
            exact ⟨by omega, hfpne⟩
          exact parseNum_run_dot_run_ok (signSplit_minus _) hipne hipd hne hd

/-- Any strict prefix of a constructible Number's text is an EOF error
or parses as a (shorter) number consuming everything. -/
theorem parseNum_truncated {n : Number} (h : constructibleNum n = true) {j : Nat}
    (hj : j < (numberChars n).length) :
    parseNum ((numberChars n).take j) = .error .eofError ∨
    ∃ m, parseNum ((numberChars n).take j) = .ok (m, []) := by
  cases n with
  | int i =>
    show parseNum ((intToChars i).take j) = _ ∨ ∃ m, parseNum ((intToChars i).take j) = _
    have hjlen : j < (intToChars i).length := hj
    unfold intToChars at hjlen ⊢
    by_cases hneg : i < 0
    · rw [if_pos hneg] at hjlen ⊢
      simp only [List.length_cons] at hjlen
      rcases j with _ | j1
      · exact Or.inl rfl
      · rw [List.take_succ_cons]
        rcases Nat.eq_zero_or_pos j1 with hj1 | hj1
        · subst hj1
          exact Or.inl rfl
        · right
          have hd : ∀ c ∈ (natToChars i.natAbs).take j1, c.isDigit = true := fun c hc =>
            natToChars_digits _ c (List.mem_of_mem_take hc)
          have hne : (natToChars i.natAbs).take j1 ≠ [] := by
            rw [Ne, List.take_eq_nil_iff]
            push_neg
            exact ⟨by omega, natToChars_ne_nil _⟩
          exact parseNum_run_ok (signSplit_minus _) hne hd
    · rw [if_neg hneg] at hjlen ⊢
      rcases Nat.eq_zero_or_pos j with hj0 | hjpos
      · subst hj0
        exact Or.inl rfl
      · right
        have hd : ∀ c ∈ (natToChars i.toNat).take j, c.isDigit = true := fun c hc =>
          natToChars_digits _ c (List.mem_of_mem_take hc)
        have hne : (natToChars i.toNat).take j ≠ [] := by
          rw [Ne, List.take_eq_nil_iff]
          push_neg
          exact ⟨by omega, natToChars_ne_nil _⟩
        obtain ⟨c0, t0, hct⟩ : ∃ c0 t0, (natToChars i.toNat).take j = c0 :: t0 := by
          cases hc : (natToChars i.toNat).take j with
          | nil => exact absurd hc hne
          | cons a b => exact ⟨a, b, rfl⟩
        have hc0 : c0.isDigit = true := hd c0 (hct ▸ List.mem_cons_self c0 t0)
        exact parseNum_run_ok (signSplit_digit_head hct hc0) hne hd
  | float fl =>
    cases fl with
    | finite q =>
      show parseNum ((ratChars q).take j) = _ ∨ ∃ m, parseNum ((ratChars q).take j) = _
      have hjlen : j < (ratChars q).length := hj
      unfold ratChars at hjlen ⊢
      by_cases hneg : q.num < 0
      · rw [if_pos hneg] at hjlen ⊢
        simp only [List.length_append, List.length_cons, List.length_nil] at hjlen
        rcases j with _ | j1
        · exact Or.inl rfl
        · have := parseNum_truncated_body (ratIp q) (ratFp q) (ratIp_ne_nil q)
            (ratIp_digits q) (ratFp_ne_nil q) (ratFp_digits q) (j := j1) true
            (by simp only [List.length_append, List.length_cons]; omega)
          simpa using this
      · rw [if_neg hneg] at hjlen ⊢
        have := parseNum_truncated_body (ratIp q) (ratFp q) (ratIp_ne_nil q)
          (ratIp_digits q) (ratFp_ne_nil q) (ratFp_digits q) (j := j) false
          (by
            simp only [List.length_append, List.length_cons, List.length_nil] at hjlen ⊢
            omega)
        simpa using this
    | negInf => exact absurd h (by decide)
    | posInf => exact absurd h (by decide)
    | nan => exact absurd h (by decide)


/-- Any prefix of a rendered sequence body is a legal token boundary. -/
theorem boundaryB_seq_take (p : Bool) (d : Nat) (vs : ValueVec) (j : Nat) :
    boundaryB ((renderSeqF p d false vs).take j) = true := by
  cases vs with
  | nil =>
    show boundaryB (([] : List Char).take j) = true
    rw [List.take_nil]
    rfl
  | cons v vs =>
    rcases Nat.eq_zero_or_pos j with h0 | hpos
    · subst h0
      rw [List.take_zero]
      rfl
    · obtain ⟨c, t, hct, hw⟩ := sepChars_false_cons p d
      rw [show renderSeqF p d false (ValueVec.cons v vs) =
        sepChars p d false ++ renderF p d v ++ renderSeqF p d false vs from rfl, hct]
      simp only [List.cons_append]
      rw [show j = (j - 1) + 1 from by omega, List.take_succ_cons]
      exact boundaryB_ws_head hw _

/-- Any prefix of a rendered map body is a legal token boundary. -/
theorem boundaryB_entries_take (p : Bool) (d : Nat) (m : ValueMap) (j : Nat) :
    boundaryB ((renderEntriesF p d false m).take j) = true := by
  cases m with
  | nil =>
    show boundaryB (([] : List Char).take j) = true
    rw [List.take_nil]
    rfl
  | cons k v m =>
    rcases Nat.eq_zero_or_pos j with h0 | hpos
    · subst h0
      rw [List.take_zero]
      rfl
    · obtain ⟨c, t, hct, hw⟩ := sepChars_false_cons p d
      rw [show renderEntriesF p d false (ValueMap.cons k v m) =
        sepChars p d false ++ renderF p d k ++ ' ' :: renderF p d v ++
          renderEntriesF p d false m from rfl, hct]
      simp only [List.cons_append]
      rw [show j = (j - 1) + 1 from by omega, List.take_succ_cons]
      exact boundaryB_ws_head hw _

/-- Scanning any strict-or-full prefix of a rendered sequence body
(closing delimiter truncated away) is an EOF error. -/
theorem parseSeqF_truncated (B : Nat)
    (IH : ∀ x : Value, sizeOf x < B → constructible x = true →
      ∀ (p : Bool) (d : Nat) (j : Nat), j < (renderF p d x).length →
      ∀ fuel : Nat, 2 * j + 1 ≤ fuel →
      parseValueF fuel ((renderF p d x).take j) = .error .eofError ∨
      ∃ w, parseValueF fuel ((renderF p d x).take j) = .ok (w, []))
    (p : Bool) (d : Nat) (close : Char) (hclose : closerChar close = true) :
    ∀ xs : ValueVec, sizeOf xs < B → constructibleSeq xs = true →
    ∀ (first : Bool) (j fuel : Nat), j ≤ (renderSeqF p d first xs).length →
      2 * j + 2 ≤ fuel →
      parseSeqF fuel close ((renderSeqF p d first xs).take j) = .error .eofError
  | .nil, _, _, first, j, fuel, hj, hf => by
    show parseSeqF fuel close (([] : List Char).take j) = .error .eofError
    rw [List.take_nil]
    exact parseSeqF_nil_eof fuel close
  | .cons v vs, hsz, hcs, first, j, fuel, hj, hf => by
    have hsv : sizeOf v < B := by
      have h1 : sizeOf (ValueVec.cons v vs) = 1 + sizeOf v + sizeOf vs := by simp
      omega
    have hsvs : sizeOf vs < B := by
      have h1 : sizeOf (ValueVec.cons v vs) = 1 + sizeOf v + sizeOf vs := by simp
      omega
    have hcs' : (constructible v && constructibleSeq vs) = true := hcs
    have hcv : constructible v = true := (Bool.and_eq_true _ _ |>.mp hcs').1
    have hcvs : constructibleSeq vs = true := (Bool.and_eq_true _ _ |>.mp hcs').2
    have hbody : renderSeqF p d first (ValueVec.cons v vs) =
        sepChars p d first ++ renderF p d v ++ renderSeqF p d false vs := rfl
    rw [hbody] at hj ⊢
    obtain ⟨c0, t0, hR, hw0, hs0, hc0⟩ := renderF_head p d hcv
    have hRlen : (renderF p d v).length = t0.length + 1 := by rw [hR]; rfl
    simp only [List.length_append] at hj
    have hne : c0 ≠ close := by
      intro h
      rw [h, hclose] at hc0
      exact absurd hc0 (by decide)
    rcases Nat.lt_or_ge j ((sepChars p d first).length + 1) with hcA | hcA
    · -- inside the separator
      rw [List.take_append_of_le_length (by simp only [List.length_append]; omega),
        List.take_append_of_le_length (by omega)]
      exact parseSeqF_ws_eof
        (fun c hc => sepChars_ws p d first c (List.mem_of_mem_take hc)) fuel close
    · rcases Nat.lt_or_ge j
        ((sepChars p d first).length + (renderF p d v).length + 1) with hcB | hcB
      · -- inside the element (possibly through its last character)
        rw [List.take_append_of_le_length (by simp only [List.length_append]; omega),
          List.take_append_eq_append_take, List.take_of_length_le (by omega)]
        obtain ⟨j1, hj1⟩ : ∃ j1, j - (sepChars p d first).length = j1 + 1 :=
          ⟨j - (sepChars p d first).length - 1, by omega⟩
        rw [hj1]
        rcases fuel with _ | g
        · exact absurd hf (by omega)
        · have hres : parseValueF g ((renderF p d v).take (j1 + 1)) = .error .eofError ∨
              ∃ w, parseValueF g ((renderF p d v).take (j1 + 1)) = .ok (w, []) := by
            by_cases hfull : j1 + 1 = (renderF p d v).length
            · right
              refine ⟨v, ?_⟩
              rw [hfull, List.take_length,
                show renderF p d v = renderF p d v ++ [] from (List.append_nil _).symm]
              refine parse_render v hcv p d [] rfl g ?_
              simp only [List.append_nil]
              omega
            · exact IH v hsv hcv p d (j1 + 1) (by omega) g (by omega)
          have hctake : (renderF p d v).take (j1 + 1) = c0 :: t0.take j1 := by
            rw [hR, List.take_succ_cons]
          rw [hctake]
          simp only [parseSeqF]
          rw [skipWs_ws_append _ (sepChars_ws p d first) _, skipWs_not_ws hw0 hs0]
          split
          · rename_i heq
            exact absurd heq (by simp)
          · rename_i c' rest' heq
            obtain ⟨rfl, rfl⟩ : c0 = c' ∧ t0.take j1 = rest' :=
              ⟨(List.cons.inj heq).1, (List.cons.inj heq).2⟩
            rw [if_neg hne]
            rw [hctake] at hres
            rcases hres with he | ⟨w, hok⟩
            · rw [he]
            · rw [hok]
              show (match parseSeqF g close [] with
                | .ok (ys, r2) =>
                  (.ok (ValueVec.cons w ys, r2) : Except ErrKind (ValueVec × List Char))
                | .error e => .error e) = .error .eofError
              rw [parseSeqF_nil_eof g close]
      · -- past the element, into the tail of the body
        rw [List.take_append_eq_append_take,
          List.take_of_length_le (by simp only [List.length_append]; omega),
          List.append_assoc]
        obtain ⟨j2, hj2⟩ : ∃ j2, j - ((sepChars p d first) ++ renderF p d v).length = j2 :=
          ⟨_, rfl⟩
        rw [hj2]
        simp only [List.length_append] at hj2
        rcases fuel with _ | g
        · exact absurd hf (by omega)
        · simp only [parseSeqF]
          rw [skipWs_ws_append _ (sepChars_ws p d first) _, hR, List.cons_append,
            skipWs_not_ws hw0 hs0]
          split
          · rename_i heq
            exact absurd heq (by simp)
          · rename_i c' rest' heq
            obtain ⟨rfl, rfl⟩ : c0 = c' ∧ t0 ++ (renderSeqF p d false vs).take j2 = rest' :=
              ⟨(List.cons.inj heq).1, (List.cons.inj heq).2⟩
            rw [if_neg hne]
            have hv1 : parseValueF g (c0 :: (t0 ++ (renderSeqF p d false vs).take j2)) =
                .ok (v, (renderSeqF p d false vs).take
                  j2) := by
              rw [← List.cons_append, ← hR]
              refine parse_render v hcv p d _ (boundaryB_seq_take p d vs _) g ?_
              simp only [List.length_append, List.length_take]
              omega
            rw [hv1]
            show (match parseSeqF g close ((renderSeqF p d false vs).take j2) with
              | .ok (ys, r2) =>
                (.ok (ValueVec.cons v ys, r2) : Except ErrKind (ValueVec × List Char))
              | .error e => .error e) = .error .eofError
            rw [parseSeqF_truncated B IH p d close hclose vs hsvs hcvs false
              j2 g (by omega) (by omega)]


/-- Scanning any strict-or-full prefix of a rendered map body (closing
delimiter truncated away) is an EOF error. -/
theorem parseSeqF_entriesTruncated (B : Nat)
    (IH : ∀ x : Value, sizeOf x < B → constructible x = true →
      ∀ (p : Bool) (d : Nat) (j : Nat), j < (renderF p d x).length →
      ∀ fuel : Nat, 2 * j + 1 ≤ fuel →
      parseValueF fuel ((renderF p d x).take j) = .error .eofError ∨
      ∃ w, parseValueF fuel ((renderF p d x).take j) = .ok (w, []))
    (p : Bool) (d : Nat) (close : Char) (hclose : closerChar close = true) :
    ∀ m : ValueMap, sizeOf m < B → constructibleEntries m = true →
    ∀ (first : Bool) (j fuel : Nat), j ≤ (renderEntriesF p d first m).length →
      2 * j + 2 ≤ fuel →
      parseSeqF fuel close ((renderEntriesF p d first m).take j) = .error .eofError
  | .nil, _, _, first, j, fuel, hj, hf => by
    show parseSeqF fuel close (([] : List Char).take j) = .error .eofError
    rw [List.take_nil]
    exact parseSeqF_nil_eof fuel close
  | .cons k v m, hsz, hcs, first, j, fuel, hj, hf => by
    have hsize : sizeOf (ValueMap.cons k v m) = 1 + sizeOf k + sizeOf v + sizeOf m := by
      simp
    have hsk : sizeOf k < B := by omega
    have hsv : sizeOf v < B := by omega
    have hsm : sizeOf m < B := by omega
    have hcs' : ((constructible k && constructible v) && constructibleEntries m) = true := hcs
    simp only [Bool.and_eq_true] at hcs'
    obtain ⟨⟨hck, hcv⟩, hcm⟩ := hcs'
    have hbody : renderEntriesF p d first (ValueMap.cons k v m) =
        sepChars p d first ++ renderF p d k ++ ' ' :: renderF p d v ++
          renderEntriesF p d false m := rfl
    rw [hbody] at hj ⊢
    obtain ⟨c0, t0, hK, hw0, hs0, hc0⟩ := renderF_head p d hck
    obtain ⟨c1, t1, hV, hw1, hs1, hc1⟩ := renderF_head p d hcv
    have hKlen : (renderF p d k).length = t0.length + 1 := by rw [hK]; rfl
    have hVlen : (renderF p d v).length = t1.length + 1 := by rw [hV]; rfl
    simp only [List.length_append, List.length_cons] at hj
    have hne0 : c0 ≠ close := by
      intro h
      rw [h, hclose] at hc0
      exact absurd hc0 (by decide)
    have hne1 : c1 ≠ close := by
      intro h
      rw [h, hclose] at hc1
      exact absurd hc1 (by decide)
    rcases Nat.lt_or_ge j ((sepChars p d first).length + 1) with hcA | hcA
    · -- inside the separator
      rw [List.take_append_of_le_length (by simp only [List.length_append]; omega),
        List.take_append_of_le_length (by simp only [List.length_append]; omega),
        List.take_append_of_le_length (by omega)]
      exact parseSeqF_ws_eof
        (fun c hc => sepChars_ws p d first c (List.mem_of_mem_take hc)) fuel close
    · rcases Nat.lt_or_ge j
        ((sepChars p d first).length + (renderF p d k).length + 1) with hcB | hcB
      · -- inside the key (possibly through its last character)
        rw [List.take_append_of_le_length (by simp only [List.length_append]; omega),
          List.take_append_of_le_length (by simp only [List.length_append]; omega),
          List.take_append_eq_append_take, List.take_of_length_le (by omega)]
        obtain ⟨j1, hj1⟩ : ∃ j1, j - (sepChars p d first).length = j1 + 1 :=
          ⟨j - (sepChars p d first).length - 1, by omega⟩
        rw [hj1]
        rcases fuel with _ | g
        · exact absurd hf (by omega)
        · have hres : parseValueF g ((renderF p d k).take (j1 + 1)) = .error .eofError ∨
              ∃ w, parseValueF g ((renderF p d k).take (j1 + 1)) = .ok (w, []) := by
            by_cases hfull : j1 + 1 = (renderF p d k).length
            · right
              refine ⟨k, ?_⟩
              rw [hfull, List.take_length,
                show renderF p d k = renderF p d k ++ [] from (List.append_nil _).symm]
              refine parse_render k hck p d [] rfl g ?_
              simp only [List.append_nil]
              omega
            · exact IH k hsk hck p d (j1 + 1) (by omega) g (by omega)
          have hctake : (renderF p d k).take (j1 + 1) = c0 :: t0.take j1 := by
            rw [hK, List.take_succ_cons]
          rw [hctake]
          simp only [parseSeqF]
          rw [skipWs_ws_append _ (sepChars_ws p d first) _, skipWs_not_ws hw0 hs0]
          split
          · rename_i heq
            exact absurd heq (by simp)
          · rename_i c' rest' heq
            obtain ⟨rfl, rfl⟩ : c0 = c' ∧ t0.take j1 = rest' :=
              ⟨(List.cons.inj heq).1, (List.cons.inj heq).2⟩
            rw [if_neg hne0]
            rw [hctake] at hres
            rcases hres with he | ⟨w, hok⟩
            · rw [he]
            · rw [hok]
              show (match parseSeqF g close [] with
                | .ok (ys, r2) =>
                  (.ok (ValueVec.cons w ys, r2) : Except ErrKind (ValueVec × List Char))
                | .error e => .error e) = .error .eofError
              rw [parseSeqF_nil_eof g close]
      · rcases Nat.lt_or_ge j ((sepChars p d first).length + (renderF p d k).length + 1 +
          (renderF p d v).length + 1) with hcC | hcC
        · -- at the entry separator space or inside the value
          rw [List.take_append_of_le_length
              (by simp only [List.length_append, List.length_cons]; omega),
            List.take_append_eq_append_take,
            List.take_of_length_le (by simp only [List.length_append]; omega)]
          obtain ⟨j3, hj3⟩ : ∃ j3,
              j - ((sepChars p d first) ++ renderF p d k).length = j3 + 1 :=
            ⟨j - ((sepChars p d first) ++ renderF p d k).length - 1,
              by simp only [List.length_append]; omega⟩
          rw [hj3, List.take_succ_cons, List.append_assoc]
          simp only [List.length_append] at hj3
          rcases fuel with _ | g
          · exact absurd hf (by omega)
          · have hloop : parseSeqF g close (' ' :: (renderF p d v).take j3) =
                .error .eofError := by
              rcases Nat.eq_zero_or_pos j3 with hz | hpos
              · subst hz
                rw [List.take_zero]
                exact parseSeqF_ws_eof
                  (by intro c hc; rw [List.mem_singleton] at hc; subst hc; decide) g close
              · rcases g with _ | g'
                · exact parseSeqF_nil_eof 0 close ▸ rfl
                · have hres : parseValueF g' ((renderF p d v).take j3) = .error .eofError ∨
                      ∃ w, parseValueF g' ((renderF p d v).take j3) = .ok (w, []) := by
                    by_cases hfull : j3 = (renderF p d v).length
                    · right
                      refine ⟨v, ?_⟩
                      rw [hfull, List.take_length,
                        show renderF p d v = renderF p d v ++ [] from (List.append_nil _).symm]
                      refine parse_render v hcv p d [] rfl g' ?_
                      simp only [List.append_nil]
                      omega
                    · exact IH v hsv hcv p d j3 (by omega) g' (by omega)
                  obtain ⟨j3m, hj3m⟩ : ∃ j3m, j3 = j3m + 1 := ⟨j3 - 1, by omega⟩
                  have hctake : (renderF p d v).take j3 = c1 :: t1.take j3m := by
                    rw [hj3m, hV, List.take_succ_cons]
                  simp only [parseSeqF]
                  rw [skipWs_cons_ws (by decide), hctake, skipWs_not_ws hw1 hs1]
                  split
                  · rename_i heq
                    exact absurd heq (by simp)
                  · rename_i c' rest' heq
                    obtain ⟨rfl, rfl⟩ : c1 = c' ∧ t1.take j3m = rest' :=
                      ⟨(List.cons.inj heq).1, (List.cons.inj heq).2⟩
                    rw [if_neg hne1]
                    rw [hctake] at hres
                    rcases hres with he | ⟨w, hok⟩
                    · rw [he]
                    · rw [hok]
                      show (match parseSeqF g' close [] with
                        | .ok (ys, r2) =>
                          (.ok (ValueVec.cons w ys, r2) :
                            Except ErrKind (ValueVec × List Char))
                        | .error e => .error e) = .error .eofError
                      rw [parseSeqF_nil_eof g' close]
            simp only [parseSeqF]
            rw [skipWs_ws_append _ (sepChars_ws p d first) _, hK, List.cons_append,
              skipWs_not_ws hw0 hs0]
            split
            · rename_i heq
              exact absurd heq (by simp)
            · rename_i c' rest' heq
              obtain ⟨rfl, rfl⟩ : c0 = c' ∧
                  t0 ++ ' ' :: (renderF p d v).take j3 = rest' :=
                ⟨(List.cons.inj heq).1, (List.cons.inj heq).2⟩
              rw [if_neg hne0]
              have hv1 : parseValueF g (c0 :: (t0 ++ ' ' :: (renderF p d v).take j3)) =
                  .ok (k, ' ' :: (renderF p d v).take j3) := by
                rw [← List.cons_append, ← hK]
                refine parse_render k hck p d _ (boundaryB_ws_head (by decide) _) g ?_
                simp only [List.length_append, List.length_cons, List.length_take]
                omega
              rw [hv1]
              show (match parseSeqF g close (' ' :: (renderF p d v).take j3) with
                | .ok (ys, r2) =>
                  (.ok (ValueVec.cons k ys, r2) : Except ErrKind (ValueVec × List Char))
                | .error e => .error e) = .error .eofError
              rw [hloop]
        · -- past the whole entry, into the tail of the body
          rw [List.take_append_eq_append_take,
            List.take_of_length_le
              (by simp only [List.length_append, List.length_cons]; omega)]
          obtain ⟨j4, hj4⟩ : ∃ j4,
              j - ((sepChars p d first) ++ renderF p d k ++
                ' ' :: renderF p d v).length = j4 := ⟨_, rfl⟩
          rw [hj4]
          simp only [List.length_append, List.length_cons] at hj4
          rw [List.append_assoc, List.append_assoc]
          rcases fuel with _ | g
          · exact absurd hf (by omega)
          · simp only [parseSeqF]
            rw [skipWs_ws_append _ (sepChars_ws p d first) _, hK, List.cons_append,
              skipWs_not_ws hw0 hs0]
            split
            · rename_i heq
              exact absurd heq (by simp)
            · rename_i c' rest' heq
              obtain ⟨rfl, rfl⟩ : c0 = c' ∧
                  t0 ++ (' ' :: renderF p d v ++ (renderEntriesF p d false m).take j4) =
                    rest' :=
                ⟨(List.cons.inj heq).1, (List.cons.inj heq).2⟩
              rw [if_neg hne0]
              have hv1 : parseValueF g
                  (c0 :: (t0 ++ (' ' :: renderF p d v ++
                    (renderEntriesF p d false m).take j4))) =
                  .ok (k, ' ' :: renderF p d v ++
                    (renderEntriesF p d false m).take j4) := by
                rw [← List.cons_append, ← hK]
                refine parse_render k hck p d _ (boundaryB_ws_head (by decide) _) g ?_
                simp only [List.append_eq, List.length_append, List.length_cons,
                  List.length_take]
                omega
              rw [hv1]
              have hloop : parseSeqF g close
                  (' ' :: renderF p d v ++ (renderEntriesF p d false m).take j4) =
                  .error .eofError := by
                rcases g with _ | g'
                · exact parseSeqF_nil_eof 0 close ▸ rfl
                · simp only [parseSeqF]
                  rw [List.cons_append, skipWs_cons_ws (by decide), hV, List.cons_append,
                    skipWs_not_ws hw1 hs1]
                  split
                  · rename_i heq2
                    exact absurd heq2 (by simp)
                  · rename_i c' rest' heq2
                    obtain ⟨rfl, rfl⟩ : c1 = c' ∧
                        t1 ++ (renderEntriesF p d false m).take j4 = rest' :=
                      ⟨(List.cons.inj heq2).1, (List.cons.inj heq2).2⟩
                    rw [if_neg hne1]
                    have hv2 : parseValueF g'
                        (c1 :: (t1 ++ (renderEntriesF p d false m).take j4)) =
                        .ok (v, (renderEntriesF p d false m).take j4) := by
                      rw [← List.cons_append, ← hV]
                      refine parse_render v hcv p d _
                        (boundaryB_entries_take p d m j4) g' ?_
                      simp only [List.append_eq, List.length_append, List.length_take]
                      omega
                    rw [hv2]
                    show (match parseSeqF g' close
                        ((renderEntriesF p d false m).take j4) with
                      | .ok (ys, r2) =>
                        (.ok (ValueVec.cons v ys, r2) :
                          Except ErrKind (ValueVec × List Char))
                      | .error e => .error e) = .error .eofError
                    rw [parseSeqF_entriesTruncated B IH p d close hclose m hsm hcm false
                      j4 g' (by omega) (by omega)]
              show (match parseSeqF g close
                  (' ' :: renderF p d v ++ (renderEntriesF p d false m).take j4) with
                | .ok (ys, r2) =>
                  (.ok (ValueVec.cons k ys, r2) : Except ErrKind (ValueVec × List Char))
                | .error e => .error e) = .error .eofError
              rw [hloop]


/-- Truncating the rendered text of any grammar-constructible Value
strictly before its end and parsing the prefix yields an EOF error or a
successful parse of a (shorter) value consuming the whole prefix —
never a syntax error. -/
theorem parse_render_truncated : ∀ v : Value, constructible v = true →
    ∀ (p : Bool) (d : Nat) (j : Nat), j < (renderF p d v).length →
    ∀ fuel : Nat, 2 * j + 1 ≤ fuel →
    parseValueF fuel ((renderF p d v).take j) = .error .eofError ∨
    ∃ w, parseValueF fuel ((renderF p d v).take j) = .ok (w, [])
  | .nil, _, p, d, j, hj, fuel, hf => by
    have hj3 : j < 3 := hj
    rcases fuel with _ | g
    · exact Or.inl rfl
    · interval_cases j
      · exact Or.inl rfl
      · exact Or.inl rfl
      · exact Or.inl rfl
  | .boolean true, _, p, d, j, hj, fuel, hf => by
    have hj4 : j < 4 := hj
    rcases fuel with _ | g
    · exact Or.inl rfl
    · interval_cases j
      · exact Or.inl rfl
      · exact Or.inl rfl
      · exact Or.inl rfl
      · exact Or.inl rfl
  | .boolean false, _, p, d, j, hj, fuel, hf => by
    have hj5 : j < 5 := hj
    rcases fuel with _ | g
    · exact Or.inl rfl
    · interval_cases j
      · exact Or.inl rfl
      · exact Or.inl rfl
      · exact Or.inl rfl
      · exact Or.inl rfl
      · exact Or.inl rfl
  | .string s, _, p, d, j, hj, fuel, hf => by
    rcases fuel with _ | g
    · exact Or.inl rfl
    · rcases j with _ | j1
    
      · exact Or.inl rfl
      · left
        have hjlen : j1 + 1 < (escBody s.data ++ ['"']).length + 1 := hj
        simp only [List.length_append, List.length_cons, List.length_nil] at hjlen
        rw [show renderF p d (.string s) = '"' :: (escBody s.data ++ ['"']) from rfl,
          List.take_succ_cons, List.take_append_of_le_length (by omega)]
        show stringRes (parseStr ((escBody s.data).take j1)) = .error .eofError
        rw [parseStr_truncated s.data j1 (by omega)]
        rfl
  | .char c, _, p, d, j, hj, fuel, hf => by
    rcases fuel with _ | g
    · exact Or.inl rfl
    · rcases j with _ | j1
      · exact Or.inl rfl
      · have hjlen : j1 + 1 < (charBody c).length + 1 := hj
        rw [show renderF p d (.char c) = '\\' :: charBody c from rfl, List.take_succ_cons]
        have hres := parseChar_truncated c (k := j1) (by omega)
        rcases hres with he | ⟨ch, hok⟩
        · left
          show charRes (parseChar ((charBody c).take j1)) = .error .eofError
          rw [he]
          rfl
        · right
          refine ⟨.char ch, ?_⟩
          show charRes (parseChar ((charBody c).take j1)) = .ok (.char ch, [])
          rw [hok]
          rfl
  | .symbol s, hv, p, d, j, hj, fuel, hf => by
    rcases fuel with _ | g
    · exact Or.inl rfl
    · rcases j with _ | j1
      · exact Or.inl rfl
      · have hvi := (validSym_parts hv).1
        have h' : (match s.data with
            | [] => false
            | c :: r => identStart c && r.all identCont) = true := hvi
        cases hs : s.data with
        | nil => rw [hs] at h'; cases h'
        | cons c r =>
          rw [hs] at h'
          simp only [Bool.and_eq_true, List.all_eq_true] at h'
          obtain ⟨hstart, hall⟩ := h'
          have hallc : ∀ x ∈ c :: r, identCont x = true := by
            intro x hx
            rcases List.mem_cons.mp hx with rfl | hx
            · exact identStart_identCont hstart
            · exact hall x hx
          rw [show renderF p d (.symbol s) = s.data from rfl, hs, List.take_succ_cons,
            parseValueF_identStart g hstart]
          rw [← List.take_succ_cons]
          exact identParse_all_identCont
            (fun x hx => hallc x (List.mem_of_mem_take hx))
  | .keyword s, hv, p, d, j, hj, fuel, hf => by
    rcases fuel with _ | g
    · exact Or.inl rfl
    · rcases j with _ | j1
      · exact Or.inl rfl
      · have hall : ∀ x ∈ s.data, identCont x = true := by
          have h' : (!s.data.isEmpty && s.data.all identCont) = true := hv
          simp only [Bool.and_eq_true, List.all_eq_true] at h'
          exact h'.2
        rw [show renderF p d (.keyword s) = ':' :: s.data from rfl, List.take_succ_cons]
        show (keywordParse (s.data.take j1) = .error .eofError) ∨
          ∃ w, keywordParse (s.data.take j1) = .ok (w, [])
        exact keywordParse_all_identCont (fun x hx => hall x (List.mem_of_mem_take hx))
  | .number n, hv, p, d, j, hj, fuel, hf => by
    rcases fuel with _ | g
    · exact Or.inl rfl
    · rcases j with _ | j1
      · exact Or.inl rfl
      · obtain ⟨c0, t0, hct, hc0⟩ := numberChars_cons hv
        have hkey : parseValueF (g + 1) ((numberChars n).take (j1 + 1)) =
            numberRes (parseNum ((numberChars n).take (j1 + 1))) := by
          rw [hct, List.take_succ_cons]
          rcases hc0 with rfl | hd
          · rfl
          · exact parseValueF_digit g hd _
        show parseValueF (g + 1) ((numberChars n).take (j1 + 1)) = _ ∨
          ∃ w, parseValueF (g + 1) ((numberChars n).take (j1 + 1)) = _
        rw [hkey]
        have hres := parseNum_truncated hv (j := j1 + 1) hj
        rcases hres with he | ⟨m, hok⟩
        · left
          rw [he]
          rfl
        · right
          refine ⟨.number m, ?_⟩
          rw [hok]
          rfl
  | .list xs, hv, p, d, j, hj, fuel, hf => by
    rcases fuel with _ | g
    · exact Or.inl rfl
    · rcases j with _ | j1
      · exact Or.inl rfl
      · left
        have hjlen : j1 + 1 <
            (renderSeqF p (d + 1) true xs ++ [')']).length + 1 := hj
        simp only [List.length_append, List.length_cons, List.length_nil] at hjlen
        rw [show renderF p d (.list xs) =
          '(' :: (renderSeqF p (d + 1) true xs ++ [')']) from rfl,
          List.take_succ_cons, List.take_append_of_le_length (by omega)]
        show listRes (parseSeqF g ')' ((renderSeqF p (d + 1) true xs).take j1)) =
          .error .eofError
        rw [parseSeqF_truncated (sizeOf (Value.list xs))
          (fun x hx hcx p' d' j' hj' f' hf' =>
            parse_render_truncated x hcx p' d' j' hj' f' hf')
          p (d + 1) ')' (by decide) xs
          (by have h1 : sizeOf (Value.list xs) = 1 + sizeOf xs := by simp
              omega)
          hv true j1 g (by omega) (by omega)]
        rfl
  | .vector xs, hv, p, d, j, hj, fuel, hf => by
    rcases fuel with _ | g
    · exact Or.inl rfl
    · rcases j with _ | j1
      · exact Or.inl rfl
      · left
        have hjlen : j1 + 1 <
            (renderSeqF p (d + 1) true xs ++ [']']).length + 1 := hj
        simp only [List.length_append, List.length_cons, List.length_nil] at hjlen
        rw [show renderF p d (.vector xs) =
          '[' :: (renderSeqF p (d + 1) true xs ++ [']']) from rfl,
          List.take_succ_cons, List.take_append_of_le_length (by omega)]
        show vectorRes (parseSeqF g ']' ((renderSeqF p (d + 1) true xs).take j1)) =
          .error .eofError
        rw [parseSeqF_truncated (sizeOf (Value.vector xs))
          (fun x hx hcx p' d' j' hj' f' hf' =>
            parse_render_truncated x hcx p' d' j' hj' f' hf')
          p (d + 1) ']' (by decide) xs
          (by have h1 : sizeOf (Value.vector xs) = 1 + sizeOf xs := by simp
              omega)
          hv true j1 g (by omega) (by omega)]
        rfl
  | .set xs, hv, p, d, j, hj, fuel, hf => by
    have hv' : (seqSorted xs && constructibleSeq xs) = true := hv
    simp only [Bool.and_eq_true] at hv'
    obtain ⟨hsort, hcseq⟩ := hv'
    rcases fuel with _ | g
    · exact Or.inl rfl
    · rcases j with _ | _ | j2
      · exact Or.inl rfl
      · exact Or.inl rfl
      · left
        have hjlen : j2 + 2 <
            (renderSeqF p (d + 1) true xs ++ ['}']).length + 2 := hj
        simp only [List.length_append, List.length_cons, List.length_nil] at hjlen
        rw [show renderF p d (.set xs) =
          '#' :: '{' :: (renderSeqF p (d + 1) true xs ++ ['}']) from rfl,
          List.take_succ_cons, List.take_succ_cons,
          List.take_append_of_le_length (by omega)]
        show setRes (parseSeqF g '}' ((renderSeqF p (d + 1) true xs).take j2)) =
          .error .eofError
        rw [parseSeqF_truncated (sizeOf (Value.set xs))
          (fun x hx hcx p' d' j' hj' f' hf' =>
            parse_render_truncated x hcx p' d' j' hj' f' hf')
          p (d + 1) '}' (by decide) xs
          (by have h1 : sizeOf (Value.set xs) = 1 + sizeOf xs := by simp
              omega)
          hcseq true j2 g (by omega) (by omega)]
        rfl
  | .map m, hv, p, d, j, hj, fuel, hf => by
    have hv' : (mapSorted m && constructibleEntries m) = true := hv
    simp only [Bool.and_eq_true] at hv'
    obtain ⟨hsort, hcent⟩ := hv'
    rcases fuel with _ | g
    · exact Or.inl rfl
    · rcases j with _ | j1
      · exact Or.inl rfl
      · left
        have hjlen : j1 + 1 <
            (renderEntriesF p (d + 1) true m ++ ['}']).length + 1 := hj
        simp only [List.length_append, List.length_cons, List.length_nil] at hjlen
        rw [show renderF p d (.map m) =
          '{' :: (renderEntriesF p (d + 1) true m ++ ['}']) from rfl,
          List.take_succ_cons, List.take_append_of_le_length (by omega)]
        show mapRes (parseSeqF g '}' ((renderEntriesF p (d + 1) true m).take j1)) =
          .error .eofError
        rw [parseSeqF_entriesTruncated (sizeOf (Value.map m))
          (fun x hx hcx p' d' j' hj' f' hf' =>
            parse_render_truncated x hcx p' d' j' hj' f' hf')
          p (d + 1) '}' (by decide) m
          (by have h1 : sizeOf (Value.map m) = 1 + sizeOf m := by simp
              omega)
          hcent true j1 g (by omega) (by omega)]
        rfl
  | .tagged t v, hv, p, d, j, hj, fuel, hf => by
    have hv' : (validIdent t && constructible v) = true := hv
    simp only [Bool.and_eq_true] at hv'
    obtain ⟨hvt, hcv⟩ := hv'
    have h' : (match t.data with
        | [] => false
        | c :: r => identStart c && r.all identCont) = true := hvt
    cases hs : t.data with
    | nil => rw [hs] at h'; cases h'
    | cons c2 t2 =>
      rw [hs] at h'
      simp only [Bool.and_eq_true, List.all_eq_true] at h'
      obtain ⟨hstart, hall2⟩ := h'
      have hjlen : j < (t.data ++ ' ' :: renderF p d v).length + 1 := hj
      rw [hs] at hjlen
      simp only [List.length_append, List.length_cons] at hjlen
      rcases fuel with _ | g
      · exact Or.inl rfl
      · rcases j with _ | j1
        · exact Or.inl rfl
        · rw [show renderF p d (.tagged t v) =
            '#' :: (t.data ++ ' ' :: renderF p d v) from rfl, List.take_succ_cons, hs,
            List.cons_append]
          rcases Nat.eq_zero_or_pos j1 with hz | hpos
          · subst hz
            exact Or.inl rfl
          · obtain ⟨j2, hj2⟩ : ∃ j2, j1 = j2 + 1 := ⟨j1 - 1, by omega⟩
            subst hj2
            rw [List.take_succ_cons, parseValueF_hash_ident g hstart]
            rcases Nat.lt_or_ge j2 (t2.length + 1) with hcA | hcA
            · -- still inside the tag text
              left
              rw [List.take_append_of_le_length (by omega)]
              have hallt : ∀ x ∈ t2.take j2, identCont x = true := fun x hx =>
                hall2 x (List.mem_of_mem_take hx)
              obtain ⟨ht, hd⟩ := ident_run hallt (show boundaryB [] = true from rfl)
              rw [List.append_nil] at ht hd
              rw [ht, hd, parseValueF_nil_eof g]
              rfl
            · -- at the separating space or inside the payload
              rw [List.take_append_eq_append_take,
                List.take_of_length_le (by omega),
                show j2 - t2.length = (j2 - t2.length - 1) + 1 from by omega,
                List.take_succ_cons]
              obtain ⟨ht, hd⟩ := ident_run hall2
                (boundaryB_ws_head (show wsChar ' ' = true by decide)
                  ((renderF p d v).take (j2 - t2.length - 1)))
              rw [ht, hd]
              rcases g with _ | g'
              · exact absurd hf (by omega)
              · rw [show (' ' :: (renderF p d v).take (j2 - t2.length - 1)) =
                  [' '] ++ (renderF p d v).take (j2 - t2.length - 1) from rfl,
                  parseValueF_ws g'
                    (by intro x hx; rw [List.mem_singleton] at hx; subst hx; decide) _]
                have hrec := parse_render_truncated v hcv p d (j2 - t2.length - 1)
                  (by omega) (g' + 1) (by omega)
                rcases hrec with he | ⟨w, hok⟩
                · left
                  rw [he]
                  rfl
                · right
                  refine ⟨.tagged t w, ?_⟩
                  rw [hok, show String.mk (c2 :: t2) = t from by rw [← hs]]
                  rfl
  termination_by v => sizeOf v
  decreasing_by
    all_goals first
      | assumption
      | (simp only [Value.tagged.sizeOf_spec]; omega)


/-- C2 counterexample: the length-1 strict prefix of the valid symbol
text ab is not a numeric literal, yet parse_one succeeds on it (as the
shorter symbol a) instead of returning an EOF error. -/
theorem C2_eof_prefix_counterexample :
    constructible (Value.symbol (String.mk ['a', 'b'])) = true ∧
    to_text (Value.symbol (String.mk ['a', 'b'])) Mode.compact = ['a', 'b'] ∧
    1 < (to_text (Value.symbol (String.mk ['a', 'b'])) Mode.compact).length ∧
    parse_one ((to_text (Value.symbol (String.mk ['a', 'b'])) Mode.compact).take 1) =
      .ok (Value.symbol (String.mk ['a'])) :=
  ⟨by decide, rfl, by decide, rfl⟩

/-- C2 (amended): truncating a grammar-constructible value's text
strictly before its end, parse_one reports an EOF error or succeeds with
some shorter value — it never reports a syntax error. -/
theorem C2_eof_prefix_law (v : Value) (hv : constructible v = true) (m : Mode)
    (i : Nat) (hi : i < (to_text v m).length) :
    parse_one ((to_text v m).take i) = .error .eofError ∨
    ∃ w, parse_one ((to_text v m).take i) = .ok w := by
  obtain ⟨p, hp⟩ : ∃ p, to_text v m = renderF p 0 v := by
    cases m
    · exact ⟨false, rfl⟩
    · exact ⟨true, rfl⟩
  rw [hp] at hi ⊢
  have hlen : ((renderF p 0 v).take i).length = i := by
    rw [List.length_take]
    exact min_eq_left (le_of_lt hi)
  have hmain := parse_render_truncated v hv p 0 i hi
    (2 * ((renderF p 0 v).take i).length + 1) (by rw [hlen])
  have hrv : read_value ((renderF p 0 v).take i) =
      parseValueF (2 * ((renderF p 0 v).take i).length + 1)
        ((renderF p 0 v).take i) := rfl
  rcases hmain with he | ⟨w, hok⟩
  · left
    show (match read_value ((renderF p 0 v).take i) with
      | .ok (w, rest) => if (skipWs rest).isEmpty then Except.ok w
          else Except.error ErrKind.trailingError
      | .error e => .error e) = .error .eofError
    rw [hrv, he]
  · right
    refine ⟨w, ?_⟩
    show (match read_value ((renderF p 0 v).take i) with
      | .ok (w, rest) => if (skipWs rest).isEmpty then Except.ok w
          else Except.error ErrKind.trailingError
      | .error e => .error e) = .ok w
    rw [hrv, hok]
    rfl

theorem C2_eof_prefix_law_witness :
    constructible (Value.vector (ValueVec.cons Value.nil ValueVec.nil)) = true ∧
    3 < (to_text (Value.vector (ValueVec.cons Value.nil ValueVec.nil)) Mode.compact).length ∧
    (parse_one ((to_text (Value.vector (ValueVec.cons Value.nil ValueVec.nil))
        Mode.compact).take 3) = .error .eofError ∨
      ∃ w, parse_one ((to_text (Value.vector (ValueVec.cons Value.nil ValueVec.nil))
        Mode.compact).take 3) = .ok w) :=
  ⟨by decide, by decide,
    C2_eof_prefix_law (Value.vector (ValueVec.cons Value.nil ValueVec.nil)) (by decide)
      Mode.compact 3 (by decide)⟩

end Edn
